import Mathlib

/-!
# Maximal independent set and BFS connectivity

A shallow embedding of `benchmark/MIS.h` (the rootset and the speculative
maximal-independent-set algorithms, the neighbour expansion `get_nghs` and the
checker `verify_MIS`) and of `benchmarks/Connectivity/BFSCC/Connectivity.h`
(`BFS_ComponentLabel`, `CC`).

Arrays indexed by vertex id (`priorities`, `in_mis`, `Flags`, `Parents`) are total
functions on `Nat`; only the entries below `n` are meaningful.  A parallel loop is
run as the sequential loop over the same index range; loops without a static bound
take a fuel argument and report `Err.outOfFuel` when it runs out.
-/

/-- Ways in which a run can stop without a result. -/
inductive Err where
  | assertion
  | outOfFuel
  deriving DecidableEq, Repr

/-- The graph `GA`: `n` vertices, the edge count `m`, and for each vertex id the
list of its out-neighbours (`GA.V[v]`).  Edge weights are never read by the code
embedded here and are left out. -/
structure graph where
  n : Nat
  m : Nat
  V : Nat → List Nat

/-- Every adjacency entry of a vertex is a vertex id. -/
@[reducible] def graph.wellFormed (G : graph) : Prop :=
  ∀ v, v < G.n → ∀ u, u ∈ G.V v → u < G.n

/-- Adjacency is symmetric: the graph is undirected. -/
@[reducible] def graph.symmetric (G : graph) : Prop :=
  ∀ v, v < G.n → ∀ u, u ∈ G.V v → v ∈ G.V u

/-- No vertex is its own neighbour. -/
@[reducible] def graph.noSelfLoops (G : graph) : Prop :=
  ∀ v, v < G.n → v ∉ G.V v

/-- No adjacency list names a neighbour twice. -/
@[reducible] def graph.noDuplicates (G : graph) : Prop :=
  ∀ v, v < G.n → (G.V v).Nodup

/-- A simple undirected graph. -/
@[reducible] def graph.simple (G : graph) : Prop :=
  G.wellFormed ∧ G.symmetric ∧ G.noSelfLoops ∧ G.noDuplicates

/-- The order `perm` is a bijection of the vertex ids `[0, n)`. -/
@[reducible] def isPermutation (n : Nat) (perm : Nat → Nat) : Prop :=
  (∀ i, i < n → perm i < n) ∧ (∀ i, i < n → ∀ j, j < n → perm i = perm j → i = j)

/-- Modelled from the spec: `pbbs::pack_index` (section 6, parallel
index-compaction by predicate): the indices below `n` at which the flag holds,
in increasing order. -/
def pack_index (n : Nat) (f : Nat → Bool) : List Nat :=
  (List.range n).filter f

/-- Modelled from the spec: the frontier type `vertexSubset` of ligra.h (section 6:
built from an explicit id list or from a boolean map, with a size query, a membership
test and representation conversion). -/
inductive vertexSubset where
  | sparse (n : Nat) (s : List Nat)
  | dense (n : Nat) (d : Nat → Bool)

/-- The id list of a frontier after `toSparse()`: `vtx(0), vtx(1), ...`. -/
def vertexSubset.toSparse : vertexSubset → List Nat
  | .sparse _ s => s
  | .dense n d => pack_index n d

/-- The size query `size()`: the length of the id list, or the number of set flags. -/
def vertexSubset.size : vertexSubset → Nat
  | .sparse _ s => s.length
  | .dense n d => (List.range n).countP d

/-- The membership test of a frontier. -/
def vertexSubset.mem (vs : vertexSubset) (v : Nat) : Prop :=
  match vs with
  | .sparse _ s => v ∈ s
  | .dense n d => v < n ∧ d v = true

/-- The emptiness test `isEmpty()`. -/
def vertexSubset.isEmpty (vs : vertexSubset) : Bool :=
  vs.size == 0

/-- Modelled from the spec: `vertexMap` of ligra.h, which applies a side-effecting
function to every vertex of a frontier. -/
def vertexMap {σ : Type} (vs : vertexSubset) (f : σ → Nat → σ) (st : σ) : σ :=
  vs.toSparse.foldl f st

/-- Modelled from the spec: the vertex capability `countOutNgh` (section 6: count
out-neighbours satisfying a predicate of source and neighbour). -/
def countOutNgh (G : graph) (i : Nat) (f : Nat → Nat → Bool) : Nat :=
  (G.V i).countP (fun ngh => f i ngh)

/-- Modelled from the spec: the vertex capability `mapOutNgh` (section 6: visit each
out-neighbour with a side-effecting callback). -/
def mapOutNgh {σ : Type} (G : graph) (i : Nat) (f : σ → Nat → Nat → σ) (st : σ) : σ :=
  (G.V i).foldl (fun st ngh => f st i ngh) st

/-- Modelled from the spec: the vertex capability `reduceOutNgh` (section 6: reduce
over out-neighbours with a combiner and an identity). -/
def reduceOutNgh {α : Type} (G : graph) (i : Nat) (id : α) (map_f : Nat → Nat → α)
    (red_f : α → α → α) : α :=
  (G.V i).foldl (fun acc ngh => red_f acc (map_f i ngh)) id

/-- Modelled from the spec: the vertex capability `getOutDegree`. -/
def getOutDegree (G : graph) (v : Nat) : Nat :=
  (G.V v).length

/-- The per-edge rule handed to `edgeMap`: `update` mutates the state for the edge
`(s, d)` and says whether `d` becomes active, `cond` says whether `d` is still
eligible.  Run sequentially, `updateAtomic` of `mis_f` and of
`BFS_ComponentLabel_F` does what `update` does whenever `cond` holds. -/
structure edgeMapF (σ : Type) where
  update : σ → Nat → Nat → σ × Bool
  cond : σ → Nat → Bool

/-- One edge `(s, d)` of an `edgeMap` traversal. -/
def edgeMap.visit {σ : Type} (f : edgeMapF σ) (s : Nat) (acc : σ × List Nat) (d : Nat) :
    σ × List Nat :=
  if f.cond acc.1 d then
    let r := f.update acc.1 s d
    (r.1, if r.2 then acc.2 ++ [d] else acc.2)
  else acc

/-- Modelled from the spec: the edge traversal `edgeMap` of ligra.h (section 6): for
every frontier vertex `s` and every out-neighbour `d` of `s` with `cond(d)`, run
`update(s, d)`; the targets for which it returned true form the next frontier. -/
def edgeMap {σ : Type} (G : graph) (vs : vertexSubset) (f : edgeMapF σ) (st : σ) :
    σ × vertexSubset :=
  let r := vs.toSparse.foldl (fun acc s => (G.V s).foldl (edgeMap.visit f s) acc) (st, [])
  (r.1, vertexSubset.sparse G.n r.2)

/-- Modelled from the spec: `insert` of the concurrent hash set `sparse_table`
(section 4.3): inserting a key that is present changes nothing. -/
def sparse_table.insert (ht : List Nat) (k : Nat) : List Nat :=
  if k ∈ ht then ht else ht ++ [k]

namespace MIS_rootset

/-- The dense branch of `get_nghs`: one flag per vertex, set for every out-neighbour
of the frontier that satisfies `p`. -/
def get_nghs.dense (G : graph) (vs : vertexSubset) (p : Nat → Bool) : vertexSubset :=
  let map_f := fun (dense : Nat → Bool) (_src ngh : Nat) =>
    if p ngh && !dense ngh then Function.update dense ngh true else dense
  let dense := vs.toSparse.foldl (fun dense v => mapOutNgh G v map_f dense) (fun _ => false)
  vertexSubset.dense G.n dense

/-- The sparse branch of `get_nghs`: the out-neighbours of the frontier that satisfy
`p` are inserted into a hash set, whose entries become the id list.  `entries` is the
order in which the table hands back its distinct keys. -/
def get_nghs.sparse (entries : List Nat → List Nat) (G : graph) (vs : vertexSubset)
    (p : Nat → Bool) : vertexSubset :=
  let map_f := fun (ht : List Nat) (_src ngh : Nat) =>
    if p ngh then sparse_table.insert ht ngh else ht
  let ht := vs.toSparse.foldl (fun ht v => mapOutNgh G v map_f ht) []
  vertexSubset.sparse G.n (entries ht)

/-- The neighbour expansion `get_nghs`, choosing its branch by the summed out-degree
of the frontier. -/
def get_nghs (entries : List Nat → List Nat) (G : graph) (vs : vertexSubset)
    (p : Nat → Bool) : vertexSubset :=
  let sum_d := (vs.toSparse.map (fun v => getOutDegree G v)).sum
  if sum_d > G.m / 100 then get_nghs.dense G vs p else get_nghs.sparse entries G vs p

/-- The edge rule `mis_f`: an edge from a lower-ranked source decrements the
priority of its target, which becomes active when the priority reaches zero. -/
def mis_f (perm : Nat → Nat) : edgeMapF (Nat → Int) where
  update := fun p s d =>
    if perm s < perm d then
      let p1 := Function.update p d (p d - 1)
      (p1, decide (p1 d = 0))
    else (p, false)
  cond := fun p d => decide (p d > 0)

/-- The variables of `MIS` that live across rounds. -/
structure State where
  priorities : Nat → Int
  roots : vertexSubset
  in_mis : Nat → Bool
  finished : Nat
  rounds : Nat

/-- The state of `MIS` when it reaches its `while` loop: the priority of a vertex is
the number of its out-neighbours ranked before it, the roots are the vertices of
priority zero. -/
def MIS.init (G : graph) (perm : Nat → Nat) : State :=
  let priorities : Nat → Int := fun i =>
    (countOutNgh G i (fun _src ngh => decide (perm ngh < perm i)) : Nat)
  let init := pack_index G.n (fun i => decide (priorities i = 0))
  { priorities := priorities
    roots := vertexSubset.sparse G.n init
    in_mis := fun _ => false
    finished := 0
    rounds := 0 }

/-- The set `removed` of one round: the out-neighbours of the roots that are still
live. -/
def MIS.removed (entries : List Nat → List Nat) (G : graph) (st : State) : vertexSubset :=
  get_nghs entries G st.roots (fun ngh => decide (st.priorities ngh > 0))

/-- The body of the `while` loop of `MIS`. -/
def MIS.round (entries : List Nat → List Nat) (G : graph) (perm : Nat → Nat)
    (st : State) : State :=
  let in_mis := vertexMap st.roots (fun in_mis v => Function.update in_mis v true) st.in_mis
  let removed := MIS.removed entries G st
  let priorities := vertexMap removed (fun pr v => Function.update pr v 0) st.priorities
  let new_roots := edgeMap G removed (mis_f perm) priorities
  { priorities := new_roots.1
    roots := new_roots.2
    in_mis := in_mis
    finished := st.finished + st.roots.size + removed.size
    rounds := st.rounds + 1 }

/-- The `while (finished != n)` loop of `MIS`, with its assertion. -/
def MIS.loop (entries : List Nat → List Nat) (G : graph) (perm : Nat → Nat) :
    Nat → State → Except Err State
  | 0, _ => .error .outOfFuel
  | fuel + 1, st =>
    if st.finished = G.n then .ok st
    else if st.roots.size = 0 then .error .assertion
    else MIS.loop entries G perm fuel (MIS.round entries G perm st)

/-- The rootset algorithm `MIS_rootset::MIS`; `perm` is the random permutation it
draws, and the result is `in_mis`. -/
def MIS (entries : List Nat → List Nat) (G : graph) (perm : Nat → Nat) (fuel : Nat) :
    Except Err (Nat → Bool) :=
  (MIS.loop entries G perm fuel (MIS.init G perm)).map (fun st => st.in_mis)

/-- The state at the start of iteration `k` of the loop body, run without looking at
the loop condition. -/
def MIS.stateAt (entries : List Nat → List Nat) (G : graph) (perm : Nat → Nat) :
    Nat → State
  | 0 => MIS.init G perm
  | k + 1 => MIS.round entries G perm (MIS.stateAt entries G perm k)

/-- The roots of the rounds before round `k`, concatenated. -/
def MIS.rootsBefore (entries : List Nat → List Nat) (G : graph) (perm : Nat → Nat)
    (k : Nat) : List Nat :=
  (List.range k).flatMap (fun j => (MIS.stateAt entries G perm j).roots.toSparse)

/-- The removed sets of the rounds before round `k`, concatenated. -/
def MIS.removedBefore (entries : List Nat → List Nat) (G : graph) (perm : Nat → Nat)
    (k : Nat) : List Nat :=
  (List.range k).flatMap
    (fun j => (MIS.removed entries G (MIS.stateAt entries G perm j)).toSparse)

end MIS_rootset

/-- Modelled from the spec: the strategy interface of the batch engine (section 4.4):
`reserve(i)` and `commit(i)`, each returning a flag. -/
structure speculativeStep (σ : Type) where
  reserve : σ → Nat → σ × Bool
  commit : σ → Nat → σ × Bool

/-- Modelled from the spec: one round of the batch engine (section 4.4): `reserve`
for every index of the working set, then `commit` for every index; the indices whose
commit returned false stay in the working set. -/
def eff_for.round {σ : Type} (step : speculativeStep σ) (W : List Nat) (st : σ) :
    σ × List Nat :=
  let st1 := W.foldl (fun st i => (step.reserve st i).1) st
  W.foldl (fun acc i =>
    let r := step.commit acc.1 i
    (r.1, if r.2 then acc.2 else acc.2 ++ [i])) (st1, [])

/-- Modelled from the spec: the rounds of the batch engine (section 4.4), repeated
until the working set is empty. -/
def eff_for.loop {σ : Type} (step : speculativeStep σ) : Nat → List Nat → σ → Except Err σ
  | 0, _, _ => .error .outOfFuel
  | fuel + 1, W, st =>
    if W.isEmpty then .ok st
    else
      let r := eff_for.round step W st
      eff_for.loop step fuel r.2 r.1

/-- Modelled from the spec: the batch engine `eff_for` of lib/speculative_for.h
(section 4.4) over the index range `[s, e)`; the working set starts as the whole
range, and the batch granularity is a tuning constant that the protocol does not
read. -/
def eff_for {σ : Type} (step : speculativeStep σ) (s e : Nat) (_granularity : Nat)
    (fuel : Nat) (st : σ) : Except Err σ :=
  eff_for.loop step fuel (List.range' s (e - s)) st

namespace MIS_spec_for

/-- The buffers of `MISstep`: 0 is undecided, 1 is chosen, 2 is a neighbour is
chosen. -/
structure MISstep where
  FlagsNext : Nat → Nat
  Flags : Nat → Nat

/-- The operation `MISstep::reserve`. -/
def MISstep.reserve (G : graph) (st : MISstep) (i : Nat) : MISstep × Bool :=
  let st1 : MISstep := { st with FlagsNext := Function.update st.FlagsNext i 1 }
  let map_f := fun (src ngh : Nat) =>
    if ngh < src then
      let fl := st1.Flags ngh
      ((if fl = 1 then 1 else 0 : Nat), (if fl = 0 then 1 else 0 : Nat))
    else (0, 0)
  let red_f := fun (l r : Nat × Nat) => (l.1 + r.1, l.2 + r.2)
  let res := reduceOutNgh G i (0, 0) map_f red_f
  if res.1 > 0 then
    ({ st1 with FlagsNext := Function.update st1.FlagsNext i 2 }, true)
  else if res.2 > 0 then
    ({ st1 with FlagsNext := Function.update st1.FlagsNext i 0 }, true)
  else (st1, true)

/-- The value of a `char` that holds the byte `b`.  The buffers of `MISstep` are
arrays of `char`, a signed 8-bit type: the bytes 0 to 127 are the values 0 to 127 and the
bytes 128 to 255 are the values -128 to -1. -/
def MISstep.charValue (b : Nat) : Int :=
  if b % 256 < 128 then ((b % 256 : Nat) : Int) else ((b % 256 : Nat) : Int) - 256

/-- The operation `MISstep::commit`: the assignment `Flags[i] = FlagsNext[i]`, whose
value, a `char`, is compared with 0. -/
def MISstep.commit (st : MISstep) (i : Nat) : MISstep × Bool :=
  let st1 : MISstep := { st with Flags := Function.update st.Flags i (st.FlagsNext i) }
  (st1, decide (MISstep.charValue (st1.Flags i) > 0))

/-- The strategy object `mis` handed to the engine. -/
def MISstep.step (G : graph) : speculativeStep MISstep where
  reserve := MISstep.reserve G
  commit := MISstep.commit

/-- The speculative algorithm `MIS_spec_for::MIS`; `FlagsNext0` is the content of
the array `FlagsNext`, which the code leaves uninitialised.  The result is `Flags`. -/
def MIS (G : graph) (FlagsNext0 : Nat → Nat) (fuel : Nat) : Except Err (Nat → Nat) :=
  (eff_for (MISstep.step G) 0 G.n 50 fuel
    { FlagsNext := FlagsNext0, Flags := fun _ => 0 }).map (fun st => st.Flags)

end MIS_spec_for

/-- The flag `ok[i]` of `verify_MIS`. -/
def verify_MIS.ok (G : graph) (mis : Nat → Bool) (i : Nat) : Bool :=
  let ct := countOutNgh G i (fun _src ngh => mis ngh)
  if mis i then decide (ct = 0) else decide (ct > 0)

/-- The sum `n_ok` of `verify_MIS`. -/
def verify_MIS.n_ok (G : graph) (mis : Nat → Bool) : Nat :=
  ((List.range G.n).map (fun i => if verify_MIS.ok G mis i then 1 else 0)).sum

/-- What `verify_MIS` prints. -/
inductive Report where
  | valid
  | invalid (bad : Nat)
  deriving DecidableEq, Repr

/-- The checker `verify_MIS`. -/
def verify_MIS (G : graph) (mis : Nat → Bool) : Report :=
  let n_ok := verify_MIS.n_ok G mis
  if n_ok = G.n then Report.valid else Report.invalid (G.n - n_ok)

/-- The condition the checker is meant to test at vertex `i`: a member has no member
among its out-neighbours, a non-member has at least one. -/
@[reducible] def goodNeighbourhood (G : graph) (mis : Nat → Bool) (i : Nat) : Prop :=
  (mis i = true → ∀ u, u ∈ G.V i → mis u = false) ∧
  (mis i = false → ∃ u, u ∈ G.V i ∧ mis u = true)

namespace bfs_cc

/-- The edge rule `BFS_ComponentLabel_F`. -/
def BFS_ComponentLabel_F (UINT_E_MAX : Nat) (src : Nat) : edgeMapF (Nat → Nat) where
  update := fun Parents _s d =>
    if Parents d ≠ src then (Function.update Parents d src, true) else (Parents, false)
  cond := fun Parents d => decide (Parents d = UINT_E_MAX)

/-- The `while (!Frontier.isEmpty())` loop of `BFS_ComponentLabel`. -/
def BFS_ComponentLabel.loop (UINT_E_MAX : Nat) (G : graph) (src : Nat) :
    Nat → vertexSubset → (Nat → Nat) → Except Err (Nat → Nat)
  | 0, _, _ => .error .outOfFuel
  | fuel + 1, Frontier, parents =>
    if Frontier.isEmpty then .ok parents
    else
      let output := edgeMap G Frontier (BFS_ComponentLabel_F UINT_E_MAX src) parents
      BFS_ComponentLabel.loop UINT_E_MAX G src fuel output.2 output.1

/-- The procedure `BFS_ComponentLabel`, returning the array `parents` it updated. -/
def BFS_ComponentLabel (UINT_E_MAX : Nat) (G : graph) (src : Nat) (fuel : Nat)
    (parents : Nat → Nat) : Except Err (Nat → Nat) :=
  BFS_ComponentLabel.loop UINT_E_MAX G src fuel (vertexSubset.sparse G.n [src]) parents

/-- The `for` loop of `CC` over the vertex ids in `is`. -/
def CC.loop (UINT_E_MAX : Nat) (G : graph) (fuel : Nat) :
    List Nat → (Nat → Nat) → Except Err (Nat → Nat)
  | [], parents => .ok parents
  | i :: is, parents =>
    if parents i = UINT_E_MAX then
      match BFS_ComponentLabel UINT_E_MAX G i fuel parents with
      | .ok parents1 => CC.loop UINT_E_MAX G fuel is parents1
      | .error e => .error e
    else CC.loop UINT_E_MAX G fuel is parents

/-- The function `bfs_cc::CC`; `fuel` bounds the rounds of each search. -/
def CC (UINT_E_MAX : Nat) (G : graph) (fuel : Nat) : Except Err (Nat → Nat) :=
  CC.loop UINT_E_MAX G fuel (List.range G.n) (fun _ => UINT_E_MAX)

end bfs_cc

/-- The 4-cycle 0-1-2-3-0. -/
def cycle4 : graph :=
  { n := 4
    m := 8
    V := fun v => match v with
      | 0 => [1, 3]
      | 1 => [0, 2]
      | 2 => [1, 3]
      | 3 => [2, 0]
      | _ => [] }

/-- The star with centre 0 and leaves 1, 2, 3. -/
def star4 : graph :=
  { n := 4
    m := 6
    V := fun v => match v with
      | 0 => [1, 2, 3]
      | 1 => [0]
      | 2 => [0]
      | 3 => [0]
      | _ => [] }

/-- Two isolated vertices. -/
def isolated2 : graph :=
  { n := 2
    m := 0
    V := fun _ => [] }

/-- The value that `reserve(i)` leaves in `FlagsNext[i]` when the current flags are
`Flags`: 2 when a smaller-id out-neighbour is chosen, else 0 when one is undecided,
else 1. -/
def MIS_spec_for.decision (G : graph) (Flags : Nat → Nat) (i : Nat) : Nat :=
  if 0 < (G.V i).countP (fun ngh => decide (ngh < i ∧ Flags ngh = 1)) then 2
  else if 0 < (G.V i).countP (fun ngh => decide (ngh < i ∧ Flags ngh = 0)) then 0
  else 1

/-- The invariant of the rounds of the speculative algorithm: the working set `W` is
the set of undecided vertices, a chosen vertex has only excluded smaller-id
neighbours, and an excluded vertex has a chosen smaller-id neighbour. -/
structure MIS_spec_for.Inv (G : graph) (W : List Nat) (Flags : Nat → Nat) : Prop where
  working : ∀ x, x ∈ W ↔ x < G.n ∧ Flags x = 0
  chosen : ∀ x, x < G.n → Flags x = 1 → ∀ u, u ∈ G.V x → u < x → Flags u = 2
  excluded : ∀ x, x < G.n → Flags x = 2 → ∃ u, u ∈ G.V x ∧ u < x ∧ Flags u = 1
  range : ∀ x, Flags x ≤ 2

/-- Vertex `v` can be reached from vertex `u` along edges of the graph. -/
def graph.reachable (G : graph) (u v : Nat) : Prop :=
  Relation.ReflTransGen (fun a b => b ∈ G.V a) u v

/-- The invariant of the `while` loop of `MIS_rootset::MIS`.  `mlog` lists the
vertices that were roots of an earlier round (the members), `xlog` those that were in
the removed set of an earlier round.  A vertex is live when its priority is positive;
the priority of a live vertex or of a root counts its lower-ranked neighbours that
are live or roots. -/
structure MIS_rootset.Inv (G : graph) (perm : Nat → Nat) (st : MIS_rootset.State)
    (mlog xlog : List Nat) : Prop where
  roots_nodup : st.roots.toSparse.Nodup
  roots_spec : ∀ v, v ∈ st.roots.toSparse →
    v < G.n ∧ st.priorities v = 0 ∧ st.in_mis v = false
  member_spec : ∀ v, st.in_mis v = true →
    v < G.n ∧ st.priorities v = 0 ∧
      ∀ u, u ∈ G.V v → st.priorities u = 0 ∧ st.in_mis u = false ∧ u ∉ st.roots.toSparse
  pri_nonneg : ∀ v, v < G.n → 0 ≤ st.priorities v
  pri_count : ∀ v, v < G.n → (0 < st.priorities v ∨ v ∈ st.roots.toSparse) →
    st.priorities v = ((G.V v).countP (fun u =>
      decide (perm u < perm v ∧ (0 < st.priorities u ∨ u ∈ st.roots.toSparse))) : Nat)
  removed_spec : ∀ v, v < G.n → st.priorities v = 0 → st.in_mis v = false →
    v ∉ st.roots.toSparse → ∃ u, u ∈ G.V v ∧ st.in_mis u = true
  log_nodup : (mlog ++ xlog).Nodup
  mlog_spec : ∀ v, v ∈ mlog ↔ st.in_mis v = true
  xlog_spec : ∀ v, v ∈ xlog ↔
    v < G.n ∧ st.priorities v = 0 ∧ st.in_mis v = false ∧ v ∉ st.roots.toSparse
  finished_eq : st.finished = mlog.length + xlog.length

/-- The comparison `hash_lt`: by hash value, ties broken by raw id.  The hash function
`pbbs::hash32` is not among the sources and is a parameter. -/
def MIS_rootset.hash_lt (hash32 : Nat → Nat) (src ngh : Nat) : Bool :=
  let src_h := hash32 src
  let ngh_h := hash32 ngh
  decide (src_h < ngh_h) || (decide (src_h = ngh_h) && decide (src < ngh))

/-- The edge rule `mis_f_2`, which orders the endpoints with `hash_lt`. -/
def MIS_rootset.mis_f_2 (hash32 : Nat → Nat) : edgeMapF (Nat → Int) where
  update := fun p s d =>
    if MIS_rootset.hash_lt hash32 s d then
      let p1 := Function.update p d (p d - 1)
      (p1, decide (p1 d = 0))
    else (p, false)
  cond := fun p d => decide (p d > 0)

/-- The array `d` of `verify_mis` after its first loop: every out-neighbour of a
member is marked with 1. -/
def MIS_rootset.verify_mis.d (G : graph) (in_mis : Nat → Bool) : Nat → Nat :=
  let map_f := fun (d : Nat → Nat) (_src ngh : Nat) =>
    if d ngh = 0 then Function.update d ngh 1 else d
  (List.range G.n).foldl
    (fun d i => if in_mis i then mapOutNgh G i map_f d else d) (fun _ => 0)

/-- The checker `MIS_rootset::verify_mis`: its two assertions, in order. -/
def MIS_rootset.verify_mis (G : graph) (in_mis : Nat → Bool) : Except Err Unit :=
  let d := MIS_rootset.verify_mis.d G in_mis
  if (List.range G.n).all (fun i => if in_mis i then decide (d i = 0) else true) then
    let mis_size := ((List.range G.n).map (fun i => if in_mis i then 1 else 0)).sum
    if ((List.range G.n).map d).sum = G.n - mis_size then .ok ()
    else .error .assertion
  else .error .assertion

namespace pbbs

/-- Ways in which a call of `kth_smallest` can go wrong. -/
inductive Fault where
  | divisionByZero
  | indexOutOfRange
  | outOfFuel
  deriving DecidableEq, Repr

/-- What one activation of `kth_smallest` does: it returns a value or it makes one
recursive call. -/
inductive kth_smallest.Step (T : Type) where
  | result (x : T)
  | recurse (s : List T) (k : Nat)

/-- The body of `kth_smallest` up to its recursive call; `r0` is the value `r[0]` of
the random source.  The index of the call on `larger` is computed as the code does, in
64-bit unsigned arithmetic. -/
def kth_smallest.step {T : Type} (less : T → T → Bool) (s : List T) (k : Nat) (r0 : Nat) :
    Except Fault (kth_smallest.Step T) :=
  let n := s.length
  if n = 0 then .error .divisionByZero
  else
    match s[r0 % n]? with
    | none => .error .indexOutOfRange
    | some pivot =>
      let smaller := s.filter (fun a => less a pivot)
      if k < smaller.length then .ok (.recurse smaller k)
      else
        let larger := s.filter (fun a => less pivot a)
        if k ≥ n - larger.length then
          .ok (.recurse larger
            ((k + 18446744073709551616 - n + larger.length) % 18446744073709551616))
        else .ok (.result pivot)

/-- The function `pbbs::kth_smallest`.  The random source is the sequence `r` of the
values `r[0]`, `r.next()[0]`, `r.next().next()[0]`, ... -/
def kth_smallest {T : Type} (less : T → T → Bool) :
    Nat → List T → Nat → (Nat → Nat) → Except Fault T
  | 0, _, _, _ => .error .outOfFuel
  | fuel + 1, s, k, r =>
    match kth_smallest.step less s k (r 0) with
    | .error e => .error e
    | .ok (.result x) => .ok x
    | .ok (.recurse s1 k1) => kth_smallest less fuel s1 k1 (fun i => r (i + 1))

/-- The arguments of the recursive calls that a call of `kth_smallest` leads to, in
order. -/
def kth_smallest.calls {T : Type} (less : T → T → Bool) :
    Nat → List T → Nat → (Nat → Nat) → List (List T × Nat)
  | 0, _, _, _ => []
  | fuel + 1, s, k, r =>
    match kth_smallest.step less s k (r 0) with
    | .ok (.recurse s1 k1) =>
      (s1, k1) :: kth_smallest.calls less fuel s1 k1 (fun i => r (i + 1))
    | _ => []

end pbbs

/-- The vertices in increasing order of rank: those of rank 0, then those of rank 1,
and so on. -/
def greedy.order (n : Nat) (perm : Nat → Nat) : List Nat :=
  (List.range n).flatMap (fun r => (List.range n).filter (fun v => decide (perm v = r)))

/-- One visit of the sequential greedy algorithm: the vertex is selected unless one of
its neighbours is. -/
def greedy.visit (G : graph) (sel : Nat → Bool) (v : Nat) : Nat → Bool :=
  if (G.V v).any sel then sel else Function.update sel v true

/-- The sequential greedy algorithm of the claims: it visits the vertices in increasing
rank and selects a vertex exactly when none of its already-visited neighbours was
selected. -/
def greedyMIS (G : graph) (perm : Nat → Nat) : Nat → Bool :=
  (greedy.order G.n perm).foldl (greedy.visit G) (fun _ => false)

/-- A directed path of the priority DAG: every vertex is followed by a neighbour of
higher rank. -/
def priorityPath (G : graph) (perm : Nat → Nat) (path : List Nat) : Prop :=
  (∀ v, v ∈ path → v < G.n) ∧ path.Chain' (fun a b => b ∈ G.V a ∧ perm a < perm b)

/-- The priorities inside a round, after the first `i` vertices of `removed` have
been set to zero. -/
def MIS_rootset.MIS.zeroingPrefix (entries : List Nat → List Nat) (G : graph)
    (st : MIS_rootset.State) (i : Nat) : Nat → Int :=
  ((MIS_rootset.MIS.removed entries G st).toSparse.take i).foldl
    (fun pr v => Function.update pr v 0) st.priorities

/-- The priorities inside a round, after the first `j` edges of the traversal from
`removed`. -/
def MIS_rootset.MIS.traversalPrefix (entries : List Nat → List Nat) (G : graph)
    (perm : Nat → Nat) (st : MIS_rootset.State) (j : Nat) : Nat → Int :=
  ((((MIS_rootset.MIS.removed entries G st).toSparse.flatMap
      (fun s => (G.V s).map (fun d => (s, d)))).take j).foldl
    (fun acc e => edgeMap.visit (MIS_rootset.mis_f perm) e.1 acc e.2)
    (vertexMap (MIS_rootset.MIS.removed entries G st)
      (fun pr v => Function.update pr v 0) st.priorities, [])).1

/-- The state and the working set of the batch engine after `k` rounds, run without
looking at the loop condition. -/
def eff_for.stateAt {σ : Type} (step : speculativeStep σ) (W : List Nat) (st : σ) :
    Nat → σ × List Nat
  | 0 => (st, W)
  | k + 1 =>
    eff_for.round step (eff_for.stateAt step W st k).2 (eff_for.stateAt step W st k).1

/-- Modelled from the spec: the batch engine (section 4.4) with an explicit batching
schedule.  In round `k` the schedule names a batch; the engine calls `reserve` for
every pending index of the batch, then `commit` for every one of them, and drops from
the working set those whose commit returned true. -/
def eff_for.scheduled {σ : Type} (step : speculativeStep σ)
    (sched : Nat → List Nat → List Nat) : Nat → Nat → List Nat → σ → Except Err σ
  | 0, _, _, _ => .error .outOfFuel
  | fuel + 1, k, W, st =>
    if W.isEmpty then .ok st
    else
      let B := (sched k W).filter (fun i => decide (i ∈ W))
      let r := eff_for.round step B st
      let W1 := W.filter (fun i => decide (i ∉ B ∨ i ∈ r.2))
      eff_for.scheduled step sched fuel (k + 1) W1 r.1

/-- The speculative algorithm `MIS_spec_for::MIS` run by the engine under a batching
schedule. -/
def MIS_spec_for.MIS_scheduled (G : graph) (sched : Nat → List Nat → List Nat)
    (FlagsNext0 : Nat → Nat) (fuel : Nat) : Except Err (Nat → Nat) :=
  (eff_for.scheduled (MIS_spec_for.MISstep.step G) sched fuel 0 (List.range' 0 (G.n - 0))
    { FlagsNext := FlagsNext0, Flags := fun _ => 0 }).map (fun st => st.Flags)

/-! ## The checker `verify_MIS` -/

theorem sum_map_ite_eq_countP (f : Nat → Bool) (l : List Nat) :
    (l.map (fun i => if f i then 1 else 0)).sum = l.countP f := by
  induction l with
  | nil => rfl
  | cons a l ih =>
    rw [List.map_cons, List.sum_cons, ih, List.countP_cons]
    cases f a <;> simp [Nat.add_comm]

theorem verify_MIS_ok_iff (G : graph) (mis : Nat → Bool) (i : Nat) :
    verify_MIS.ok G mis i = true ↔ goodNeighbourhood G mis i := by
  unfold verify_MIS.ok countOutNgh goodNeighbourhood
  cases hm : mis i
  · simp [List.countP_pos_iff]
  · simp [List.countP_eq_zero]

theorem verify_MIS_n_ok_eq (G : graph) (mis : Nat → Bool) :
    verify_MIS.n_ok G mis = (List.range G.n).countP (verify_MIS.ok G mis) := by
  unfold verify_MIS.n_ok
  exact sum_map_ite_eq_countP _ _

theorem verify_MIS_n_ok_le (G : graph) (mis : Nat → Bool) :
    verify_MIS.n_ok G mis ≤ G.n := by
  rw [verify_MIS_n_ok_eq]
  simpa using List.countP_le_length (verify_MIS.ok G mis) (l := List.range G.n)

theorem verify_MIS_n_ok_eq_n_iff (G : graph) (mis : Nat → Bool) :
    verify_MIS.n_ok G mis = G.n ↔ ∀ i, i < G.n → goodNeighbourhood G mis i := by
  rw [verify_MIS_n_ok_eq]
  have h := List.countP_eq_length (p := verify_MIS.ok G mis) (l := List.range G.n)
  rw [List.length_range] at h
  rw [h]
  constructor
  · intro hall i hi
    exact (verify_MIS_ok_iff G mis i).1 (hall i (List.mem_range.2 hi))
  · intro hall i hi
    exact (verify_MIS_ok_iff G mis i).2 (hall i (List.mem_range.1 hi))

theorem verify_MIS_bad_count (G : graph) (mis : Nat → Bool) :
    G.n - verify_MIS.n_ok G mis =
      ((List.range G.n).filter (fun i => decide (¬ goodNeighbourhood G mis i))).length := by
  rw [verify_MIS_n_ok_eq]
  have h := List.length_eq_countP_add_countP (verify_MIS.ok G mis) (l := List.range G.n)
  rw [List.length_range] at h
  have h2 : (List.range G.n).countP (fun a => decide ¬ verify_MIS.ok G mis a = true) =
      ((List.range G.n).filter (fun i => decide (¬ goodNeighbourhood G mis i))).length := by
    rw [List.countP_eq_length_filter]
    congr 1
    apply List.filter_congr
    intro i _
    show decide _ = decide _
    exact decide_eq_decide.2 (not_congr (verify_MIS_ok_iff G mis i))
  omega

/-- C5: `verify_MIS` reports a valid MIS (`n_ok == n`) exactly when every member has
no member out-neighbour and every non-member has one; the number `n - n_ok` it reports
otherwise is the number of vertices violating that condition.  On the 4-cycle it
rejects {0,1} and accepts {0,2} and {1,3}. -/
theorem verify_MIS_sound_complete (G : graph) (mis : Nat → Bool) :
    (verify_MIS.n_ok G mis = G.n ↔ ∀ i, i < G.n → goodNeighbourhood G mis i) ∧
    (verify_MIS G mis = Report.valid ↔ ∀ i, i < G.n → goodNeighbourhood G mis i) ∧
    (G.n - verify_MIS.n_ok G mis =
      ((List.range G.n).filter (fun i => decide (¬ goodNeighbourhood G mis i))).length) ∧
    (verify_MIS G mis = Report.valid ∨ verify_MIS G mis = Report.invalid
      ((List.range G.n).filter (fun i => decide (¬ goodNeighbourhood G mis i))).length) ∧
    verify_MIS cycle4 (fun i => i == 0 || i == 1) = Report.invalid 2 ∧
    verify_MIS cycle4 (fun i => i == 0 || i == 2) = Report.valid ∧
    verify_MIS cycle4 (fun i => i == 1 || i == 3) = Report.valid := by
  refine ⟨verify_MIS_n_ok_eq_n_iff G mis, ?_, verify_MIS_bad_count G mis, ?_, by decide,
    by decide, by decide⟩
  · rw [← verify_MIS_n_ok_eq_n_iff]
    unfold verify_MIS
    by_cases h : verify_MIS.n_ok G mis = G.n <;> simp [h]
  · unfold verify_MIS
    by_cases h : verify_MIS.n_ok G mis = G.n
    · left; simp [h]
    · right; simp [h, verify_MIS_bad_count]

/-! ## Frontiers and the neighbour expansion `get_nghs` -/

theorem foldl_flatMap_eq {α β γ : Type} (g : α → List β) (f : γ → β → γ) (l : List α)
    (init : γ) :
    l.foldl (fun acc s => (g s).foldl f acc) init = (l.flatMap g).foldl f init := by
  induction l generalizing init with
  | nil => rfl
  | cons a l ih => simp [List.flatMap_cons, List.foldl_append, ih]

theorem vertexSubset.mem_toSparse (vs : vertexSubset) (v : Nat) :
    v ∈ vs.toSparse ↔ vs.mem v := by
  cases vs with
  | sparse n s => simp [vertexSubset.toSparse, vertexSubset.mem]
  | dense n d => simp [vertexSubset.toSparse, vertexSubset.mem, pack_index]

theorem vertexSubset.size_eq_length (vs : vertexSubset) :
    vs.size = vs.toSparse.length := by
  cases vs with
  | sparse n s => rfl
  | dense n d => simp [vertexSubset.toSparse, vertexSubset.size, pack_index,
      List.countP_eq_length_filter]

theorem pack_index_nodup (n : Nat) (f : Nat → Bool) : (pack_index n f).Nodup :=
  (List.nodup_range n).filter _

theorem mem_pack_index (n : Nat) (f : Nat → Bool) (x : Nat) :
    x ∈ pack_index n f ↔ x < n ∧ f x = true := by
  simp [pack_index]

theorem dense_fold_spec (p : Nat → Bool) (L : List Nat) (init : Nat → Bool) (x : Nat) :
    (L.foldl (fun (dense : Nat → Bool) ngh =>
        if p ngh && !dense ngh then Function.update dense ngh true else dense) init) x = true ↔
      init x = true ∨ (x ∈ L ∧ p x = true) := by
  induction L generalizing init with
  | nil => simp
  | cons a L ih =>
    rw [List.foldl_cons, ih]
    by_cases hc : (p a && !init a) = true
    · rw [if_pos hc]
      simp only [Bool.and_eq_true, Bool.not_eq_true'] at hc
      by_cases hxa : x = a
      · subst hxa
        simp [hc.1]
      · simp [Function.update_noteq hxa, hxa]
    · rw [if_neg hc]
      simp only [Bool.and_eq_true, Bool.not_eq_true', not_and, Bool.not_eq_false] at hc
      by_cases hxa : x = a
      · subst hxa
        constructor
        · rintro (h | h)
          · exact Or.inl h
          · exact Or.inr ⟨List.mem_cons_of_mem _ h.1, h.2⟩
        · rintro (h | h)
          · exact Or.inl h
          · exact Or.inl (hc h.2)
      · simp [hxa]

theorem sparse_table.mem_insert (ht : List Nat) (k x : Nat) :
    x ∈ sparse_table.insert ht k ↔ x ∈ ht ∨ x = k := by
  unfold sparse_table.insert
  by_cases h : k ∈ ht
  · rw [if_pos h]
    constructor
    · exact Or.inl
    · rintro (h1 | h1)
      · exact h1
      · exact h1 ▸ h
  · rw [if_neg h]
    simp

theorem sparse_table.nodup_insert (ht : List Nat) (k : Nat) (h : ht.Nodup) :
    (sparse_table.insert ht k).Nodup := by
  unfold sparse_table.insert
  by_cases hk : k ∈ ht
  · rw [if_pos hk]; exact h
  · rw [if_neg hk]
    exact List.Nodup.append h (List.nodup_singleton k) (by simpa using hk)

theorem sparse_fold_spec (p : Nat → Bool) (L : List Nat) (init : List Nat) :
    (init.Nodup → (L.foldl (fun (ht : List Nat) ngh =>
        if p ngh then sparse_table.insert ht ngh else ht) init).Nodup) ∧
    ∀ x, x ∈ L.foldl (fun (ht : List Nat) ngh =>
        if p ngh then sparse_table.insert ht ngh else ht) init ↔
      x ∈ init ∨ (x ∈ L ∧ p x = true) := by
  induction L generalizing init with
  | nil => simp
  | cons a L ih =>
    rw [List.foldl_cons]
    obtain ⟨ih1, ih2⟩ := ih (if p a then sparse_table.insert init a else init)
    refine ⟨fun hn => ih1 ?_, fun x => ?_⟩
    · by_cases hp : p a = true
      · rw [if_pos hp]; exact sparse_table.nodup_insert _ _ hn
      · rw [if_neg hp]; exact hn
    · rw [ih2]
      by_cases hp : p a = true
      · rw [if_pos hp, sparse_table.mem_insert]
        constructor
        · rintro ((h | h) | h)
          · exact Or.inl h
          · exact Or.inr ⟨by simp [h], h ▸ hp⟩
          · exact Or.inr ⟨List.mem_cons_of_mem _ h.1, h.2⟩
        · rintro (h | ⟨h, hx⟩)
          · exact Or.inl (Or.inl h)
          · rcases List.mem_cons.1 h with h | h
            · exact Or.inl (Or.inr h)
            · exact Or.inr ⟨h, hx⟩
      · rw [if_neg hp]
        constructor
        · rintro (h | h)
          · exact Or.inl h
          · exact Or.inr ⟨List.mem_cons_of_mem _ h.1, h.2⟩
        · rintro (h | ⟨h, hx⟩)
          · exact Or.inl h
          · rcases List.mem_cons.1 h with h | h
            · exact absurd (h ▸ hx) hp
            · exact Or.inr ⟨h, hx⟩

theorem MIS_rootset.get_nghs_dense_mem (G : graph) (vs : vertexSubset) (p : Nat → Bool)
    (x : Nat) :
    (MIS_rootset.get_nghs.dense G vs p).mem x ↔
      x < G.n ∧ ∃ v, vs.mem v ∧ x ∈ G.V v ∧ p x = true := by
  unfold MIS_rootset.get_nghs.dense mapOutNgh
  simp only [vertexSubset.mem]
  rw [foldl_flatMap_eq G.V (fun (dense : Nat → Bool) ngh =>
        if p ngh && !dense ngh then Function.update dense ngh true else dense),
    dense_fold_spec]
  simp only [Bool.false_eq_true, false_or, List.mem_flatMap, vertexSubset.mem_toSparse]
  constructor
  · rintro ⟨hx, ⟨v, hv, hxv⟩, hp⟩
    exact ⟨hx, v, hv, hxv, hp⟩
  · rintro ⟨hx, v, hv, hxv, hp⟩
    exact ⟨hx, ⟨v, hv, hxv⟩, hp⟩

theorem MIS_rootset.get_nghs_sparse_table (G : graph) (vs : vertexSubset) (p : Nat → Bool) :
    (vs.toSparse.foldl (fun ht v => mapOutNgh G v (fun (ht : List Nat) (_src ngh : Nat) =>
        if p ngh then sparse_table.insert ht ngh else ht) ht) []).Nodup ∧
    ∀ x, x ∈ vs.toSparse.foldl (fun ht v => mapOutNgh G v
        (fun (ht : List Nat) (_src ngh : Nat) =>
          if p ngh then sparse_table.insert ht ngh else ht) ht) [] ↔
      ∃ v, vs.mem v ∧ x ∈ G.V v ∧ p x = true := by
  unfold mapOutNgh
  rw [foldl_flatMap_eq G.V (fun (ht : List Nat) ngh =>
        if p ngh then sparse_table.insert ht ngh else ht)]
  obtain ⟨h1, h2⟩ := sparse_fold_spec p (vs.toSparse.flatMap G.V) []
  refine ⟨h1 List.nodup_nil, fun x => ?_⟩
  rw [h2]
  simp only [List.not_mem_nil, false_or, List.mem_flatMap, vertexSubset.mem_toSparse]
  constructor
  · rintro ⟨⟨v, hv, hxv⟩, hp⟩
    exact ⟨v, hv, hxv, hp⟩
  · rintro ⟨v, hv, hxv, hp⟩
    exact ⟨⟨v, hv, hxv⟩, hp⟩

theorem MIS_rootset.get_nghs_sparse_mem (entries : List Nat → List Nat)
    (hent : ∀ l, (entries l).Perm l) (G : graph) (vs : vertexSubset) (p : Nat → Bool)
    (x : Nat) :
    (MIS_rootset.get_nghs.sparse entries G vs p).mem x ↔
      ∃ v, vs.mem v ∧ x ∈ G.V v ∧ p x = true := by
  unfold MIS_rootset.get_nghs.sparse
  simp only [vertexSubset.mem]
  rw [(hent _).mem_iff]
  exact (MIS_rootset.get_nghs_sparse_table G vs p).2 x

theorem MIS_rootset.get_nghs_sparse_nodup (entries : List Nat → List Nat)
    (hent : ∀ l, (entries l).Perm l) (G : graph) (vs : vertexSubset) (p : Nat → Bool) :
    (MIS_rootset.get_nghs.sparse entries G vs p).toSparse.Nodup := by
  unfold MIS_rootset.get_nghs.sparse
  simp only [vertexSubset.toSparse]
  exact (hent _).nodup_iff.2 (MIS_rootset.get_nghs_sparse_table G vs p).1

theorem vertexSubset.dense_toSparse_nodup (n : Nat) (d : Nat → Bool) :
    (vertexSubset.dense n d).toSparse.Nodup :=
  pack_index_nodup n d

theorem MIS_rootset.get_nghs_dense_nodup (G : graph) (vs : vertexSubset) (p : Nat → Bool) :
    (MIS_rootset.get_nghs.dense G vs p).toSparse.Nodup := by
  unfold MIS_rootset.get_nghs.dense
  exact pack_index_nodup _ _

/-- A duplicate-free list with the members of `L.filter p` has as many entries as
`L.filter p` has distinct ones. -/
theorem length_eq_distinct (l : List Nat) (L : List Nat) (p : Nat → Bool) (hl : l.Nodup)
    (hmem : ∀ x, x ∈ l ↔ x ∈ L ∧ p x = true) :
    l.length = ((L.filter p).dedup).length := by
  apply List.Perm.length_eq
  rw [List.perm_ext_iff_of_nodup hl (List.nodup_dedup _)]
  intro x
  rw [hmem, List.mem_dedup, List.mem_filter]

theorem MIS_rootset.get_nghs_either (entries : List Nat → List Nat)
    (hent : ∀ l, (entries l).Perm l) (G : graph) (vs : vertexSubset) (p : Nat → Bool)
    (hG : G.wellFormed) (hvs : ∀ v, vs.mem v → v < G.n) :
    (MIS_rootset.get_nghs entries G vs p).toSparse.Nodup ∧
    ∀ x, x ∈ (MIS_rootset.get_nghs entries G vs p).toSparse ↔
      ∃ v, vs.mem v ∧ x ∈ G.V v ∧ p x = true := by
  unfold MIS_rootset.get_nghs
  simp only
  split
  · refine ⟨MIS_rootset.get_nghs_dense_nodup G vs p, fun x => ?_⟩
    rw [vertexSubset.mem_toSparse, MIS_rootset.get_nghs_dense_mem]
    constructor
    · exact fun h => h.2
    · rintro ⟨v, hv, hxv, hp⟩
      exact ⟨hG v (hvs v hv) x hxv, v, hv, hxv, hp⟩
  · refine ⟨MIS_rootset.get_nghs_sparse_nodup entries hent G vs p, fun x => ?_⟩
    rw [vertexSubset.mem_toSparse, MIS_rootset.get_nghs_sparse_mem entries hent]

/-- C8: on a well-formed graph and a frontier of vertex ids, the dense and the sparse
branch of `get_nghs` both return the set of out-neighbours of the frontier that satisfy
`p`; `size()` is the number of distinct such neighbours in both, the sparse id list
has no duplicates, and `get_nghs` itself returns that set whichever branch it takes. -/
theorem get_nghs_strategy_independent (entries : List Nat → List Nat) (G : graph)
    (vs : vertexSubset) (p : Nat → Bool) (hent : ∀ l, (entries l).Perm l)
    (hG : G.wellFormed) (hvs : ∀ v, vs.mem v → v < G.n) :
    (∀ x, (MIS_rootset.get_nghs.dense G vs p).mem x ↔
      ∃ v, vs.mem v ∧ x ∈ G.V v ∧ p x = true) ∧
    (∀ x, (MIS_rootset.get_nghs.sparse entries G vs p).mem x ↔
      ∃ v, vs.mem v ∧ x ∈ G.V v ∧ p x = true) ∧
    (MIS_rootset.get_nghs.sparse entries G vs p).toSparse.Nodup ∧
    (MIS_rootset.get_nghs.dense G vs p).size =
      (((vs.toSparse.flatMap G.V).filter p).dedup).length ∧
    (MIS_rootset.get_nghs.sparse entries G vs p).size =
      (((vs.toSparse.flatMap G.V).filter p).dedup).length ∧
    (∀ x, (MIS_rootset.get_nghs.dense G vs p).mem x ↔
      (MIS_rootset.get_nghs.sparse entries G vs p).mem x) ∧
    (∀ x, (MIS_rootset.get_nghs entries G vs p).mem x ↔
      ∃ v, vs.mem v ∧ x ∈ G.V v ∧ p x = true) := by
  have hd : ∀ x, (MIS_rootset.get_nghs.dense G vs p).mem x ↔
      ∃ v, vs.mem v ∧ x ∈ G.V v ∧ p x = true := by
    intro x
    rw [MIS_rootset.get_nghs_dense_mem]
    constructor
    · exact fun h => h.2
    · rintro ⟨v, hv, hxv, hp⟩
      exact ⟨hG v (hvs v hv) x hxv, v, hv, hxv, hp⟩
  have hs := MIS_rootset.get_nghs_sparse_mem entries hent G vs p
  have key : ∀ x, (∃ v, vs.mem v ∧ x ∈ G.V v ∧ p x = true) ↔
      x ∈ vs.toSparse.flatMap G.V ∧ p x = true := by
    intro x
    simp only [List.mem_flatMap, vertexSubset.mem_toSparse]
    constructor
    · rintro ⟨v, hv, hxv, hp⟩
      exact ⟨⟨v, hv, hxv⟩, hp⟩
    · rintro ⟨⟨v, hv, hxv⟩, hp⟩
      exact ⟨v, hv, hxv, hp⟩
  refine ⟨hd, hs, MIS_rootset.get_nghs_sparse_nodup entries hent G vs p, ?_, ?_, ?_, ?_⟩
  · rw [vertexSubset.size_eq_length]
    apply length_eq_distinct _ _ _ (MIS_rootset.get_nghs_dense_nodup G vs p)
    intro x
    rw [vertexSubset.mem_toSparse, hd, key]
  · rw [vertexSubset.size_eq_length]
    apply length_eq_distinct _ _ _ (MIS_rootset.get_nghs_sparse_nodup entries hent G vs p)
    intro x
    rw [vertexSubset.mem_toSparse, hs, key]
  · intro x
    rw [hd, hs]
  · intro x
    rw [← vertexSubset.mem_toSparse]
    exact (MIS_rootset.get_nghs_either entries hent G vs p hG hvs).2 x

/-- The hypotheses of `get_nghs_strategy_independent` hold on the 4-cycle for the
frontier {0, 2}, the predicate `x != 3` and a table that keeps insertion order. -/
theorem get_nghs_strategy_independent_witness :
    (∀ x, (MIS_rootset.get_nghs.dense cycle4 (vertexSubset.sparse 4 [0, 2])
        (fun x => decide (x ≠ 3))).mem x ↔
      ∃ v, (vertexSubset.sparse 4 [0, 2]).mem v ∧ x ∈ cycle4.V v ∧
        decide (x ≠ 3) = true) ∧
    (∀ x, (MIS_rootset.get_nghs.sparse id cycle4 (vertexSubset.sparse 4 [0, 2])
        (fun x => decide (x ≠ 3))).mem x ↔
      ∃ v, (vertexSubset.sparse 4 [0, 2]).mem v ∧ x ∈ cycle4.V v ∧
        decide (x ≠ 3) = true) ∧
    (MIS_rootset.get_nghs.sparse id cycle4 (vertexSubset.sparse 4 [0, 2])
      (fun x => decide (x ≠ 3))).toSparse.Nodup ∧
    (MIS_rootset.get_nghs.dense cycle4 (vertexSubset.sparse 4 [0, 2])
      (fun x => decide (x ≠ 3))).size =
      ((((vertexSubset.sparse 4 [0, 2]).toSparse.flatMap cycle4.V).filter
        (fun x => decide (x ≠ 3))).dedup).length ∧
    (MIS_rootset.get_nghs.sparse id cycle4 (vertexSubset.sparse 4 [0, 2])
      (fun x => decide (x ≠ 3))).size =
      ((((vertexSubset.sparse 4 [0, 2]).toSparse.flatMap cycle4.V).filter
        (fun x => decide (x ≠ 3))).dedup).length ∧
    (∀ x, (MIS_rootset.get_nghs.dense cycle4 (vertexSubset.sparse 4 [0, 2])
        (fun x => decide (x ≠ 3))).mem x ↔
      (MIS_rootset.get_nghs.sparse id cycle4 (vertexSubset.sparse 4 [0, 2])
        (fun x => decide (x ≠ 3))).mem x) ∧
    (∀ x, (MIS_rootset.get_nghs id cycle4 (vertexSubset.sparse 4 [0, 2])
        (fun x => decide (x ≠ 3))).mem x ↔
      ∃ v, (vertexSubset.sparse 4 [0, 2]).mem v ∧ x ∈ cycle4.V v ∧
        decide (x ≠ 3) = true) :=
  get_nghs_strategy_independent id cycle4 (vertexSubset.sparse 4 [0, 2])
    (fun x => decide (x ≠ 3)) (fun l => List.Perm.refl l) (by decide)
    (by intro v hv; simp only [vertexSubset.mem, List.mem_cons, List.mem_singleton,
      List.not_mem_nil, or_false] at hv; rcases hv with h | h <;> subst h <;> decide)

/-! ## The rootset algorithm: one edge traversal -/

theorem foldl_edges_eq {α β γ : Type} (g : α → List β) (h : α → γ → β → γ) (l : List α)
    (init : γ) :
    l.foldl (fun acc s => (g s).foldl (h s) acc) init =
      (l.flatMap (fun s => (g s).map (fun d => (s, d)))).foldl
        (fun acc e => h e.1 acc e.2) init := by
  induction l generalizing init with
  | nil => rfl
  | cons a l ih =>
    simp only [List.foldl_cons, List.flatMap_cons, List.foldl_append, List.foldl_map]
    exact ih _

theorem foldl_update_zero (R : List Nat) (p : Nat → Int) (x : Nat) :
    (R.foldl (fun pr v => Function.update pr v 0) p) x = if x ∈ R then 0 else p x := by
  induction R generalizing p with
  | nil => simp
  | cons a R ih =>
    rw [List.foldl_cons, ih]
    by_cases hx : x ∈ R
    · simp [hx]
    · by_cases hxa : x = a
      · subst hxa; simp [hx]
      · simp [hx, hxa, Function.update_noteq hxa]

theorem foldl_update_true (R : List Nat) (m : Nat → Bool) (x : Nat) :
    (R.foldl (fun im v => Function.update im v true) m) x = true ↔ m x = true ∨ x ∈ R := by
  induction R generalizing m with
  | nil => simp
  | cons a R ih =>
    rw [List.foldl_cons, ih]
    by_cases hxa : x = a
    · subst hxa; simp
    · simp [hxa, Function.update_noteq hxa]

theorem MIS_rootset.mis_f_fold (perm : Nat → Nat) (E : List (Nat × Nat)) (p : Nat → Int)
    (out : List Nat) :
    (∀ d, (E.foldl (fun acc e => edgeMap.visit (MIS_rootset.mis_f perm) e.1 acc e.2)
        (p, out)).1 d =
      if 0 < p d then
        max (p d - (E.countP (fun e => decide (e.2 = d ∧ perm e.1 < perm d)) : Nat)) 0
      else p d) ∧
    (∀ d, d ∈ (E.foldl (fun acc e => edgeMap.visit (MIS_rootset.mis_f perm) e.1 acc e.2)
        (p, out)).2 ↔
      d ∈ out ∨ (0 < p d ∧
        p d ≤ (E.countP (fun e => decide (e.2 = d ∧ perm e.1 < perm d)) : Nat))) ∧
    (out.Nodup → (∀ d, d ∈ out → p d ≤ 0) →
      (E.foldl (fun acc e => edgeMap.visit (MIS_rootset.mis_f perm) e.1 acc e.2)
        (p, out)).2.Nodup) := by
  induction E generalizing p out with
  | nil =>
    refine ⟨fun d => ?_, fun d => ?_, fun h _ => h⟩
    · simp only [List.foldl_nil, List.countP_nil, Nat.cast_zero, sub_zero]
      split <;> omega
    · simp only [List.foldl_nil, List.countP_nil, Nat.cast_zero]
      constructor
      · exact Or.inl
      · rintro (h | h)
        · exact h
        · omega
  | cons e E ih =>
    obtain ⟨s, d0⟩ := e
    rw [List.foldl_cons]
    by_cases hc : 0 < p d0 ∧ perm s < perm d0
    · -- the edge decrements the priority of its target
      have hv : edgeMap.visit (MIS_rootset.mis_f perm) s (p, out) d0 =
          (Function.update p d0 (p d0 - 1),
            if p d0 - 1 = 0 then out ++ [d0] else out) := by
        simp [edgeMap.visit, MIS_rootset.mis_f, hc.1, hc.2]
      simp only [hv]
      obtain ⟨ih1, ih2, ih3⟩ := ih (Function.update p d0 (p d0 - 1))
        (if p d0 - 1 = 0 then out ++ [d0] else out)
      refine ⟨fun d => ?_, fun d => ?_, fun hn hout => ?_⟩
      · rw [ih1 d, List.countP_cons]
        by_cases hd : d = d0
        · subst hd
          simp only [Function.update_same, hc.2, and_self, decide_True, if_true, hc.1]
          push_cast
          split <;> omega
        · have : ¬ (d0 = d ∧ perm s < perm d) := fun h => hd h.1.symm
          simp only [Function.update_noteq hd, this, decide_False, Bool.false_eq_true,
            if_false, add_zero]
      · rw [ih2 d, List.countP_cons]
        by_cases hd : d = d0
        · subst hd
          simp only [Function.update_same, hc.2, and_self, decide_True, if_true]
          push_cast
          by_cases h1 : p d - 1 = 0
          · simp only [h1, if_true, List.mem_append, List.mem_singleton, or_true, true_or]
            constructor
            · intro _; right; omega
            · intro _; trivial
          · simp only [h1, if_false]
            constructor
            · rintro (h | h)
              · exact Or.inl h
              · right; omega
            · rintro (h | h)
              · exact Or.inl h
              · right; omega
        · have : ¬ (d0 = d ∧ perm s < perm d) := fun h => hd h.1.symm
          simp only [Function.update_noteq hd, this, decide_False, Bool.false_eq_true,
            if_false, add_zero]
          by_cases h1 : p d0 - 1 = 0
          · simp only [h1, if_true, List.mem_append, List.mem_singleton, hd, or_false]
          · simp only [h1, if_false]
      · apply ih3
        · by_cases h1 : p d0 - 1 = 0
          · simp only [h1, if_true]
            apply List.Nodup.append hn (List.nodup_singleton d0)
            intro x hx hx2
            rw [List.mem_singleton] at hx2
            subst hx2
            have := hout x hx
            omega
          · simp only [h1, if_false]; exact hn
        · intro d hd
          by_cases hdd : d = d0
          · subst hdd
            simp only [Function.update_same]
            by_cases h1 : p d - 1 = 0
            · omega
            · simp only [h1, if_false] at hd
              have := hout d hd
              omega
          · simp only [Function.update_noteq hdd]
            by_cases h1 : p d0 - 1 = 0
            · simp only [h1, if_true, List.mem_append, List.mem_singleton, hdd,
                or_false] at hd
              exact hout d hd
            · simp only [h1, if_false] at hd
              exact hout d hd
    · -- the edge is skipped
      have hv : edgeMap.visit (MIS_rootset.mis_f perm) s (p, out) d0 = (p, out) := by
        simp only [edgeMap.visit, MIS_rootset.mis_f]
        by_cases h0 : 0 < p d0
        · have h2 : ¬ perm s < perm d0 := fun h => hc ⟨h0, h⟩
          simp [h0, h2]
        · simp [h0]
      simp only [hv]
      obtain ⟨ih1, ih2, ih3⟩ := ih p out
      refine ⟨fun d => ?_, fun d => ?_, fun hn hout => ih3 hn hout⟩
      · rw [ih1 d, List.countP_cons]
        by_cases h0 : 0 < p d
        · have : ¬ (d0 = d ∧ perm s < perm d) := by
            rintro ⟨rfl, h⟩
            exact hc ⟨h0, h⟩
          simp only [this, decide_False, Bool.false_eq_true, if_false, add_zero]
        · simp only [h0, if_false]
      · rw [ih2 d, List.countP_cons]
        by_cases h0 : 0 < p d
        · have : ¬ (d0 = d ∧ perm s < perm d) := by
            rintro ⟨rfl, h⟩
            exact hc ⟨h0, h⟩
          simp only [this, decide_False, Bool.false_eq_true, if_false, add_zero]
        · simp only [h0, false_and]

/-! ## Counting lemmas -/

theorem countP_eq_and_nodup (l : List Nat) (d : Nat) (q : Prop) [Decidable q]
    (hl : l.Nodup) :
    l.countP (fun x => decide (x = d ∧ q)) = if d ∈ l ∧ q then 1 else 0 := by
  induction l with
  | nil => simp
  | cons a l ih =>
    rw [List.nodup_cons] at hl
    rw [List.countP_cons, ih hl.2]
    by_cases hq : q
    · by_cases had : a = d
      · subst had
        simp [hq, hl.1]
      · have hda : ¬ d = a := fun h => had h.symm
        simp [hq, had, hda]
    · simp [hq]

theorem countP_edges_eq (G : graph) (perm : Nat → Nat) (R : List Nat) (d : Nat)
    (hV : ∀ s, s ∈ R → (G.V s).Nodup) :
    (R.flatMap (fun s => (G.V s).map (fun d => (s, d)))).countP
        (fun e => decide (e.2 = d ∧ perm e.1 < perm d)) =
      R.countP (fun s => decide (d ∈ G.V s ∧ perm s < perm d)) := by
  induction R with
  | nil => rfl
  | cons a R ih =>
    rw [List.flatMap_cons, List.countP_append, ih (fun s hs => hV s (List.mem_cons_of_mem _ hs)),
      List.countP_cons, List.countP_map, Nat.add_comm]
    congr 1
    have := countP_eq_and_nodup (G.V a) d (perm a < perm d) (hV a (List.mem_cons_self _ _))
    simp only [Function.comp_def]
    rw [this]
    by_cases h : d ∈ G.V a ∧ perm a < perm d <;> simp [h]

theorem countP_swap_nodup (A B : List Nat) (q : Nat → Prop) [DecidablePred q]
    (inA : Nat → Prop) [DecidablePred inA]
    (hA : A.Nodup) (hB : B.Nodup) (hsym : ∀ s, s ∈ A → (inA s ↔ s ∈ B)) :
    A.countP (fun s => decide (inA s ∧ q s)) = B.countP (fun s => decide (s ∈ A ∧ q s)) := by
  rw [List.countP_eq_length_filter, List.countP_eq_length_filter]
  apply List.Perm.length_eq
  rw [List.perm_ext_iff_of_nodup (hA.filter _) (hB.filter _)]
  intro s
  simp only [List.mem_filter, decide_eq_true_eq]
  constructor
  · rintro ⟨h1, h2, h3⟩
    exact ⟨(hsym s h1).1 h2, h1, h3⟩
  · rintro ⟨h1, h2, h3⟩
    exact ⟨h2, (hsym s h2).2 h1, h3⟩

theorem countP_split (l : List Nat) (a b c : Nat → Bool)
    (h : ∀ x, x ∈ l → (a x = true ↔ (b x = true ∨ c x = true)) ∧ ¬ (b x = true ∧ c x = true)) :
    l.countP a = l.countP b + l.countP c := by
  induction l with
  | nil => rfl
  | cons x l ih =>
    have hx := h x (List.mem_cons_self _ _)
    rw [List.countP_cons, List.countP_cons, List.countP_cons,
      ih (fun y hy => h y (List.mem_cons_of_mem _ hy))]
    cases ha : a x <;> cases hb : b x <;> cases hc : c x <;> simp_all <;> omega

theorem nodup_length_le (l : List Nat) (n : Nat) (hl : l.Nodup) (hlt : ∀ x, x ∈ l → x < n) :
    l.length ≤ n := by
  have h1 : l.toFinset ⊆ Finset.range n := by
    intro x hx
    rw [List.mem_toFinset] at hx
    exact Finset.mem_range.2 (hlt x hx)
  have h2 := Finset.card_le_card h1
  rw [List.toFinset_card_of_nodup hl, Finset.card_range] at h2
  exact h2

theorem nodup_length_eq_mem (l : List Nat) (n : Nat) (hl : l.Nodup)
    (hlt : ∀ x, x ∈ l → x < n) (hlen : l.length = n) : ∀ x, x < n → x ∈ l := by
  have h1 : l.toFinset ⊆ Finset.range n := by
    intro x hx
    rw [List.mem_toFinset] at hx
    exact Finset.mem_range.2 (hlt x hx)
  have h2 : (Finset.range n).card ≤ l.toFinset.card := by
    rw [List.toFinset_card_of_nodup hl, Finset.card_range, hlen]
  have h3 := Finset.eq_of_subset_of_card_le h1 h2
  intro x hx
  have : x ∈ l.toFinset := by rw [h3]; exact Finset.mem_range.2 hx
  exact List.mem_toFinset.1 this

/-! ## The rootset algorithm: one round -/

theorem vertexSubset.toSparse_sparse (n : Nat) (s : List Nat) :
    (vertexSubset.sparse n s).toSparse = s := rfl

theorem MIS_rootset.edgeMap_mis_f (G : graph) (perm : Nat → Nat) (vs : vertexSubset)
    (p : Nat → Int) :
    (∀ d, (edgeMap G vs (MIS_rootset.mis_f perm) p).1 d =
      if 0 < p d then
        max (p d - ((vs.toSparse.flatMap (fun s => (G.V s).map (fun d => (s, d)))).countP
          (fun e => decide (e.2 = d ∧ perm e.1 < perm d)) : Nat)) 0
      else p d) ∧
    (∀ d, d ∈ (edgeMap G vs (MIS_rootset.mis_f perm) p).2.toSparse ↔
      (0 < p d ∧
        p d ≤ ((vs.toSparse.flatMap (fun s => (G.V s).map (fun d => (s, d)))).countP
          (fun e => decide (e.2 = d ∧ perm e.1 < perm d)) : Nat))) ∧
    (edgeMap G vs (MIS_rootset.mis_f perm) p).2.toSparse.Nodup := by
  unfold edgeMap
  simp only [vertexSubset.toSparse_sparse]
  rw [foldl_edges_eq G.V (fun s acc d => edgeMap.visit (MIS_rootset.mis_f perm) s acc d)]
  obtain ⟨h1, h2, h3⟩ := MIS_rootset.mis_f_fold perm
    (vs.toSparse.flatMap (fun s => (G.V s).map (fun d => (s, d)))) p []
  refine ⟨h1, fun d => ?_, h3 List.nodup_nil (fun d hd => absurd hd (List.not_mem_nil d))⟩
  rw [h2 d]
  simp

/-- What one round does, read off the code: the new membership array, the new
priorities and the new roots in terms of the old state and the removed set. -/
theorem MIS_rootset.round_spec (entries : List Nat → List Nat) (G : graph)
    (perm : Nat → Nat) (st : MIS_rootset.State) (R : List Nat)
    (hR : (MIS_rootset.MIS.removed entries G st).toSparse = R) :
    (∀ x, (MIS_rootset.MIS.round entries G perm st).in_mis x = true ↔
      st.in_mis x = true ∨ x ∈ st.roots.toSparse) ∧
    (∀ d, (MIS_rootset.MIS.round entries G perm st).priorities d =
      if 0 < (if d ∈ R then 0 else st.priorities d) then
        max ((if d ∈ R then 0 else st.priorities d) -
          ((R.flatMap (fun s => (G.V s).map (fun d => (s, d)))).countP
            (fun e => decide (e.2 = d ∧ perm e.1 < perm d)) : Nat)) 0
      else (if d ∈ R then 0 else st.priorities d)) ∧
    (∀ d, d ∈ (MIS_rootset.MIS.round entries G perm st).roots.toSparse ↔
      (0 < (if d ∈ R then 0 else st.priorities d) ∧
        (if d ∈ R then 0 else st.priorities d) ≤
          ((R.flatMap (fun s => (G.V s).map (fun d => (s, d)))).countP
            (fun e => decide (e.2 = d ∧ perm e.1 < perm d)) : Nat))) ∧
    (MIS_rootset.MIS.round entries G perm st).roots.toSparse.Nodup ∧
    (MIS_rootset.MIS.round entries G perm st).finished =
      st.finished + st.roots.toSparse.length + R.length := by
  obtain ⟨h1, h2, h3⟩ := MIS_rootset.edgeMap_mis_f G perm (MIS_rootset.MIS.removed entries G st)
    (vertexMap (MIS_rootset.MIS.removed entries G st)
      (fun pr v => Function.update pr v 0) st.priorities)
  have hp1 : ∀ d, vertexMap (MIS_rootset.MIS.removed entries G st)
      (fun pr v => Function.update pr v 0) st.priorities d =
      if d ∈ R then 0 else st.priorities d := by
    intro d
    unfold vertexMap
    rw [hR]
    exact foldl_update_zero R st.priorities d
  rw [hR] at h1 h2
  refine ⟨fun x => ?_, fun d => ?_, fun d => ?_, h3, ?_⟩
  · show (vertexMap st.roots (fun in_mis v => Function.update in_mis v true) st.in_mis) x
      = true ↔ _
    unfold vertexMap
    exact foldl_update_true _ _ _
  · have := h1 d
    rw [hp1 d] at this
    exact this
  · have := h2 d
    rw [hp1 d] at this
    exact this
  · show st.finished + st.roots.size + (MIS_rootset.MIS.removed entries G st).size = _
    rw [vertexSubset.size_eq_length, vertexSubset.size_eq_length, hR]

theorem MIS_rootset.no_adjacent_roots (G : graph) (perm : Nat → Nat) (hG : G.simple)
    (hperm : isPermutation G.n perm) (st : MIS_rootset.State) (mlog xlog : List Nat)
    (h : MIS_rootset.Inv G perm st mlog xlog) :
    ∀ v, v ∈ st.roots.toSparse → ∀ u, u ∈ G.V v → u ∉ st.roots.toSparse := by
  obtain ⟨hwf, hsym, hloop, _⟩ := hG
  intro v hv u hu hur
  have hvn := (h.roots_spec v hv).1
  have hun := (h.roots_spec u hur).1
  have hvu : v ∈ G.V u := hsym v hvn u hu
  have hne : u ≠ v := by
    rintro rfl
    exact hloop u hun hu
  have hpne : perm u ≠ perm v := fun hp => hne (hperm.2 u hun v hvn hp)
  rcases Nat.lt_or_gt_of_ne hpne with hlt | hlt
  · have hc := h.pri_count v hvn (Or.inr hv)
    rw [(h.roots_spec v hv).2.1] at hc
    have hpos : 0 < (G.V v).countP (fun u =>
        decide (perm u < perm v ∧ (0 < st.priorities u ∨ u ∈ st.roots.toSparse))) :=
      List.countP_pos_iff.2 ⟨u, hu, by simp [hlt, hur]⟩
    omega
  · have hc := h.pri_count u hun (Or.inr hur)
    rw [(h.roots_spec u hur).2.1] at hc
    have hpos : 0 < (G.V u).countP (fun w =>
        decide (perm w < perm u ∧ (0 < st.priorities w ∨ w ∈ st.roots.toSparse))) :=
      List.countP_pos_iff.2 ⟨v, hvu, by simp [hlt, hv]⟩
    omega

/-- The facts about one round that the invariant needs, with the edge counts
rewritten as counts over the adjacency list of the target. -/
theorem MIS_rootset.round_facts (entries : List Nat → List Nat)
    (hent : ∀ l, (entries l).Perm l) (G : graph) (perm : Nat → Nat) (hG : G.simple)
    (st : MIS_rootset.State) (mlog xlog : List Nat)
    (h : MIS_rootset.Inv G perm st mlog xlog) (R : List Nat)
    (hR : (MIS_rootset.MIS.removed entries G st).toSparse = R) :
    R.Nodup ∧
    (∀ x, x ∈ R ↔ ∃ r, r ∈ st.roots.toSparse ∧ x ∈ G.V r ∧ 0 < st.priorities x) ∧
    (∀ x, x ∈ R → x < G.n ∧ 0 < st.priorities x ∧ st.in_mis x = false ∧
      x ∉ st.roots.toSparse) ∧
    (∀ d, d ∈ R → (MIS_rootset.MIS.round entries G perm st).priorities d = 0 ∧
      d ∉ (MIS_rootset.MIS.round entries G perm st).roots.toSparse) ∧
    (∀ d, d ∉ R → st.priorities d ≤ 0 →
      (MIS_rootset.MIS.round entries G perm st).priorities d = st.priorities d ∧
      d ∉ (MIS_rootset.MIS.round entries G perm st).roots.toSparse) ∧
    (∀ d, d < G.n → d ∉ R → 0 < st.priorities d →
      (MIS_rootset.MIS.round entries G perm st).priorities d =
        ((G.V d).countP (fun u =>
          decide (perm u < perm d ∧ u ∉ R ∧ 0 < st.priorities u)) : Nat) ∧
      (d ∈ (MIS_rootset.MIS.round entries G perm st).roots.toSparse ↔
        (G.V d).countP (fun u =>
          decide (perm u < perm d ∧ u ∉ R ∧ 0 < st.priorities u)) = 0)) ∧
    (∀ d, d ∈ (MIS_rootset.MIS.round entries G perm st).roots.toSparse → d < G.n) := by
  obtain ⟨hwf, hsym, hloop, hdup⟩ := hG
  obtain ⟨hRn, hRm⟩ := MIS_rootset.get_nghs_either entries hent G st.roots
    (fun ngh => decide (st.priorities ngh > 0)) hwf
    (fun v hv => (h.roots_spec v ((vertexSubset.mem_toSparse _ _).2 hv)).1)
  change (MIS_rootset.MIS.removed entries G st).toSparse.Nodup at hRn
  change ∀ x, x ∈ (MIS_rootset.MIS.removed entries G st).toSparse ↔ _ at hRm
  rw [hR] at hRn hRm
  have hRm2 : ∀ x, x ∈ R ↔ ∃ r, r ∈ st.roots.toSparse ∧ x ∈ G.V r ∧ 0 < st.priorities x := by
    intro x
    rw [hRm x]
    constructor
    · rintro ⟨r, hr, hx, hp⟩
      exact ⟨r, (vertexSubset.mem_toSparse _ _).2 hr, hx, by simpa using hp⟩
    · rintro ⟨r, hr, hx, hp⟩
      exact ⟨r, (vertexSubset.mem_toSparse _ _).1 hr, hx, by simpa using hp⟩
  have K1 : ∀ x, x ∈ R → x < G.n ∧ 0 < st.priorities x ∧ st.in_mis x = false ∧
      x ∉ st.roots.toSparse := by
    intro x hx
    obtain ⟨r, hr, hxr, hp⟩ := (hRm2 x).1 hx
    refine ⟨hwf r (h.roots_spec r hr).1 x hxr, hp, ?_, ?_⟩
    · cases hm : st.in_mis x
      · rfl
      · have := (h.member_spec x hm).2.1
        omega
    · intro hxr2
      have := (h.roots_spec x hxr2).2.1
      omega
  obtain ⟨_, hp', hr', _, _⟩ := MIS_rootset.round_spec entries G perm st R hR
  have hcE : ∀ d, d < G.n →
      (R.flatMap (fun s => (G.V s).map (fun d => (s, d)))).countP
        (fun e => decide (e.2 = d ∧ perm e.1 < perm d)) =
      (G.V d).countP (fun s => decide (s ∈ R ∧ perm s < perm d)) := by
    intro d hd
    rw [countP_edges_eq G perm R d (fun s hs => hdup s (K1 s hs).1)]
    exact countP_swap_nodup R (G.V d) (fun s => perm s < perm d) (fun s => d ∈ G.V s) hRn
      (hdup d hd) (fun s hs => ⟨fun hds => hsym s (K1 s hs).1 d hds,
        fun hsd => hsym d hd s hsd⟩)
  have K2 : ∀ d, d < G.n → d ∉ R → 0 < st.priorities d →
      st.priorities d =
        (((G.V d).countP (fun s => decide (s ∈ R ∧ perm s < perm d)) : Nat) : Int) +
        (((G.V d).countP (fun u =>
          decide (perm u < perm d ∧ u ∉ R ∧ 0 < st.priorities u)) : Nat) : Int) := by
    intro d hd hdR hpd
    rw [h.pri_count d hd (Or.inl hpd)]
    rw [countP_split (G.V d)
      (fun u => decide (perm u < perm d ∧ (0 < st.priorities u ∨ u ∈ st.roots.toSparse)))
      (fun s => decide (s ∈ R ∧ perm s < perm d))
      (fun u => decide (perm u < perm d ∧ u ∉ R ∧ 0 < st.priorities u))]
    · push_cast; rfl
    · intro u hu
      simp only [decide_eq_true_eq]
      have hur : u ∉ st.roots.toSparse := by
        intro hur
        exact hdR ((hRm2 d).2 ⟨u, hur, hsym d hd u hu, hpd⟩)
      constructor
      · constructor
        · rintro ⟨hlt, hpu | hpu⟩
          · by_cases huR : u ∈ R
            · exact Or.inl ⟨huR, hlt⟩
            · exact Or.inr ⟨hlt, huR, hpu⟩
          · exact absurd hpu hur
        · rintro (⟨huR, hlt⟩ | ⟨hlt, _, hpu⟩)
          · exact ⟨hlt, Or.inl (K1 u huR).2.1⟩
          · exact ⟨hlt, Or.inl hpu⟩
      · rintro ⟨⟨huR, _⟩, _, huR2, _⟩
        exact huR2 huR
  refine ⟨hRn, hRm2, K1, ?_, ?_, ?_, ?_⟩
  · intro d hd
    have h1 := hp' d
    have h2 := hr' d
    simp only [hd, if_true, lt_self_iff_false, if_false] at h1 h2
    exact ⟨h1, fun hh => (h2.1 hh).1⟩
  · intro d hd hp
    have h1 := hp' d
    have h2 := hr' d
    simp only [hd, if_false] at h1 h2
    have hnp : ¬ 0 < st.priorities d := by omega
    simp only [hnp, if_false] at h1
    exact ⟨h1, fun hh => hnp (h2.1 hh).1⟩
  · intro d hdn hd hp
    have h1 := hp' d
    have h2 := hr' d
    simp only [hd, if_false, hp, if_true] at h1 h2
    rw [hcE d hdn] at h1 h2
    have hk := K2 d hdn hd hp
    constructor
    · rw [h1, max_def]
      split <;> omega
    · rw [h2, true_and]
      constructor <;> intro hh <;> omega
  · intro d hd
    obtain ⟨hpos, hle⟩ := (hr' d).1 hd
    have hcpos : 0 < (R.flatMap (fun s => (G.V s).map (fun d => (s, d)))).countP
        (fun e => decide (e.2 = d ∧ perm e.1 < perm d)) := by omega
    obtain ⟨e, he, hed⟩ := List.countP_pos_iff.1 hcpos
    simp only [List.mem_flatMap, List.mem_map] at he
    obtain ⟨s, hs, d2, hd2, rfl⟩ := he
    simp only [decide_eq_true_eq] at hed
    rw [← hed.1]
    exact hwf s (K1 s hs).1 d2 hd2

theorem MIS_rootset.Inv_round (entries : List Nat → List Nat)
    (hent : ∀ l, (entries l).Perm l) (G : graph) (perm : Nat → Nat) (hG : G.simple)
    (hperm : isPermutation G.n perm) (st : MIS_rootset.State) (mlog xlog : List Nat)
    (h : MIS_rootset.Inv G perm st mlog xlog) :
    MIS_rootset.Inv G perm (MIS_rootset.MIS.round entries G perm st)
      (mlog ++ st.roots.toSparse)
      (xlog ++ (MIS_rootset.MIS.removed entries G st).toSparse) := by
  have hadj := MIS_rootset.no_adjacent_roots G perm hG hperm st mlog xlog h
  generalize hR : (MIS_rootset.MIS.removed entries G st).toSparse = R
  obtain ⟨hRn, hRm, K1, PR, P0, Ppos, hrn⟩ :=
    MIS_rootset.round_facts entries hent G perm hG st mlog xlog h R hR
  obtain ⟨hm', _, _, hrnd', hf'⟩ := MIS_rootset.round_spec entries G perm st R hR
  obtain ⟨hwf, hsym, hloop, hdup⟩ := hG
  generalize MIS_rootset.MIS.round entries G perm st = st' at *
  have Z : ∀ d, st.priorities d = 0 →
      st'.priorities d = 0 ∧ d ∉ st'.roots.toSparse := by
    intro d hd
    by_cases hdR : d ∈ R
    · exact PR d hdR
    · have := P0 d hdR (by omega)
      exact ⟨by omega, this.2⟩
  have K3 : ∀ u, u < G.n → ((u ∉ R ∧ 0 < st.priorities u) ↔
      (0 < st'.priorities u ∨ u ∈ st'.roots.toSparse)) := by
    intro u hun
    constructor
    · rintro ⟨huR, hpu⟩
      obtain ⟨e1, e2⟩ := Ppos u hun huR hpu
      by_cases hz : st'.priorities u = 0
      · exact Or.inr (e2.2 (by omega))
      · left; omega
    · intro hh
      by_cases huR : u ∈ R
      · obtain ⟨a, b⟩ := PR u huR
        rcases hh with hh | hh
        · omega
        · exact absurd hh b
      · by_cases hpu : 0 < st.priorities u
        · exact ⟨huR, hpu⟩
        · obtain ⟨a, b⟩ := P0 u huR (by omega)
          rcases hh with hh | hh
          · omega
          · exact absurd hh b
  have hmf : ∀ u, st.in_mis u = false → u ∉ st.roots.toSparse → st'.in_mis u = false := by
    intro u h1 h2
    cases hm : st'.in_mis u
    · rfl
    · rcases (hm' u).1 hm with h3 | h3
      · rw [h1] at h3; exact absurd h3 (by simp)
      · exact absurd h3 h2
  have N : ∀ u, st.priorities u = 0 → st.in_mis u = false → u ∉ st.roots.toSparse →
      st'.priorities u = 0 ∧ st'.in_mis u = false ∧ u ∉ st'.roots.toSparse :=
    fun u h1 h2 h3 => ⟨(Z u h1).1, hmf u h2 h3, (Z u h1).2⟩
  have hmem_false : ∀ u, 0 < st.priorities u → st.in_mis u = false := by
    intro u hu
    cases hm : st.in_mis u
    · rfl
    · have := (h.member_spec u hm).2.1
      omega
  have hroot_false : ∀ u, 0 < st.priorities u → u ∉ st.roots.toSparse := by
    intro u hu hur
    have := (h.roots_spec u hur).2.1
    omega
  refine ⟨hrnd', ?_, ?_, ?_, ?_, ?_, ?_, ?_, ?_, ?_⟩
  · -- roots_spec
    intro v hv
    have hvn := hrn v hv
    obtain ⟨hvR, hpv⟩ := (K3 v hvn).2 (Or.inr hv)
    obtain ⟨e1, e2⟩ := Ppos v hvn hvR hpv
    refine ⟨hvn, ?_, hmf v (hmem_false v hpv) (hroot_false v hpv)⟩
    rw [e1, e2.1 hv]
    rfl
  · -- member_spec
    intro v hv
    rcases (hm' v).1 hv with hold | hroot
    · obtain ⟨hvn, hpv, hnb⟩ := h.member_spec v hold
      refine ⟨hvn, (Z v hpv).1, fun u hu => ?_⟩
      obtain ⟨a, b, c⟩ := hnb u hu
      exact N u a b c
    · obtain ⟨hvn, hpv, hmv⟩ := h.roots_spec v hroot
      refine ⟨hvn, (Z v hpv).1, fun u hu => ?_⟩
      have hun := hwf v hvn u hu
      by_cases huR : u ∈ R
      · obtain ⟨_, _, c, d⟩ := K1 u huR
        exact ⟨(PR u huR).1, hmf u c d, (PR u huR).2⟩
      · have hpu : st.priorities u = 0 := by
          have h0 := h.pri_nonneg u hun
          by_contra hne
          exact huR ((hRm u).2 ⟨v, hroot, hu, by omega⟩)
        have hur : u ∉ st.roots.toSparse := hadj v hroot u hu
        have hum : st.in_mis u = false := by
          cases hm : st.in_mis u
          · rfl
          · exact absurd hroot ((h.member_spec u hm).2.2 v (hsym v hvn u hu)).2.2
        exact N u hpu hum hur
  · -- pri_nonneg
    intro v hvn
    by_cases hvR : v ∈ R
    · rw [(PR v hvR).1]
    · by_cases hpv : 0 < st.priorities v
      · rw [(Ppos v hvn hvR hpv).1]
        exact Int.natCast_nonneg _
      · have := h.pri_nonneg v hvn
        rw [(P0 v hvR (by omega)).1]
        exact this
  · -- pri_count
    intro v hvn hact
    obtain ⟨hvR, hpv⟩ := (K3 v hvn).2 hact
    rw [(Ppos v hvn hvR hpv).1]
    congr 1
    apply List.countP_congr
    intro u hu
    simp only [decide_eq_true_eq]
    have := K3 u (hwf v hvn u hu)
    constructor
    · rintro ⟨h1, h2⟩
      exact ⟨h1, this.1 h2⟩
    · rintro ⟨h1, h2⟩
      exact ⟨h1, this.2 h2⟩
  · -- removed_spec
    intro v hvn hpv hmv hvr
    have hnot : ¬ (v ∉ R ∧ 0 < st.priorities v) := by
      intro hh
      rcases (K3 v hvn).1 hh with h1 | h1
      · omega
      · exact hvr h1
    have hold_m : st.in_mis v = false := by
      cases hm : st.in_mis v
      · rfl
      · have := (hm' v).2 (Or.inl hm)
        rw [hmv] at this
        exact absurd this (by simp)
    have hold_r : v ∉ st.roots.toSparse := by
      intro hr
      have := (hm' v).2 (Or.inr hr)
      rw [hmv] at this
      exact absurd this (by simp)
    by_cases hvR : v ∈ R
    · obtain ⟨r, hr, hvr2, _⟩ := (hRm v).1 hvR
      exact ⟨r, hsym r (h.roots_spec r hr).1 v hvr2, (hm' r).2 (Or.inr hr)⟩
    · have hp0 : st.priorities v = 0 := by
        have := h.pri_nonneg v hvn
        by_contra hne
        exact hnot ⟨hvR, by omega⟩
      obtain ⟨u, hu, hum⟩ := h.removed_spec v hvn hp0 hold_m hold_r
      exact ⟨u, hu, (hm' u).2 (Or.inl hum)⟩
  · -- log_nodup
    have hlog := h.log_nodup
    rw [List.nodup_append] at hlog ⊢
    refine ⟨List.nodup_append.2 ⟨hlog.1, h.roots_nodup, ?_⟩,
      List.nodup_append.2 ⟨hlog.2.1, hRn, ?_⟩, ?_⟩
    · intro a ha har
      have := (h.mlog_spec a).1 ha
      rw [(h.roots_spec a har).2.2] at this
      exact absurd this (by simp)
    · intro a ha haR
      have := ((h.xlog_spec a).1 ha).2.1
      have := (K1 a haR).2.1
      omega
    · intro a ha hb
      rw [List.mem_append] at ha hb
      rcases ha with ha | ha <;> rcases hb with hb | hb
      · exact hlog.2.2 ha hb
      · have := (h.mlog_spec a).1 ha
        rw [(K1 a hb).2.2.1] at this
        exact absurd this (by simp)
      · exact ((h.xlog_spec a).1 hb).2.2.2 ha
      · exact (K1 a hb).2.2.2 ha
  · -- mlog_spec
    intro v
    rw [List.mem_append, h.mlog_spec, hm']
  · -- xlog_spec
    intro v
    rw [List.mem_append]
    constructor
    · rintro (hv | hv)
      · obtain ⟨a, b, c, d⟩ := (h.xlog_spec v).1 hv
        exact ⟨a, N v b c d⟩
      · obtain ⟨a, _, c, d⟩ := K1 v hv
        exact ⟨a, (PR v hv).1, hmf v c d, (PR v hv).2⟩
    · rintro ⟨hvn, hpv, hmv, hvr⟩
      have hold_m : st.in_mis v = false := by
        cases hm : st.in_mis v
        · rfl
        · have := (hm' v).2 (Or.inl hm)
          rw [hmv] at this
          exact absurd this (by simp)
      have hold_r : v ∉ st.roots.toSparse := by
        intro hr
        have := (hm' v).2 (Or.inr hr)
        rw [hmv] at this
        exact absurd this (by simp)
      by_cases hvR : v ∈ R
      · exact Or.inr hvR
      · left
        have hp0 : st.priorities v = 0 := by
          have := h.pri_nonneg v hvn
          by_contra hne
          rcases (K3 v hvn).1 ⟨hvR, by omega⟩ with h1 | h1
          · omega
          · exact hvr h1
        exact (h.xlog_spec v).2 ⟨hvn, hp0, hold_m, hold_r⟩
  · -- finished_eq
    rw [hf', h.finished_eq, List.length_append, List.length_append]
    omega

/-! ## The rootset algorithm: the loop -/

theorem MIS_rootset.Inv_init (G : graph) (perm : Nat → Nat) (hG : G.simple) :
    MIS_rootset.Inv G perm (MIS_rootset.MIS.init G perm) [] [] := by
  obtain ⟨hwf, _, _, _⟩ := hG
  have hroots : ∀ v, v ∈ (MIS_rootset.MIS.init G perm).roots.toSparse ↔
      v < G.n ∧ (MIS_rootset.MIS.init G perm).priorities v = 0 := by
    intro v
    simp [MIS_rootset.MIS.init, vertexSubset.toSparse, mem_pack_index]
  have hnn : ∀ v, 0 ≤ (MIS_rootset.MIS.init G perm).priorities v := by
    intro v
    simp [MIS_rootset.MIS.init]
  have hact : ∀ v, v < G.n → (0 < (MIS_rootset.MIS.init G perm).priorities v ∨
      v ∈ (MIS_rootset.MIS.init G perm).roots.toSparse) := by
    intro v hv
    by_cases h0 : (MIS_rootset.MIS.init G perm).priorities v = 0
    · exact Or.inr ((hroots v).2 ⟨hv, h0⟩)
    · have := hnn v
      left; omega
  refine ⟨pack_index_nodup _ _, ?_, ?_, ?_, ?_, ?_, ?_, ?_, ?_, ?_⟩
  · intro v hv
    exact ⟨((hroots v).1 hv).1, ((hroots v).1 hv).2, rfl⟩
  · intro v hv
    exact absurd hv (by simp [MIS_rootset.MIS.init])
  · intro v _
    exact hnn v
  · intro v hv _
    show ((countOutNgh G v (fun _src ngh => decide (perm ngh < perm v)) : Nat) : Int) = _
    congr 1
    unfold countOutNgh
    apply List.countP_congr
    intro u hu
    simp only [decide_eq_true_eq]
    constructor
    · intro h1
      exact ⟨h1, hact u (hwf v hv u hu)⟩
    · intro h1
      exact h1.1
  · intro v hv hp _ hr
    exact absurd ((hroots v).2 ⟨hv, hp⟩) hr
  · simp
  · intro v
    simp [MIS_rootset.MIS.init]
  · intro v
    constructor
    · intro hv
      exact absurd hv (List.not_mem_nil v)
    · rintro ⟨hv, hp, _, hr⟩
      exact absurd ((hroots v).2 ⟨hv, hp⟩) hr
  · rfl

theorem MIS_rootset.rootsBefore_succ (entries : List Nat → List Nat) (G : graph)
    (perm : Nat → Nat) (k : Nat) :
    MIS_rootset.MIS.rootsBefore entries G perm (k + 1) =
      MIS_rootset.MIS.rootsBefore entries G perm k ++
        (MIS_rootset.MIS.stateAt entries G perm k).roots.toSparse := by
  simp [MIS_rootset.MIS.rootsBefore, List.range_succ, List.flatMap_append]

theorem MIS_rootset.removedBefore_succ (entries : List Nat → List Nat) (G : graph)
    (perm : Nat → Nat) (k : Nat) :
    MIS_rootset.MIS.removedBefore entries G perm (k + 1) =
      MIS_rootset.MIS.removedBefore entries G perm k ++
        (MIS_rootset.MIS.removed entries G
          (MIS_rootset.MIS.stateAt entries G perm k)).toSparse := by
  simp [MIS_rootset.MIS.removedBefore, List.range_succ, List.flatMap_append]

theorem MIS_rootset.Inv_stateAt (entries : List Nat → List Nat)
    (hent : ∀ l, (entries l).Perm l) (G : graph) (perm : Nat → Nat) (hG : G.simple)
    (hperm : isPermutation G.n perm) (k : Nat) :
    MIS_rootset.Inv G perm (MIS_rootset.MIS.stateAt entries G perm k)
      (MIS_rootset.MIS.rootsBefore entries G perm k)
      (MIS_rootset.MIS.removedBefore entries G perm k) := by
  induction k with
  | zero => exact MIS_rootset.Inv_init G perm hG
  | succ k ih =>
    rw [MIS_rootset.rootsBefore_succ, MIS_rootset.removedBefore_succ]
    exact MIS_rootset.Inv_round entries hent G perm hG hperm _ _ _ ih

theorem length_ge_of_forall_mem (l : List Nat) (n : Nat) (h : ∀ x, x < n → x ∈ l) :
    n ≤ l.length := by
  have h1 : Finset.range n ⊆ l.toFinset := by
    intro x hx
    exact List.mem_toFinset.2 (h x (Finset.mem_range.1 hx))
  have h2 := Finset.card_le_card h1
  rw [Finset.card_range] at h2
  exact le_trans h2 (List.toFinset_card_le l)

theorem MIS_rootset.Inv_log_lt (G : graph) (perm : Nat → Nat) (st : MIS_rootset.State)
    (mlog xlog : List Nat) (h : MIS_rootset.Inv G perm st mlog xlog) :
    ∀ x, x ∈ mlog ++ xlog → x < G.n := by
  intro x hx
  rcases List.mem_append.1 hx with hx | hx
  · exact (h.member_spec x ((h.mlog_spec x).1 hx)).1
  · exact ((h.xlog_spec x).1 hx).1

theorem MIS_rootset.Inv_finished_le (G : graph) (perm : Nat → Nat) (st : MIS_rootset.State)
    (mlog xlog : List Nat) (h : MIS_rootset.Inv G perm st mlog xlog) :
    st.finished ≤ G.n := by
  rw [h.finished_eq, ← List.length_append]
  exact nodup_length_le _ _ h.log_nodup (MIS_rootset.Inv_log_lt G perm st mlog xlog h)

/-- With no root left, no vertex is live: a live vertex of least rank would have a
live lower-ranked neighbour. -/
theorem MIS_rootset.no_live_of_no_roots (G : graph) (perm : Nat → Nat) (hG : G.simple)
    (st : MIS_rootset.State) (mlog xlog : List Nat)
    (h : MIS_rootset.Inv G perm st mlog xlog) (hr : st.roots.toSparse = []) :
    ∀ k v, perm v = k → v < G.n → ¬ 0 < st.priorities v := by
  intro k
  induction k using Nat.strong_induction_on with
  | _ k ih =>
    intro v hk hvn hpv
    have hc := h.pri_count v hvn (Or.inl hpv)
    have hpos : 0 < (G.V v).countP (fun u =>
        decide (perm u < perm v ∧ (0 < st.priorities u ∨ u ∈ st.roots.toSparse))) := by
      omega
    obtain ⟨u, hu, hudec⟩ := List.countP_pos_iff.1 hpos
    simp only [decide_eq_true_eq, hr, List.not_mem_nil, or_false] at hudec
    exact ih (perm u) (hk ▸ hudec.1) u rfl (hG.1 v hvn u hu) hudec.2

theorem MIS_rootset.roots_nonempty (G : graph) (perm : Nat → Nat) (hG : G.simple)
    (st : MIS_rootset.State) (mlog xlog : List Nat)
    (h : MIS_rootset.Inv G perm st mlog xlog) (hf : st.finished ≠ G.n) :
    0 < st.roots.size := by
  rw [vertexSubset.size_eq_length]
  by_contra hzero
  have hr : st.roots.toSparse = [] := List.length_eq_zero.1 (by omega)
  have hall : ∀ x, x < G.n → x ∈ mlog ++ xlog := by
    intro x hx
    have hp : st.priorities x = 0 := by
      have h1 := h.pri_nonneg x hx
      have h2 := MIS_rootset.no_live_of_no_roots G perm hG st mlog xlog h hr (perm x) x rfl hx
      omega
    rw [List.mem_append]
    cases hm : st.in_mis x
    · right
      exact (h.xlog_spec x).2 ⟨hx, hp, hm, by rw [hr]; exact List.not_mem_nil x⟩
    · left
      exact (h.mlog_spec x).2 hm
  have h1 := length_ge_of_forall_mem _ _ hall
  have h2 := MIS_rootset.Inv_finished_le G perm st mlog xlog h
  have h3 := h.finished_eq
  rw [List.length_append] at h1
  omega

theorem MIS_rootset.loop_stateAt (entries : List Nat → List Nat)
    (hent : ∀ l, (entries l).Perm l) (G : graph) (perm : Nat → Nat) (hG : G.simple)
    (hperm : isPermutation G.n perm) :
    ∀ fuel k, G.n - (MIS_rootset.MIS.stateAt entries G perm k).finished < fuel →
      ∃ K, k ≤ K ∧
        MIS_rootset.MIS.loop entries G perm fuel (MIS_rootset.MIS.stateAt entries G perm k) =
          .ok (MIS_rootset.MIS.stateAt entries G perm K) ∧
        (MIS_rootset.MIS.stateAt entries G perm K).finished = G.n ∧
        ∀ j, k ≤ j → j < K → (MIS_rootset.MIS.stateAt entries G perm j).finished ≠ G.n := by
  intro fuel
  induction fuel with
  | zero => intro k hk; omega
  | succ fuel ih =>
    intro k hk
    have hinv := MIS_rootset.Inv_stateAt entries hent G perm hG hperm k
    by_cases hf : (MIS_rootset.MIS.stateAt entries G perm k).finished = G.n
    · refine ⟨k, le_refl k, ?_, hf, fun j h1 h2 => by omega⟩
      simp [MIS_rootset.MIS.loop, hf]
    · have hroots := MIS_rootset.roots_nonempty G perm hG _ _ _ hinv hf
      have hle := MIS_rootset.Inv_finished_le G perm _ _ _ hinv
      have hnext : (MIS_rootset.MIS.stateAt entries G perm (k + 1)).finished =
          (MIS_rootset.MIS.stateAt entries G perm k).finished +
            (MIS_rootset.MIS.stateAt entries G perm k).roots.size +
            (MIS_rootset.MIS.removed entries G
              (MIS_rootset.MIS.stateAt entries G perm k)).size := rfl
      obtain ⟨K, hK1, hK2, hK3, hK4⟩ := ih (k + 1) (by omega)
      refine ⟨K, by omega, ?_, hK3, fun j h1 h2 => ?_⟩
      · have hne : (MIS_rootset.MIS.stateAt entries G perm k).roots.size ≠ 0 := by omega
        simp only [MIS_rootset.MIS.loop, hf, hne, if_false]
        exact hK2
      · by_cases hjk : j = k
        · subst hjk; exact hf
        · exact hK4 j (by omega) h2

theorem MIS_rootset.loop_no_assertion (entries : List Nat → List Nat)
    (hent : ∀ l, (entries l).Perm l) (G : graph) (perm : Nat → Nat) (hG : G.simple)
    (hperm : isPermutation G.n perm) :
    ∀ fuel k,
      MIS_rootset.MIS.loop entries G perm fuel (MIS_rootset.MIS.stateAt entries G perm k) ≠
        .error .assertion := by
  intro fuel
  induction fuel with
  | zero => intro k; simp [MIS_rootset.MIS.loop]
  | succ fuel ih =>
    intro k
    have hinv := MIS_rootset.Inv_stateAt entries hent G perm hG hperm k
    by_cases hf : (MIS_rootset.MIS.stateAt entries G perm k).finished = G.n
    · simp [MIS_rootset.MIS.loop, hf]
    · have hroots := MIS_rootset.roots_nonempty G perm hG _ _ _ hinv hf
      have hne : (MIS_rootset.MIS.stateAt entries G perm k).roots.size ≠ 0 := by omega
      simp only [MIS_rootset.MIS.loop, hf, hne, if_false]
      exact ih (k + 1)

/-- With more than `n` units of fuel the loop of `MIS` exits normally, in the state
reached after some number `K` of rounds, with `finished = n`. -/
theorem MIS_rootset.MIS_result (entries : List Nat → List Nat)
    (hent : ∀ l, (entries l).Perm l) (G : graph) (perm : Nat → Nat) (hG : G.simple)
    (hperm : isPermutation G.n perm) (fuel : Nat) (hfuel : G.n < fuel) :
    ∃ K, MIS_rootset.MIS.loop entries G perm fuel (MIS_rootset.MIS.init G perm) =
        .ok (MIS_rootset.MIS.stateAt entries G perm K) ∧
      MIS_rootset.MIS entries G perm fuel =
        .ok (MIS_rootset.MIS.stateAt entries G perm K).in_mis ∧
      (MIS_rootset.MIS.stateAt entries G perm K).finished = G.n ∧
      ∀ j, j < K → (MIS_rootset.MIS.stateAt entries G perm j).finished ≠ G.n := by
  obtain ⟨K, _, h2, h3, h4⟩ :=
    MIS_rootset.loop_stateAt entries hent G perm hG hperm fuel 0 (by
      have : (MIS_rootset.MIS.stateAt entries G perm 0).finished = 0 := rfl
      omega)
  have h2' : MIS_rootset.MIS.loop entries G perm fuel (MIS_rootset.MIS.init G perm) =
      .ok (MIS_rootset.MIS.stateAt entries G perm K) := h2
  refine ⟨K, h2', ?_, h3, fun j hj => h4 j (Nat.zero_le j) hj⟩
  unfold MIS_rootset.MIS
  rw [h2']
  rfl

/-- In a state of the loop with `finished = n`, the members are independent and
every other vertex is in the removed log and has a member neighbour. -/
theorem MIS_rootset.final_facts (G : graph) (perm : Nat → Nat)
    (st : MIS_rootset.State) (mlog xlog : List Nat)
    (h : MIS_rootset.Inv G perm st mlog xlog) (hf : st.finished = G.n) :
    (∀ u v, v ∈ G.V u → ¬ (st.in_mis u = true ∧ st.in_mis v = true)) ∧
    (∀ v, v < G.n → st.in_mis v = false → ∃ u, u ∈ G.V v ∧ st.in_mis u = true) ∧
    (∀ v, v < G.n → (st.in_mis v = true ∧ v ∈ mlog ∧ v ∉ xlog) ∨
      (st.in_mis v = false ∧ v ∈ xlog ∧ v ∉ mlog)) := by
  have hall := nodup_length_eq_mem _ _ h.log_nodup (MIS_rootset.Inv_log_lt G perm st mlog xlog h)
    (by rw [List.length_append, ← h.finished_eq, hf])
  have hdisj := (List.nodup_append.1 h.log_nodup).2.2
  have hcase : ∀ v, v < G.n → (st.in_mis v = true ∧ v ∈ mlog ∧ v ∉ xlog) ∨
      (st.in_mis v = false ∧ v ∈ xlog ∧ v ∉ mlog) := by
    intro v hv
    rcases List.mem_append.1 (hall v hv) with hm | hx
    · exact Or.inl ⟨(h.mlog_spec v).1 hm, hm, fun hx => hdisj hm hx⟩
    · exact Or.inr ⟨((h.xlog_spec v).1 hx).2.2.1, hx, fun hm => hdisj hm hx⟩
  refine ⟨?_, ?_, hcase⟩
  · rintro u v hv ⟨hu, hvm⟩
    have := ((h.member_spec u hu).2.2 v hv).2.1
    rw [hvm] at this
    exact absurd this (by simp)
  · intro v hv hm
    rcases hcase v hv with ⟨h1, _, _⟩ | ⟨_, hx, _⟩
    · rw [hm] at h1; exact absurd h1 (by simp)
    · obtain ⟨_, hp, hmm, hr⟩ := (h.xlog_spec v).1 hx
      exact h.removed_spec v hv hp hmm hr

/-! ## The rootset algorithm: results -/

/-- C1 (independence of RootsetMIS): on a simple undirected graph and for a bijective
order `perm`, `MIS_rootset::MIS` returns, and in the array `in_mis` it returns no edge
`(u, v)` has both endpoints marked. -/
theorem MIS_rootset_independence (entries : List Nat → List Nat) (G : graph)
    (perm : Nat → Nat) (fuel : Nat) (hent : ∀ l, (entries l).Perm l) (hG : G.simple)
    (hperm : isPermutation G.n perm) (hfuel : G.n < fuel) :
    ∃ in_mis, MIS_rootset.MIS entries G perm fuel = .ok in_mis ∧
      ∀ u v, u < G.n → v ∈ G.V u → ¬ (in_mis u = true ∧ in_mis v = true) := by
  obtain ⟨K, _, h2, h3, _⟩ := MIS_rootset.MIS_result entries hent G perm hG hperm fuel hfuel
  have hinv := MIS_rootset.Inv_stateAt entries hent G perm hG hperm K
  exact ⟨_, h2, fun u v _ hv => (MIS_rootset.final_facts G perm _ _ _ hinv h3).1 u v hv⟩

/-- The hypotheses of `MIS_rootset_independence` hold on the 4-cycle with the order
`i -> (i + 1) mod 4`. -/
theorem MIS_rootset_independence_witness :
    ∃ in_mis, MIS_rootset.MIS id cycle4 (fun i => (i + 1) % 4) 5 = .ok in_mis ∧
      ∀ u v, u < cycle4.n → v ∈ cycle4.V u → ¬ (in_mis u = true ∧ in_mis v = true) :=
  MIS_rootset_independence id cycle4 (fun i => (i + 1) % 4) 5 (fun l => List.Perm.refl l)
    (by decide) (by decide) (by decide)

/-- C2 (maximality of RootsetMIS): on a simple undirected graph and for a bijective
order `perm`, `MIS_rootset::MIS` returns, and every vertex that is not marked in the
array `in_mis` it returns has a marked neighbour. -/
theorem MIS_rootset_maximality (entries : List Nat → List Nat) (G : graph)
    (perm : Nat → Nat) (fuel : Nat) (hent : ∀ l, (entries l).Perm l) (hG : G.simple)
    (hperm : isPermutation G.n perm) (hfuel : G.n < fuel) :
    ∃ in_mis, MIS_rootset.MIS entries G perm fuel = .ok in_mis ∧
      ∀ v, v < G.n → in_mis v = false → ∃ u, u ∈ G.V v ∧ in_mis u = true := by
  obtain ⟨K, _, h2, h3, _⟩ := MIS_rootset.MIS_result entries hent G perm hG hperm fuel hfuel
  have hinv := MIS_rootset.Inv_stateAt entries hent G perm hG hperm K
  exact ⟨_, h2, (MIS_rootset.final_facts G perm _ _ _ hinv h3).2.1⟩

/-- The hypotheses of `MIS_rootset_maximality` hold on the star with the reversed
order. -/
theorem MIS_rootset_maximality_witness :
    ∃ in_mis, MIS_rootset.MIS id star4 (fun i => 3 - i) 5 = .ok in_mis ∧
      ∀ v, v < star4.n → in_mis v = false → ∃ u, u ∈ star4.V v ∧ in_mis u = true :=
  MIS_rootset_maximality id star4 (fun i => 3 - i) 5 (fun l => List.Perm.refl l)
    (by decide) (by decide) (by decide)

/-- C6 (totality and exactly-once resolution in RootsetMIS): in every round `k` the
roots and the removed set have no duplicates, are disjoint from each other and from
the roots and removed sets of all earlier rounds; `finished` is the number of distinct
vertices resolved so far and is at most `n`; and the loop exits in a state in which
every vertex is either marked and was a root, or unmarked and was removed, never
both. -/
theorem MIS_rootset_exactly_once (entries : List Nat → List Nat) (G : graph)
    (perm : Nat → Nat) (hent : ∀ l, (entries l).Perm l) (hG : G.simple)
    (hperm : isPermutation G.n perm) :
    (∀ k,
      (MIS_rootset.MIS.stateAt entries G perm k).roots.toSparse.Nodup ∧
      (MIS_rootset.MIS.removed entries G
        (MIS_rootset.MIS.stateAt entries G perm k)).toSparse.Nodup ∧
      (∀ x, x ∈ (MIS_rootset.MIS.stateAt entries G perm k).roots.toSparse →
        x < G.n ∧
        x ∉ (MIS_rootset.MIS.removed entries G
          (MIS_rootset.MIS.stateAt entries G perm k)).toSparse ∧
        x ∉ MIS_rootset.MIS.rootsBefore entries G perm k ∧
        x ∉ MIS_rootset.MIS.removedBefore entries G perm k) ∧
      (∀ x, x ∈ (MIS_rootset.MIS.removed entries G
          (MIS_rootset.MIS.stateAt entries G perm k)).toSparse →
        x < G.n ∧
        x ∉ MIS_rootset.MIS.rootsBefore entries G perm k ∧
        x ∉ MIS_rootset.MIS.removedBefore entries G perm k) ∧
      (MIS_rootset.MIS.rootsBefore entries G perm k ++
        MIS_rootset.MIS.removedBefore entries G perm k).Nodup ∧
      (MIS_rootset.MIS.stateAt entries G perm k).finished =
        (MIS_rootset.MIS.rootsBefore entries G perm k ++
          MIS_rootset.MIS.removedBefore entries G perm k).length ∧
      (MIS_rootset.MIS.stateAt entries G perm k).finished ≤ G.n) ∧
    (∀ fuel, G.n < fuel →
      ∃ K, MIS_rootset.MIS.loop entries G perm fuel (MIS_rootset.MIS.init G perm) =
          .ok (MIS_rootset.MIS.stateAt entries G perm K) ∧
        ∀ v, v < G.n →
          ((MIS_rootset.MIS.stateAt entries G perm K).in_mis v = true ∧
            v ∈ MIS_rootset.MIS.rootsBefore entries G perm K ∧
            v ∉ MIS_rootset.MIS.removedBefore entries G perm K) ∨
          ((MIS_rootset.MIS.stateAt entries G perm K).in_mis v = false ∧
            v ∈ MIS_rootset.MIS.removedBefore entries G perm K ∧
            v ∉ MIS_rootset.MIS.rootsBefore entries G perm K)) := by
  constructor
  · intro k
    have hk := MIS_rootset.Inv_stateAt entries hent G perm hG hperm k
    have hk1 := MIS_rootset.Inv_stateAt entries hent G perm hG hperm (k + 1)
    have hn := hk1.log_nodup
    have hlt := MIS_rootset.Inv_log_lt G perm _ _ _ hk1
    rw [MIS_rootset.rootsBefore_succ, MIS_rootset.removedBefore_succ] at hn hlt
    simp only [List.nodup_append, List.Disjoint, List.mem_append] at hn
    obtain ⟨⟨_, hn2, hn3⟩, ⟨_, hn5, hn6⟩, hn7⟩ := hn
    refine ⟨hn2, hn5, fun x hx => ⟨?_, ?_, ?_, ?_⟩, fun x hx => ⟨?_, ?_, ?_⟩, hk.log_nodup,
      ?_, MIS_rootset.Inv_finished_le G perm _ _ _ hk⟩
    · exact hlt x (by simp [hx])
    · exact fun hx2 => hn7 (Or.inr hx) (Or.inr hx2)
    · exact fun hx2 => hn3 hx2 hx
    · exact fun hx2 => hn7 (Or.inr hx) (Or.inl hx2)
    · exact hlt x (by simp [hx])
    · exact fun hx2 => hn7 (Or.inl hx2) (Or.inr hx)
    · exact fun hx2 => hn6 hx2 hx
    · rw [List.length_append]
      exact hk.finished_eq
  · intro fuel hfuel
    obtain ⟨K, h1, _, h3, _⟩ :=
      MIS_rootset.MIS_result entries hent G perm hG hperm fuel hfuel
    have hinv := MIS_rootset.Inv_stateAt entries hent G perm hG hperm K
    exact ⟨K, h1, (MIS_rootset.final_facts G perm _ _ _ hinv h3).2.2⟩

/-- The hypotheses of `MIS_rootset_exactly_once` hold on the 4-cycle with the reversed
order. -/
theorem MIS_rootset_exactly_once_witness :
    (∀ k,
      (MIS_rootset.MIS.stateAt id cycle4 (fun i => 3 - i) k).roots.toSparse.Nodup ∧
      (MIS_rootset.MIS.removed id cycle4
        (MIS_rootset.MIS.stateAt id cycle4 (fun i => 3 - i) k)).toSparse.Nodup ∧
      (∀ x, x ∈ (MIS_rootset.MIS.stateAt id cycle4 (fun i => 3 - i) k).roots.toSparse →
        x < cycle4.n ∧
        x ∉ (MIS_rootset.MIS.removed id cycle4
          (MIS_rootset.MIS.stateAt id cycle4 (fun i => 3 - i) k)).toSparse ∧
        x ∉ MIS_rootset.MIS.rootsBefore id cycle4 (fun i => 3 - i) k ∧
        x ∉ MIS_rootset.MIS.removedBefore id cycle4 (fun i => 3 - i) k) ∧
      (∀ x, x ∈ (MIS_rootset.MIS.removed id cycle4
          (MIS_rootset.MIS.stateAt id cycle4 (fun i => 3 - i) k)).toSparse →
        x < cycle4.n ∧
        x ∉ MIS_rootset.MIS.rootsBefore id cycle4 (fun i => 3 - i) k ∧
        x ∉ MIS_rootset.MIS.removedBefore id cycle4 (fun i => 3 - i) k) ∧
      (MIS_rootset.MIS.rootsBefore id cycle4 (fun i => 3 - i) k ++
        MIS_rootset.MIS.removedBefore id cycle4 (fun i => 3 - i) k).Nodup ∧
      (MIS_rootset.MIS.stateAt id cycle4 (fun i => 3 - i) k).finished =
        (MIS_rootset.MIS.rootsBefore id cycle4 (fun i => 3 - i) k ++
          MIS_rootset.MIS.removedBefore id cycle4 (fun i => 3 - i) k).length ∧
      (MIS_rootset.MIS.stateAt id cycle4 (fun i => 3 - i) k).finished ≤ cycle4.n) ∧
    (∀ fuel, cycle4.n < fuel →
      ∃ K, MIS_rootset.MIS.loop id cycle4 (fun i => 3 - i) fuel
          (MIS_rootset.MIS.init cycle4 (fun i => 3 - i)) =
          .ok (MIS_rootset.MIS.stateAt id cycle4 (fun i => 3 - i) K) ∧
        ∀ v, v < cycle4.n →
          ((MIS_rootset.MIS.stateAt id cycle4 (fun i => 3 - i) K).in_mis v = true ∧
            v ∈ MIS_rootset.MIS.rootsBefore id cycle4 (fun i => 3 - i) K ∧
            v ∉ MIS_rootset.MIS.removedBefore id cycle4 (fun i => 3 - i) K) ∨
          ((MIS_rootset.MIS.stateAt id cycle4 (fun i => 3 - i) K).in_mis v = false ∧
            v ∈ MIS_rootset.MIS.removedBefore id cycle4 (fun i => 3 - i) K ∧
            v ∉ MIS_rootset.MIS.rootsBefore id cycle4 (fun i => 3 - i) K)) :=
  MIS_rootset_exactly_once id cycle4 (fun i => 3 - i) (fun l => List.Perm.refl l)
    (by decide) (by decide)

/-- C7 (the root frontier is never empty mid-algorithm): on a simple undirected graph
and for a bijective order `perm`, at the start of every iteration with
`finished != n` the frontier `roots` is non-empty, so the run never stops at
`assert(roots.size() > 0)`. -/
theorem MIS_rootset_roots_never_empty (entries : List Nat → List Nat) (G : graph)
    (perm : Nat → Nat) (hent : ∀ l, (entries l).Perm l) (hG : G.simple)
    (hperm : isPermutation G.n perm) :
    (∀ k, (MIS_rootset.MIS.stateAt entries G perm k).finished ≠ G.n →
      0 < (MIS_rootset.MIS.stateAt entries G perm k).roots.size) ∧
    (∀ fuel, MIS_rootset.MIS.loop entries G perm fuel (MIS_rootset.MIS.init G perm) ≠
      .error .assertion) ∧
    (∀ fuel, MIS_rootset.MIS entries G perm fuel ≠ .error .assertion) := by
  have hl : ∀ fuel, MIS_rootset.MIS.loop entries G perm fuel (MIS_rootset.MIS.init G perm) ≠
      .error .assertion :=
    fun fuel => MIS_rootset.loop_no_assertion entries hent G perm hG hperm fuel 0
  refine ⟨fun k hk => ?_, hl, fun fuel => ?_⟩
  · exact MIS_rootset.roots_nonempty G perm hG _ _ _
      (MIS_rootset.Inv_stateAt entries hent G perm hG hperm k) hk
  · unfold MIS_rootset.MIS
    have := hl fuel
    cases hres : MIS_rootset.MIS.loop entries G perm fuel (MIS_rootset.MIS.init G perm) with
    | ok st => simp [Except.map]
    | error e =>
      rw [hres] at this
      simp only [Except.map]
      intro hh
      injection hh with hh
      exact this (by rw [hh])

/-- The hypotheses of `MIS_rootset_roots_never_empty` hold on the star with the
identity order. -/
theorem MIS_rootset_roots_never_empty_witness :
    (∀ k, (MIS_rootset.MIS.stateAt id star4 (fun i => i) k).finished ≠ star4.n →
      0 < (MIS_rootset.MIS.stateAt id star4 (fun i => i) k).roots.size) ∧
    (∀ fuel, MIS_rootset.MIS.loop id star4 (fun i => i) fuel
        (MIS_rootset.MIS.init star4 (fun i => i)) ≠ .error .assertion) ∧
    (∀ fuel, MIS_rootset.MIS id star4 (fun i => i) fuel ≠ .error .assertion) :=
  MIS_rootset_roots_never_empty id star4 (fun i => i) (fun l => List.Perm.refl l)
    (by decide) (by decide)

/-! ## The speculative algorithm: one round of the engine -/

theorem foldl_pair_count (l : List Nat) (a b : Nat → Bool) (x y : Nat) :
    l.foldl (fun (acc : Nat × Nat) ngh =>
        (acc.1 + (if a ngh then 1 else 0), acc.2 + (if b ngh then 1 else 0))) (x, y) =
      (x + l.countP a, y + l.countP b) := by
  induction l generalizing x y with
  | nil => simp
  | cons c l ih =>
    rw [List.foldl_cons, ih, List.countP_cons, List.countP_cons]
    congr 1 <;> omega

theorem MIS_spec_for.reduce_eq (G : graph) (Flags : Nat → Nat) (i : Nat) :
    reduceOutNgh G i ((0 : Nat), (0 : Nat))
      (fun (src ngh : Nat) =>
        if ngh < src then
          ((if Flags ngh = 1 then 1 else 0 : Nat), (if Flags ngh = 0 then 1 else 0 : Nat))
        else (0, 0))
      (fun (l r : Nat × Nat) => (l.1 + r.1, l.2 + r.2)) =
    ((G.V i).countP (fun ngh => decide (ngh < i ∧ Flags ngh = 1)),
      (G.V i).countP (fun ngh => decide (ngh < i ∧ Flags ngh = 0))) := by
  unfold reduceOutNgh
  have h := foldl_pair_count (G.V i) (fun ngh => decide (ngh < i ∧ Flags ngh = 1))
    (fun ngh => decide (ngh < i ∧ Flags ngh = 0)) 0 0
  simp only [Nat.zero_add] at h
  rw [← h]
  congr 1
  funext acc ngh
  by_cases h1 : ngh < i <;> by_cases h2 : Flags ngh = 1 <;> by_cases h3 : Flags ngh = 0 <;>
    simp [h1, h2, h3]

theorem MIS_spec_for.charValue_pos (b : Nat) :
    MIS_spec_for.MISstep.charValue b > 0 ↔ 0 < b % 256 ∧ b % 256 < 128 := by
  unfold MIS_spec_for.MISstep.charValue
  split_ifs with h <;> omega

theorem MIS_spec_for.charValue_pos_small (b : Nat) (hb : b < 128) :
    MIS_spec_for.MISstep.charValue b > 0 ↔ b ≠ 0 := by
  rw [MIS_spec_for.charValue_pos, Nat.mod_eq_of_lt (by omega : b < 256)]
  omega

theorem MIS_spec_for.reserve_spec (G : graph) (st : MIS_spec_for.MISstep) (i : Nat) :
    (MIS_spec_for.MISstep.reserve G st i).1.Flags = st.Flags ∧
    (MIS_spec_for.MISstep.reserve G st i).1.FlagsNext =
      Function.update st.FlagsNext i (MIS_spec_for.decision G st.Flags i) ∧
    (MIS_spec_for.MISstep.reserve G st i).2 = true := by
  unfold MIS_spec_for.MISstep.reserve MIS_spec_for.decision
  simp only [MIS_spec_for.reduce_eq]
  split_ifs <;> simp

theorem MIS_spec_for.reserve_fold (G : graph) (W : List Nat) (st : MIS_spec_for.MISstep) :
    (W.foldl (fun st i => ((MIS_spec_for.MISstep.step G).reserve st i).1) st).Flags =
      st.Flags ∧
    ∀ x, (W.foldl (fun st i => ((MIS_spec_for.MISstep.step G).reserve st i).1) st).FlagsNext x =
      if x ∈ W then MIS_spec_for.decision G st.Flags x else st.FlagsNext x := by
  induction W generalizing st with
  | nil => simp
  | cons a W ih =>
    rw [List.foldl_cons]
    obtain ⟨ih1, ih2⟩ := ih (((MIS_spec_for.MISstep.step G).reserve st a).1)
    obtain ⟨r1, r2, _⟩ := MIS_spec_for.reserve_spec G st a
    have r1' : (((MIS_spec_for.MISstep.step G).reserve st a).1).Flags = st.Flags := r1
    have r2' : (((MIS_spec_for.MISstep.step G).reserve st a).1).FlagsNext =
      Function.update st.FlagsNext a (MIS_spec_for.decision G st.Flags a) := r2
    refine ⟨by rw [ih1, r1'], fun x => ?_⟩
    rw [ih2 x, r1', r2']
    by_cases hx : x ∈ W
    · simp [hx]
    · by_cases hxa : x = a
      · subst hxa; simp [hx]
      · simp [hx, hxa, Function.update_noteq hxa]

theorem MIS_spec_for.commit_fold (G : graph) (W : List Nat) (st : MIS_spec_for.MISstep)
    (kept : List Nat) :
    (W.foldl (fun (acc : MIS_spec_for.MISstep × List Nat) i =>
        let r := (MIS_spec_for.MISstep.step G).commit acc.1 i
        (r.1, if r.2 then acc.2 else acc.2 ++ [i])) (st, kept)).1.FlagsNext = st.FlagsNext ∧
    (∀ x, (W.foldl (fun (acc : MIS_spec_for.MISstep × List Nat) i =>
        let r := (MIS_spec_for.MISstep.step G).commit acc.1 i
        (r.1, if r.2 then acc.2 else acc.2 ++ [i])) (st, kept)).1.Flags x =
      if x ∈ W then st.FlagsNext x else st.Flags x) ∧
    (W.foldl (fun (acc : MIS_spec_for.MISstep × List Nat) i =>
        let r := (MIS_spec_for.MISstep.step G).commit acc.1 i
        (r.1, if r.2 then acc.2 else acc.2 ++ [i])) (st, kept)).2 =
      kept ++ W.filter
        (fun i => !decide (MIS_spec_for.MISstep.charValue (st.FlagsNext i) > 0)) := by
  induction W generalizing st kept with
  | nil => simp
  | cons a W ih =>
    rw [List.foldl_cons]
    have hc1 : ((MIS_spec_for.MISstep.step G).commit st a).1 =
        { st with Flags := Function.update st.Flags a (st.FlagsNext a) } := rfl
    have hc2 : ((MIS_spec_for.MISstep.step G).commit st a).2 =
        decide (MIS_spec_for.MISstep.charValue (st.FlagsNext a) > 0) := by
      simp [MIS_spec_for.MISstep.step, MIS_spec_for.MISstep.commit]
    simp only [hc1, hc2]
    obtain ⟨ih1, ih2, ih3⟩ := ih { st with Flags := Function.update st.Flags a (st.FlagsNext a) }
      (if decide (MIS_spec_for.MISstep.charValue (st.FlagsNext a) > 0) = true then kept
        else kept ++ [a])
    refine ⟨ih1, fun x => ?_, ?_⟩
    · rw [ih2 x]
      by_cases hx : x ∈ W
      · simp [hx]
      · by_cases hxa : x = a
        · subst hxa; simp [hx]
        · simp [hx, hxa, Function.update_noteq hxa]
    · rw [ih3, List.filter_cons]
      by_cases h0 : MIS_spec_for.MISstep.charValue (st.FlagsNext a) > 0
      · simp [h0]
      · simp [h0]

theorem MIS_spec_for.engine_round_spec (G : graph) (W : List Nat) (st : MIS_spec_for.MISstep) :
    (∀ x, (eff_for.round (MIS_spec_for.MISstep.step G) W st).1.Flags x =
      if x ∈ W then MIS_spec_for.decision G st.Flags x else st.Flags x) ∧
    (eff_for.round (MIS_spec_for.MISstep.step G) W st).2 =
      W.filter (fun i => decide (MIS_spec_for.decision G st.Flags i = 0)) := by
  unfold eff_for.round
  obtain ⟨r1, r2⟩ := MIS_spec_for.reserve_fold G W st
  obtain ⟨_, c2, c3⟩ := MIS_spec_for.commit_fold G W
    (W.foldl (fun st i => ((MIS_spec_for.MISstep.step G).reserve st i).1) st) []
  refine ⟨fun x => ?_, ?_⟩
  · have := c2 x
    simp only at this ⊢
    rw [this, r1, r2 x]
    by_cases hx : x ∈ W <;> simp [hx]
  · simp only at c3 ⊢
    rw [c3, List.nil_append]
    apply List.filter_congr
    intro x hx
    beta_reduce
    rw [r2 x, if_pos hx]
    have hle : MIS_spec_for.decision G st.Flags x ≤ 2 := by
      unfold MIS_spec_for.decision
      split_ifs <;> omega
    have hpos := MIS_spec_for.charValue_pos_small (MIS_spec_for.decision G st.Flags x)
      (by omega)
    by_cases h0 : MIS_spec_for.decision G st.Flags x = 0
    · rw [decide_eq_true h0, decide_eq_false (fun h => hpos.1 h h0)]
      rfl
    · rw [decide_eq_false h0, decide_eq_true (hpos.2 h0)]
      rfl

/-! ## The speculative algorithm: invariant and termination -/

theorem MIS_spec_for.decision_le (G : graph) (Flags : Nat → Nat) (i : Nat) :
    MIS_spec_for.decision G Flags i ≤ 2 := by
  unfold MIS_spec_for.decision
  split_ifs <;> omega

theorem MIS_spec_for.decision_two (G : graph) (Flags : Nat → Nat) (i : Nat) :
    MIS_spec_for.decision G Flags i = 2 ↔ ∃ u, u ∈ G.V i ∧ u < i ∧ Flags u = 1 := by
  unfold MIS_spec_for.decision
  by_cases h1 : 0 < (G.V i).countP (fun ngh => decide (ngh < i ∧ Flags ngh = 1))
  · rw [if_pos h1]
    obtain ⟨u, hu, hlt⟩ := List.countP_pos_iff.1 h1
    simp only [decide_eq_true_eq] at hlt
    exact ⟨fun _ => ⟨u, hu, hlt⟩, fun _ => rfl⟩
  · rw [if_neg h1]
    constructor
    · intro h
      split_ifs at h
      omega
    · rintro ⟨u, hu, hlt⟩
      exact absurd (List.countP_pos_iff.2 ⟨u, hu, by simpa using hlt⟩) h1

theorem MIS_spec_for.decision_zero (G : graph) (Flags : Nat → Nat) (i : Nat)
    (h : MIS_spec_for.decision G Flags i = 0) : ∃ u, u ∈ G.V i ∧ u < i ∧ Flags u = 0 := by
  unfold MIS_spec_for.decision at h
  by_cases h1 : 0 < (G.V i).countP (fun ngh => decide (ngh < i ∧ Flags ngh = 1))
  · rw [if_pos h1] at h
    omega
  · rw [if_neg h1] at h
    by_cases h2 : 0 < (G.V i).countP (fun ngh => decide (ngh < i ∧ Flags ngh = 0))
    · obtain ⟨u, hu, hlt⟩ := List.countP_pos_iff.1 h2
      simp only [decide_eq_true_eq] at hlt
      exact ⟨u, hu, hlt⟩
    · rw [if_neg h2] at h
      omega

theorem MIS_spec_for.decision_one (G : graph) (Flags : Nat → Nat) (i : Nat)
    (h : MIS_spec_for.decision G Flags i = 1) :
    ∀ u, u ∈ G.V i → u < i → Flags u ≠ 1 ∧ Flags u ≠ 0 := by
  unfold MIS_spec_for.decision at h
  by_cases h1 : 0 < (G.V i).countP (fun ngh => decide (ngh < i ∧ Flags ngh = 1))
  · rw [if_pos h1] at h
    omega
  · rw [if_neg h1] at h
    by_cases h2 : 0 < (G.V i).countP (fun ngh => decide (ngh < i ∧ Flags ngh = 0))
    · rw [if_pos h2] at h
      omega
    · intro u hu hlt
      constructor
      · intro h3
        exact h1 (List.countP_pos_iff.2 ⟨u, hu, by simp [hlt, h3]⟩)
      · intro h3
        exact h2 (List.countP_pos_iff.2 ⟨u, hu, by simp [hlt, h3]⟩)

theorem MIS_spec_for.flags_Inv_round (G : graph) (W : List Nat)
    (st : MIS_spec_for.MISstep) (h : MIS_spec_for.Inv G W st.Flags) :
    MIS_spec_for.Inv G (eff_for.round (MIS_spec_for.MISstep.step G) W st).2
      (eff_for.round (MIS_spec_for.MISstep.step G) W st).1.Flags := by
  obtain ⟨hF, hW⟩ := MIS_spec_for.engine_round_spec G W st
  rw [hW]
  generalize (eff_for.round (MIS_spec_for.MISstep.step G) W st).1.Flags = Flags1 at hF
  have hkeep : ∀ u, st.Flags u ≠ 0 → Flags1 u = st.Flags u := by
    intro u hu
    have hnW : u ∉ W := fun hw => hu ((h.working u).1 hw).2
    rw [hF u, if_neg hnW]
  refine ⟨fun x => ?_, fun x hx h1 u hu hlt => ?_, fun x hx h2 => ?_, fun x => ?_⟩
  · rw [List.mem_filter, hF x]
    simp only [decide_eq_true_eq]
    by_cases hxW : x ∈ W
    · simp only [hxW, if_true, true_and]
      exact ⟨fun h0 => ⟨((h.working x).1 hxW).1, h0⟩, fun h0 => h0.2⟩
    · simp only [hxW, if_false, false_and, false_iff]
      exact fun h0 => hxW ((h.working x).2 h0)
  · rw [hF x] at h1
    have hu2 : st.Flags u = 2 := by
      by_cases hxW : x ∈ W
      · rw [if_pos hxW] at h1
        have := MIS_spec_for.decision_one G st.Flags x h1 u hu hlt
        have := h.range u
        omega
      · rw [if_neg hxW] at h1
        exact h.chosen x hx h1 u hu hlt
    rw [hkeep u (by omega)]
    exact hu2
  · rw [hF x] at h2
    have hex : ∃ u, u ∈ G.V x ∧ u < x ∧ st.Flags u = 1 := by
      by_cases hxW : x ∈ W
      · rw [if_pos hxW] at h2
        exact (MIS_spec_for.decision_two G st.Flags x).1 h2
      · rw [if_neg hxW] at h2
        exact h.excluded x hx h2
    obtain ⟨u, hu, hlt, hfl⟩ := hex
    exact ⟨u, hu, hlt, by rw [hkeep u (by omega)]; exact hfl⟩
  · rw [hF x]
    split
    · exact MIS_spec_for.decision_le G st.Flags x
    · exact h.range x

theorem MIS_spec_for.round_progress (G : graph) (hG : G.wellFormed) (W : List Nat)
    (st : MIS_spec_for.MISstep) (h : MIS_spec_for.Inv G W st.Flags) (hW : W ≠ []) :
    (eff_for.round (MIS_spec_for.MISstep.step G) W st).2.length < W.length := by
  rw [(MIS_spec_for.engine_round_spec G W st).2]
  have hex : ∃ i, i ∈ W := by
    cases W with
    | nil => exact absurd rfl hW
    | cons a W => exact ⟨a, List.mem_cons_self _ _⟩
  rw [List.length_filter_lt_length_iff_exists]
  refine ⟨Nat.find hex, Nat.find_spec hex, ?_⟩
  simp only [decide_eq_true_eq]
  intro h0
  obtain ⟨u, hu, hlt, hfl⟩ := MIS_spec_for.decision_zero G st.Flags _ h0
  have hi := ((h.working _).1 (Nat.find_spec hex)).1
  exact Nat.find_min hex hlt ((h.working u).2 ⟨hG _ hi u hu, hfl⟩)

theorem MIS_spec_for.loop_ok (G : graph) (hG : G.wellFormed) :
    ∀ fuel W (st : MIS_spec_for.MISstep), MIS_spec_for.Inv G W st.Flags → W.length < fuel →
      ∃ st1, eff_for.loop (MIS_spec_for.MISstep.step G) fuel W st = .ok st1 ∧
        MIS_spec_for.Inv G [] st1.Flags := by
  intro fuel
  induction fuel with
  | zero => intro W st _ hlen; omega
  | succ fuel ih =>
    intro W st h hlen
    cases W with
    | nil => exact ⟨st, by simp [eff_for.loop], h⟩
    | cons a W =>
      have hp := MIS_spec_for.round_progress G hG (a :: W) st h (by simp)
      obtain ⟨st1, h1, h2⟩ := ih _ _ (MIS_spec_for.flags_Inv_round G (a :: W) st h) (by omega)
      exact ⟨st1, by simpa [eff_for.loop] using h1, h2⟩

theorem MIS_spec_for.flags_Inv_init (G : graph) :
    MIS_spec_for.Inv G (List.range' 0 (G.n - 0)) (fun _ => 0) := by
  refine ⟨fun x => ?_, fun x _ h1 => ?_, fun x _ h2 => ?_, fun x => by omega⟩
  · simp [List.mem_range']
  · exact absurd h1 (by omega)
  · exact absurd h2 (by omega)

/-- With more than `n` units of fuel `MIS_spec_for::MIS` returns flags that are all
1 or 2, where a vertex with flag 1 has only flag-2 neighbours of smaller id and a
vertex with flag 2 has a flag-1 neighbour. -/
theorem MIS_spec_for.flags_result (G : graph) (hG : G.wellFormed) (FlagsNext0 : Nat → Nat)
    (fuel : Nat) (hfuel : G.n < fuel) :
    ∃ Flags, MIS_spec_for.MIS G FlagsNext0 fuel = .ok Flags ∧
      (∀ x, x < G.n → Flags x = 1 ∨ Flags x = 2) ∧
      (∀ x, x < G.n → Flags x = 1 → ∀ u, u ∈ G.V x → u < x → Flags u = 2) ∧
      (∀ x, x < G.n → Flags x = 2 → ∃ u, u ∈ G.V x ∧ u < x ∧ Flags u = 1) := by
  obtain ⟨st1, h1, h2⟩ := MIS_spec_for.loop_ok G hG fuel (List.range' 0 (G.n - 0))
    { FlagsNext := FlagsNext0, Flags := fun _ => 0 } (MIS_spec_for.flags_Inv_init G)
    (by simpa using hfuel)
  refine ⟨st1.Flags, ?_, fun x hx => ?_, h2.chosen, h2.excluded⟩
  · unfold MIS_spec_for.MIS eff_for
    rw [h1]
    rfl
  · have h0 : st1.Flags x ≠ 0 := fun h0 =>
      absurd ((h2.working x).2 ⟨hx, h0⟩) (List.not_mem_nil x)
    have := h2.range x
    omega

/-! ## The speculative algorithm: results -/

theorem MIS_spec_for.valid_of_result (G : graph) (hG : G.simple) (Flags : Nat → Nat)
    (h12 : ∀ x, x < G.n → Flags x = 1 ∨ Flags x = 2)
    (hch : ∀ x, x < G.n → Flags x = 1 → ∀ u, u ∈ G.V x → u < x → Flags u = 2)
    (hex : ∀ x, x < G.n → Flags x = 2 → ∃ u, u ∈ G.V x ∧ u < x ∧ Flags u = 1) :
    (∀ u v, u < G.n → v ∈ G.V u → ¬ (Flags u = 1 ∧ Flags v = 1)) ∧
    (∀ v, v < G.n → Flags v ≠ 1 → ∃ u, u ∈ G.V v ∧ Flags u = 1) := by
  obtain ⟨hwf, hsym, hloop, _⟩ := hG
  constructor
  · rintro u v hu hv ⟨h1, h2⟩
    have hvn := hwf u hu v hv
    have hne : v ≠ u := by
      rintro rfl
      exact hloop v hu hv
    rcases Nat.lt_or_gt_of_ne hne with hlt | hlt
    · have := hch u hu h1 v hv hlt
      omega
    · have := hch v hvn h2 u (hsym u hu v hv) hlt
      omega
  · intro v hv hne
    have h2 : Flags v = 2 := by
      rcases h12 v hv with h | h
      · exact absurd h hne
      · exact h
    obtain ⟨u, hu, _, hfl⟩ := hex v hv h2
    exact ⟨u, hu, hfl⟩

/-- C3 (validity of SpeculativeMIS): on a simple undirected graph `MIS_spec_for::MIS`,
driven by the batch engine of section 4.4, finishes, and the vertices with
`Flags[v] == 1` form a maximal independent set: no two of them are adjacent and every
other vertex has one of them as a neighbour. -/
theorem MIS_spec_for_valid (G : graph) (FlagsNext0 : Nat → Nat) (fuel : Nat)
    (hG : G.simple) (hfuel : G.n < fuel) :
    ∃ Flags, MIS_spec_for.MIS G FlagsNext0 fuel = .ok Flags ∧
      (∀ u v, u < G.n → v ∈ G.V u → ¬ (Flags u = 1 ∧ Flags v = 1)) ∧
      (∀ v, v < G.n → Flags v ≠ 1 → ∃ u, u ∈ G.V v ∧ Flags u = 1) := by
  obtain ⟨Flags, h1, h2, h3, h4⟩ := MIS_spec_for.flags_result G hG.1 FlagsNext0 fuel hfuel
  exact ⟨Flags, h1, MIS_spec_for.valid_of_result G hG Flags h2 h3 h4⟩

/-- The hypotheses of `MIS_spec_for_valid` hold on the 4-cycle. -/
theorem MIS_spec_for_valid_witness :
    ∃ Flags, MIS_spec_for.MIS cycle4 (fun _ => 7) 5 = .ok Flags ∧
      (∀ u v, u < cycle4.n → v ∈ cycle4.V u → ¬ (Flags u = 1 ∧ Flags v = 1)) ∧
      (∀ v, v < cycle4.n → Flags v ≠ 1 → ∃ u, u ∈ cycle4.V v ∧ Flags u = 1) :=
  MIS_spec_for_valid cycle4 (fun _ => 7) 5 (by decide) (by decide)

/-- C4, as stated, fails: on the 4-cycle and on the star the flags returned by
`MIS_spec_for::MIS` are all non-zero, so `verify_MIS`, reading each flag as a truth
value, finds no vertex with a good neighbourhood and reports 4 bad vertices. -/
theorem verify_MIS_rejects_raw_Flags :
    (∃ Flags, MIS_spec_for.MIS cycle4 (fun _ => 0) 5 = .ok Flags ∧
      (List.range 4).map Flags = [1, 2, 1, 2] ∧
      verify_MIS.n_ok cycle4 (fun i => decide (Flags i ≠ 0)) = 0 ∧
      verify_MIS cycle4 (fun i => decide (Flags i ≠ 0)) = Report.invalid 4) ∧
    (∃ Flags, MIS_spec_for.MIS star4 (fun _ => 0) 5 = .ok Flags ∧
      (List.range 4).map Flags = [1, 2, 2, 2] ∧
      verify_MIS.n_ok star4 (fun i => decide (Flags i ≠ 0)) = 0 ∧
      verify_MIS star4 (fun i => decide (Flags i ≠ 0)) = Report.invalid 4) :=
  ⟨⟨_, rfl, by decide, by decide, by decide⟩, ⟨_, rfl, by decide, by decide, by decide⟩⟩

/-- C4, amended: on a simple undirected graph `verify_MIS` accepts the membership
predicate `Flags[i] == 1` read off the flags returned by `MIS_spec_for::MIS`: it
computes `n_ok == n` and reports a valid MIS. -/
theorem verify_MIS_accepts_chosen (G : graph) (FlagsNext0 : Nat → Nat) (fuel : Nat)
    (hG : G.simple) (hfuel : G.n < fuel) :
    ∃ Flags, MIS_spec_for.MIS G FlagsNext0 fuel = .ok Flags ∧
      verify_MIS.n_ok G (fun i => decide (Flags i = 1)) = G.n ∧
      verify_MIS G (fun i => decide (Flags i = 1)) = Report.valid := by
  obtain ⟨Flags, h1, h2, h3, h4⟩ := MIS_spec_for.flags_result G hG.1 FlagsNext0 fuel hfuel
  obtain ⟨hind, hmax⟩ := MIS_spec_for.valid_of_result G hG Flags h2 h3 h4
  have hok : verify_MIS.n_ok G (fun i => decide (Flags i = 1)) = G.n := by
    rw [verify_MIS_n_ok_eq_n_iff]
    intro i hi
    constructor
    · intro hm u hu
      simp only [decide_eq_true_eq] at hm
      simp only [decide_eq_false_iff_not]
      exact fun hu1 => hind i u hi hu ⟨hm, hu1⟩
    · intro hm
      simp only [decide_eq_false_iff_not] at hm
      obtain ⟨u, hu, hfl⟩ := hmax i hi hm
      exact ⟨u, hu, by simpa using hfl⟩
  refine ⟨Flags, h1, hok, ?_⟩
  unfold verify_MIS
  simp [hok]

/-- The hypotheses of `verify_MIS_accepts_chosen` hold on the star. -/
theorem verify_MIS_accepts_chosen_witness :
    ∃ Flags, MIS_spec_for.MIS star4 (fun _ => 0) 5 = .ok Flags ∧
      verify_MIS.n_ok star4 (fun i => decide (Flags i = 1)) = star4.n ∧
      verify_MIS star4 (fun i => decide (Flags i = 1)) = Report.valid :=
  verify_MIS_accepts_chosen star4 (fun _ => 0) 5 (by decide) (by decide)

/-! ## BFS component labelling -/

theorem isolated2_not_reachable : ¬ isolated2.reachable 0 1 := by
  intro h
  rcases Relation.ReflTransGen.cases_head h with h | ⟨c, hc, _⟩
  · exact absurd h (by decide)
  · exact absurd hc (List.not_mem_nil c)

/-- C9 fails on the code: on two isolated vertices, `BFS_ComponentLabel` from source 0
on the array that `CC` passes (every entry `UINT_E_MAX`) returns the array unchanged,
so `parents[0]` is not the source 0 and `parents[1]` is not 1, although the comment
above the function promises `i --> src` for reachable `i` (the source itself is) and
`i --> i` for the others. -/
theorem BFS_ComponentLabel_isolated_source :
    ∃ parents, bfs_cc.BFS_ComponentLabel 4294967295 isolated2 0 5 (fun _ => 4294967295) =
        .ok parents ∧
      isolated2.reachable 0 0 ∧
      parents 0 = 4294967295 ∧ parents 0 ≠ 0 ∧
      ¬ isolated2.reachable 0 1 ∧
      parents 1 = 4294967295 ∧ parents 1 ≠ 1 :=
  ⟨_, rfl, Relation.ReflTransGen.refl, by decide, by decide, isolated2_not_reachable,
    by decide, by decide⟩

/-- C10 fails on the code: on two isolated vertices `CC` returns `UINT_E_MAX` for
both, so the two vertices carry the same label although neither is reachable from the
other. -/
theorem CC_isolated_vertices_share_label :
    ∃ parents, bfs_cc.CC 4294967295 isolated2 5 = .ok parents ∧
      parents 0 = parents 1 ∧ parents 0 = 4294967295 ∧
      ¬ isolated2.reachable 0 1 ∧ ¬ isolated2.reachable 1 0 := by
  refine ⟨_, rfl, by decide, by decide, isolated2_not_reachable, ?_⟩
  intro h
  rcases Relation.ReflTransGen.cases_head h with h | ⟨c, hc, _⟩
  · exact absurd h (by decide)
  · exact absurd hc (List.not_mem_nil c)

/-! ## The reserve/commit rule and forward progress of the speculative algorithm -/

theorem MIS_spec_for.decision_cases (G : graph) (Flags : Nat → Nat) (i : Nat) :
    ((∃ j, j ∈ G.V i ∧ j < i ∧ Flags j = 1) → MIS_spec_for.decision G Flags i = 2) ∧
    ((¬ ∃ j, j ∈ G.V i ∧ j < i ∧ Flags j = 1) → (∃ j, j ∈ G.V i ∧ j < i ∧ Flags j = 0) →
      MIS_spec_for.decision G Flags i = 0) ∧
    ((¬ ∃ j, j ∈ G.V i ∧ j < i ∧ Flags j = 1) → (¬ ∃ j, j ∈ G.V i ∧ j < i ∧ Flags j = 0) →
      MIS_spec_for.decision G Flags i = 1) := by
  have h1 : (0 < (G.V i).countP (fun ngh => decide (ngh < i ∧ Flags ngh = 1))) ↔
      ∃ j, j ∈ G.V i ∧ j < i ∧ Flags j = 1 := by
    rw [List.countP_pos_iff]
    simp only [decide_eq_true_eq]
  have h0 : (0 < (G.V i).countP (fun ngh => decide (ngh < i ∧ Flags ngh = 0))) ↔
      ∃ j, j ∈ G.V i ∧ j < i ∧ Flags j = 0 := by
    rw [List.countP_pos_iff]
    simp only [decide_eq_true_eq]
  unfold MIS_spec_for.decision
  refine ⟨fun h => ?_, fun h hz => ?_, fun h hz => ?_⟩
  · rw [if_pos (h1.2 h)]
  · rw [if_neg (fun hh => h (h1.1 hh)), if_pos (h0.2 hz)]
  · rw [if_neg (fun hh => h (h1.1 hh)), if_neg (fun hh => hz (h0.1 hh))]

theorem MIS_spec_for.commit_spec (st : MIS_spec_for.MISstep) (i : Nat) :
    (MIS_spec_for.MISstep.commit st i).1.Flags i = st.FlagsNext i ∧
    (∀ j, j ≠ i → (MIS_spec_for.MISstep.commit st i).1.Flags j = st.Flags j) ∧
    (MIS_spec_for.MISstep.commit st i).1.FlagsNext = st.FlagsNext ∧
    ((MIS_spec_for.MISstep.commit st i).2 = true ↔
      MIS_spec_for.MISstep.charValue ((MIS_spec_for.MISstep.commit st i).1.Flags i) > 0) ∧
    (st.FlagsNext i < 128 →
      ((MIS_spec_for.MISstep.commit st i).2 = true ↔
        (MIS_spec_for.MISstep.commit st i).1.Flags i ≠ 0)) := by
  unfold MIS_spec_for.MISstep.commit
  refine ⟨by simp, fun j hj => by simp [Function.update_noteq hj], rfl, ?_, fun hb => ?_⟩
  · simp only [Function.update_same, decide_eq_true_eq]
  · simp only [Function.update_same, decide_eq_true_eq]
    exact MIS_spec_for.charValue_pos_small (st.FlagsNext i) hb

theorem MIS_spec_for.commit_negative_char (st : MIS_spec_for.MISstep) (i b : Nat)
    (hb : st.FlagsNext i = b) (h1 : 128 ≤ b) (h2 : b < 256) :
    (MIS_spec_for.MISstep.commit st i).2 = false ∧
    (MIS_spec_for.MISstep.commit st i).1.Flags i ≠ 0 := by
  obtain ⟨c1, _, _, c4, _⟩ := MIS_spec_for.commit_spec st i
  constructor
  · cases hc : (MIS_spec_for.MISstep.commit st i).2
    · rfl
    · have hpos := (MIS_spec_for.charValue_pos _).1 (c4.1 hc)
      rw [c1, hb, Nat.mod_eq_of_lt h2] at hpos
      omega
  · rw [c1, hb]
    omega

/-- C15 (reserve/commit decision rule): `reserve(i)` returns true, leaves `Flags` and
every other entry of `FlagsNext` unchanged, and sets `FlagsNext[i]` to 2 if some
out-neighbour of smaller id is chosen, otherwise to 0 if one is undecided, otherwise to
1; `commit(i)` sets `Flags[i] = FlagsNext[i]` and changes nothing else, it returns true
exactly when the value of the new `Flags[i]` as a `char` is positive, and so, called
after `reserve(i)` or with any `FlagsNext[i]` from 0 to 127, exactly when the new
`Flags[i]` is not 0. -/
theorem MISstep_decision_rule (G : graph) (st : MIS_spec_for.MISstep) (i : Nat) :
    (MIS_spec_for.MISstep.reserve G st i).2 = true ∧
    (MIS_spec_for.MISstep.reserve G st i).1.Flags = st.Flags ∧
    (∀ j, j ≠ i → (MIS_spec_for.MISstep.reserve G st i).1.FlagsNext j = st.FlagsNext j) ∧
    ((∃ j, j ∈ G.V i ∧ j < i ∧ st.Flags j = 1) →
      (MIS_spec_for.MISstep.reserve G st i).1.FlagsNext i = 2) ∧
    ((¬ ∃ j, j ∈ G.V i ∧ j < i ∧ st.Flags j = 1) →
      (∃ j, j ∈ G.V i ∧ j < i ∧ st.Flags j = 0) →
      (MIS_spec_for.MISstep.reserve G st i).1.FlagsNext i = 0) ∧
    ((¬ ∃ j, j ∈ G.V i ∧ j < i ∧ st.Flags j = 1) →
      (¬ ∃ j, j ∈ G.V i ∧ j < i ∧ st.Flags j = 0) →
      (MIS_spec_for.MISstep.reserve G st i).1.FlagsNext i = 1) ∧
    (∀ st1 : MIS_spec_for.MISstep,
      (MIS_spec_for.MISstep.commit st1 i).1.Flags i = st1.FlagsNext i ∧
      (∀ j, j ≠ i → (MIS_spec_for.MISstep.commit st1 i).1.Flags j = st1.Flags j) ∧
      (MIS_spec_for.MISstep.commit st1 i).1.FlagsNext = st1.FlagsNext ∧
      ((MIS_spec_for.MISstep.commit st1 i).2 = true ↔
        MIS_spec_for.MISstep.charValue ((MIS_spec_for.MISstep.commit st1 i).1.Flags i) > 0) ∧
      (st1.FlagsNext i < 128 →
        ((MIS_spec_for.MISstep.commit st1 i).2 = true ↔
          (MIS_spec_for.MISstep.commit st1 i).1.Flags i ≠ 0))) ∧
    ((MIS_spec_for.MISstep.commit (MIS_spec_for.MISstep.reserve G st i).1 i).1.Flags i =
        (MIS_spec_for.MISstep.reserve G st i).1.FlagsNext i ∧
      (∀ j, j ≠ i →
        (MIS_spec_for.MISstep.commit (MIS_spec_for.MISstep.reserve G st i).1 i).1.Flags j =
          st.Flags j) ∧
      (MIS_spec_for.MISstep.commit (MIS_spec_for.MISstep.reserve G st i).1 i).1.FlagsNext =
        (MIS_spec_for.MISstep.reserve G st i).1.FlagsNext ∧
      ((MIS_spec_for.MISstep.commit (MIS_spec_for.MISstep.reserve G st i).1 i).2 = true ↔
        (MIS_spec_for.MISstep.commit (MIS_spec_for.MISstep.reserve G st i).1 i).1.Flags i ≠
          0)) := by
  obtain ⟨r1, r2, r3⟩ := MIS_spec_for.reserve_spec G st i
  obtain ⟨d2, d0, d1⟩ := MIS_spec_for.decision_cases G st.Flags i
  obtain ⟨c1, c2, c3, _, c5⟩ :=
    MIS_spec_for.commit_spec (MIS_spec_for.MISstep.reserve G st i).1 i
  have hle := MIS_spec_for.decision_le G st.Flags i
  have hsmall : (MIS_spec_for.MISstep.reserve G st i).1.FlagsNext i < 128 := by
    rw [r2, Function.update_same]
    omega
  refine ⟨r3, r1, fun j hj => ?_, fun h => ?_, fun h hz => ?_, fun h hz => ?_,
    fun st1 => MIS_spec_for.commit_spec st1 i,
    c1, fun j hj => by rw [c2 j hj, r1], c3, c5 hsmall⟩
  · rw [r2, Function.update_noteq hj]
  · rw [r2, Function.update_same, d2 h]
  · rw [r2, Function.update_same, d0 h hz]
  · rw [r2, Function.update_same, d1 h hz]

/-- C16 (`hash_lt` is a strict total order): whatever the hash function, `hash_lt` is
irreflexive and transitive, and of two different ids exactly one is below the
other. -/
theorem hash_lt_strict_total_order (hash32 : Nat → Nat) :
    (∀ a, MIS_rootset.hash_lt hash32 a a = false) ∧
    (∀ a b c, MIS_rootset.hash_lt hash32 a b = true → MIS_rootset.hash_lt hash32 b c = true →
      MIS_rootset.hash_lt hash32 a c = true) ∧
    (∀ a b, a ≠ b →
      (MIS_rootset.hash_lt hash32 a b = true ∧ MIS_rootset.hash_lt hash32 b a = false) ∨
      (MIS_rootset.hash_lt hash32 a b = false ∧ MIS_rootset.hash_lt hash32 b a = true)) := by
  have key : ∀ a b, MIS_rootset.hash_lt hash32 a b = true ↔
      (hash32 a < hash32 b ∨ (hash32 a = hash32 b ∧ a < b)) := by
    intro a b
    simp [MIS_rootset.hash_lt]
  have keyf : ∀ a b, MIS_rootset.hash_lt hash32 a b = false ↔
      ¬ (hash32 a < hash32 b ∨ (hash32 a = hash32 b ∧ a < b)) := by
    intro a b
    rw [← key, Bool.not_eq_true]
  refine ⟨fun a => ?_, fun a b c hab hbc => ?_, fun a b hne => ?_⟩
  · rw [keyf]; omega
  · rw [key] at hab hbc ⊢; omega
  · rw [key, key, keyf, keyf]; omega

theorem eff_for.engine_loop_stateAt {σ : Type} (step : speculativeStep σ) (W : List Nat) (st : σ) :
    ∀ fuel k K, k ≤ K →
      (∀ j, k ≤ j → j < K → (eff_for.stateAt step W st j).2 ≠ []) →
      (eff_for.stateAt step W st K).2 = [] → K - k < fuel →
      eff_for.loop step fuel (eff_for.stateAt step W st k).2 (eff_for.stateAt step W st k).1 =
        .ok (eff_for.stateAt step W st K).1 := by
  intro fuel
  induction fuel with
  | zero => intro k K _ _ _ h; omega
  | succ fuel ih =>
    intro k K hk hne hK hfuel
    by_cases hkK : k = K
    · subst hkK
      simp [eff_for.loop, hK]
    · have hW := hne k (le_refl k) (by omega)
      have hemp : (eff_for.stateAt step W st k).2.isEmpty = false := by
        cases h : (eff_for.stateAt step W st k).2 with
        | nil => exact absurd h hW
        | cons a l => rfl
      have := ih (k + 1) K (by omega) (fun j h1 h2 => hne j (by omega) h2) hK (by omega)
      simp only [eff_for.loop, hemp, Bool.false_eq_true, if_false]
      exact this

theorem MIS_spec_for.engine_Inv_stateAt (G : graph) (FlagsNext0 : Nat → Nat) (k : Nat) :
    MIS_spec_for.Inv G
      (eff_for.stateAt (MIS_spec_for.MISstep.step G) (List.range' 0 (G.n - 0))
        { FlagsNext := FlagsNext0, Flags := fun _ => 0 } k).2
      (eff_for.stateAt (MIS_spec_for.MISstep.step G) (List.range' 0 (G.n - 0))
        { FlagsNext := FlagsNext0, Flags := fun _ => 0 } k).1.Flags := by
  induction k with
  | zero => exact MIS_spec_for.flags_Inv_init G
  | succ k ih => exact MIS_spec_for.flags_Inv_round G _ _ ih

theorem MIS_spec_for.min_resolved (G : graph) (hG : G.wellFormed) (W : List Nat)
    (st : MIS_spec_for.MISstep) (h : MIS_spec_for.Inv G W st.Flags) (i : Nat) (hi : i ∈ W)
    (hmin : ∀ x, x ∈ W → i ≤ x) :
    i ∉ (eff_for.round (MIS_spec_for.MISstep.step G) W st).2 ∧
    ((eff_for.round (MIS_spec_for.MISstep.step G) W st).1.Flags i = 1 ∨
      (eff_for.round (MIS_spec_for.MISstep.step G) W st).1.Flags i = 2) := by
  obtain ⟨hF, hW⟩ := MIS_spec_for.engine_round_spec G W st
  have hne : MIS_spec_for.decision G st.Flags i ≠ 0 := by
    intro h0
    obtain ⟨u, hu, hlt, hfl⟩ := MIS_spec_for.decision_zero G st.Flags i h0
    have hin := ((h.working i).1 hi).1
    have := hmin u ((h.working u).2 ⟨hG i hin u hu, hfl⟩)
    omega
  have hle := MIS_spec_for.decision_le G st.Flags i
  constructor
  · rw [hW, List.mem_filter]
    simp only [decide_eq_true_eq]
    exact fun hh => hne hh.2
  · rw [hF i, if_pos hi]
    omega

theorem MIS_spec_for.engine_length_bound (G : graph) (hG : G.wellFormed)
    (FlagsNext0 : Nat → Nat) :
    ∀ k, (∀ j, j < k →
        (eff_for.stateAt (MIS_spec_for.MISstep.step G) (List.range' 0 (G.n - 0))
          { FlagsNext := FlagsNext0, Flags := fun _ => 0 } j).2 ≠ []) →
      (eff_for.stateAt (MIS_spec_for.MISstep.step G) (List.range' 0 (G.n - 0))
        { FlagsNext := FlagsNext0, Flags := fun _ => 0 } k).2.length + k ≤ G.n := by
  intro k
  induction k with
  | zero => intro _; simp [eff_for.stateAt]
  | succ k ih =>
    intro hne
    have h1 := ih (fun j hj => hne j (by omega))
    have h2 := MIS_spec_for.round_progress G hG _ _
      (MIS_spec_for.engine_Inv_stateAt G FlagsNext0 k) (hne k (by omega))
    have h3 : (eff_for.stateAt (MIS_spec_for.MISstep.step G) (List.range' 0 (G.n - 0))
        { FlagsNext := FlagsNext0, Flags := fun _ => 0 } (k + 1)).2 =
      (eff_for.round (MIS_spec_for.MISstep.step G)
        (eff_for.stateAt (MIS_spec_for.MISstep.step G) (List.range' 0 (G.n - 0))
          { FlagsNext := FlagsNext0, Flags := fun _ => 0 } k).2
        (eff_for.stateAt (MIS_spec_for.MISstep.step G) (List.range' 0 (G.n - 0))
          { FlagsNext := FlagsNext0, Flags := fun _ => 0 } k).1).2 := rfl
    rw [h3]
    omega

theorem MIS_spec_for.engine_stops (G : graph) (hG : G.wellFormed) (FlagsNext0 : Nat → Nat) :
    ∃ K, K ≤ G.n ∧
      (eff_for.stateAt (MIS_spec_for.MISstep.step G) (List.range' 0 (G.n - 0))
        { FlagsNext := FlagsNext0, Flags := fun _ => 0 } K).2 = [] ∧
      ∀ j, j < K →
        (eff_for.stateAt (MIS_spec_for.MISstep.step G) (List.range' 0 (G.n - 0))
          { FlagsNext := FlagsNext0, Flags := fun _ => 0 } j).2 ≠ [] := by
  have hex : ∃ K, (eff_for.stateAt (MIS_spec_for.MISstep.step G) (List.range' 0 (G.n - 0))
      { FlagsNext := FlagsNext0, Flags := fun _ => 0 } K).2 = [] := by
    by_contra hno
    have hall : ∀ j, (eff_for.stateAt (MIS_spec_for.MISstep.step G) (List.range' 0 (G.n - 0))
        { FlagsNext := FlagsNext0, Flags := fun _ => 0 } j).2 ≠ [] :=
      fun j hj => hno ⟨j, hj⟩
    have h1 := MIS_spec_for.engine_length_bound G hG FlagsNext0 (G.n + 1) (fun j _ => hall j)
    omega
  refine ⟨Nat.find hex, ?_, Nat.find_spec hex, fun j hj => Nat.find_min hex hj⟩
  by_contra hgt
  have h1 := MIS_spec_for.engine_length_bound G hG FlagsNext0 (G.n + 1)
    (fun j hj => Nat.find_min hex (by omega))
  omega

/-- C14 (forward progress of SpeculativeMIS): an index whose smaller-id out-neighbours
all have a non-zero flag is resolved by `reserve` followed by `commit`, with flag 1 or
2; in every round of the engine the least index of the working set is resolved; the
engine stops after at most `n` rounds; and at completion every vertex has flag 1 or
flag 2. -/
theorem MIS_spec_for_forward_progress (G : graph) (FlagsNext0 : Nat → Nat) :
    (∀ (st : MIS_spec_for.MISstep) (i : Nat),
      (∀ j, j ∈ G.V i → j < i → st.Flags j ≠ 0) →
      (MIS_spec_for.MISstep.commit (MIS_spec_for.MISstep.reserve G st i).1 i).2 = true ∧
      ((MIS_spec_for.MISstep.commit (MIS_spec_for.MISstep.reserve G st i).1 i).1.Flags i = 1 ∨
        (MIS_spec_for.MISstep.commit (MIS_spec_for.MISstep.reserve G st i).1 i).1.Flags i = 2)) ∧
    (G.wellFormed →
      (∀ k i,
        i ∈ (eff_for.stateAt (MIS_spec_for.MISstep.step G) (List.range' 0 (G.n - 0))
          { FlagsNext := FlagsNext0, Flags := fun _ => 0 } k).2 →
        (∀ x, x ∈ (eff_for.stateAt (MIS_spec_for.MISstep.step G) (List.range' 0 (G.n - 0))
          { FlagsNext := FlagsNext0, Flags := fun _ => 0 } k).2 → i ≤ x) →
        i ∉ (eff_for.stateAt (MIS_spec_for.MISstep.step G) (List.range' 0 (G.n - 0))
          { FlagsNext := FlagsNext0, Flags := fun _ => 0 } (k + 1)).2 ∧
        ((eff_for.stateAt (MIS_spec_for.MISstep.step G) (List.range' 0 (G.n - 0))
          { FlagsNext := FlagsNext0, Flags := fun _ => 0 } (k + 1)).1.Flags i = 1 ∨
         (eff_for.stateAt (MIS_spec_for.MISstep.step G) (List.range' 0 (G.n - 0))
          { FlagsNext := FlagsNext0, Flags := fun _ => 0 } (k + 1)).1.Flags i = 2)) ∧
      ∃ K, K ≤ G.n ∧
        (eff_for.stateAt (MIS_spec_for.MISstep.step G) (List.range' 0 (G.n - 0))
          { FlagsNext := FlagsNext0, Flags := fun _ => 0 } K).2 = [] ∧
        (∀ j, j < K →
          (eff_for.stateAt (MIS_spec_for.MISstep.step G) (List.range' 0 (G.n - 0))
            { FlagsNext := FlagsNext0, Flags := fun _ => 0 } j).2 ≠ []) ∧
        (∀ fuel, K < fuel → MIS_spec_for.MIS G FlagsNext0 fuel =
          .ok (eff_for.stateAt (MIS_spec_for.MISstep.step G) (List.range' 0 (G.n - 0))
            { FlagsNext := FlagsNext0, Flags := fun _ => 0 } K).1.Flags) ∧
        ∀ x, x < G.n →
          ((eff_for.stateAt (MIS_spec_for.MISstep.step G) (List.range' 0 (G.n - 0))
            { FlagsNext := FlagsNext0, Flags := fun _ => 0 } K).1.Flags x = 1 ∨
           (eff_for.stateAt (MIS_spec_for.MISstep.step G) (List.range' 0 (G.n - 0))
            { FlagsNext := FlagsNext0, Flags := fun _ => 0 } K).1.Flags x = 2)) := by
  constructor
  · intro st i hnz
    obtain ⟨r1, r2, _⟩ := MIS_spec_for.reserve_spec G st i
    obtain ⟨c1, _, _, _, c5⟩ :=
      MIS_spec_for.commit_spec (MIS_spec_for.MISstep.reserve G st i).1 i
    have hne : MIS_spec_for.decision G st.Flags i ≠ 0 := by
      intro h0
      obtain ⟨u, hu, hlt, hfl⟩ := MIS_spec_for.decision_zero G st.Flags i h0
      exact hnz u hu hlt hfl
    have hle := MIS_spec_for.decision_le G st.Flags i
    have hval : (MIS_spec_for.MISstep.commit (MIS_spec_for.MISstep.reserve G st i).1 i).1.Flags i =
        MIS_spec_for.decision G st.Flags i := by
      rw [c1, r2, Function.update_same]
    have hsmall : (MIS_spec_for.MISstep.reserve G st i).1.FlagsNext i < 128 := by
      rw [r2, Function.update_same]
      omega
    refine ⟨(c5 hsmall).2 (by rw [hval]; exact hne), ?_⟩
    rw [hval]
    omega
  · intro hG
    refine ⟨fun k i hi hmin => ?_, ?_⟩
    · exact MIS_spec_for.min_resolved G hG _ _
        (MIS_spec_for.engine_Inv_stateAt G FlagsNext0 k) i hi hmin
    · obtain ⟨K, hK1, hK2, hK3⟩ := MIS_spec_for.engine_stops G hG FlagsNext0
      refine ⟨K, hK1, hK2, hK3, fun fuel hfuel => ?_, fun x hx => ?_⟩
      · have := eff_for.engine_loop_stateAt (MIS_spec_for.MISstep.step G) (List.range' 0 (G.n - 0))
          { FlagsNext := FlagsNext0, Flags := fun _ => 0 } fuel 0 K (Nat.zero_le K)
          (fun j _ hj => hK3 j hj) hK2 (by omega)
        unfold MIS_spec_for.MIS eff_for
        have h0 : eff_for.stateAt (MIS_spec_for.MISstep.step G) (List.range' 0 (G.n - 0))
            { FlagsNext := FlagsNext0, Flags := fun _ => 0 } 0 =
            ({ FlagsNext := FlagsNext0, Flags := fun _ => 0 }, List.range' 0 (G.n - 0)) := rfl
        rw [h0] at this
        rw [this]
        rfl
      · have hinv := MIS_spec_for.engine_Inv_stateAt G FlagsNext0 K
        rw [hK2] at hinv
        have h0 : (eff_for.stateAt (MIS_spec_for.MISstep.step G) (List.range' 0 (G.n - 0))
            { FlagsNext := FlagsNext0, Flags := fun _ => 0 } K).1.Flags x ≠ 0 := fun h0 =>
          absurd ((hinv.working x).2 ⟨hx, h0⟩) (List.not_mem_nil x)
        have := hinv.range x
        omega

/-- The hypothesis of `MIS_spec_for_forward_progress` holds on the star, where the
engine needs two rounds. -/
theorem MIS_spec_for_forward_progress_witness :
    star4.wellFormed ∧
    ∃ K, K ≤ star4.n ∧
      (eff_for.stateAt (MIS_spec_for.MISstep.step star4) (List.range' 0 (star4.n - 0))
        { FlagsNext := fun _ => 0, Flags := fun _ => 0 } K).2 = [] ∧
      (∀ j, j < K →
        (eff_for.stateAt (MIS_spec_for.MISstep.step star4) (List.range' 0 (star4.n - 0))
          { FlagsNext := fun _ => 0, Flags := fun _ => 0 } j).2 ≠ []) ∧
      (∀ fuel, K < fuel → MIS_spec_for.MIS star4 (fun _ => 0) fuel =
        .ok (eff_for.stateAt (MIS_spec_for.MISstep.step star4) (List.range' 0 (star4.n - 0))
          { FlagsNext := fun _ => 0, Flags := fun _ => 0 } K).1.Flags) ∧
      ∀ x, x < star4.n →
        ((eff_for.stateAt (MIS_spec_for.MISstep.step star4) (List.range' 0 (star4.n - 0))
          { FlagsNext := fun _ => 0, Flags := fun _ => 0 } K).1.Flags x = 1 ∨
         (eff_for.stateAt (MIS_spec_for.MISstep.step star4) (List.range' 0 (star4.n - 0))
          { FlagsNext := fun _ => 0, Flags := fun _ => 0 } K).1.Flags x = 2) :=
  ⟨by decide, ((MIS_spec_for_forward_progress star4 (fun _ => 0)).2 (by decide)).2⟩

/-! ## The sequential greedy algorithm -/

theorem greedy.fold_spec (G : graph) (perm : Nat → Nat) (L : List Nat)
    (hL : L.Pairwise (fun a b => perm a < perm b)) :
    (∀ y, L.foldl (greedy.visit G) (fun _ => false) y = true → y ∈ L) ∧
    (∀ y, y ∈ L → (L.foldl (greedy.visit G) (fun _ => false) y = true ↔
      ∀ u, u ∈ G.V y → u ∈ L → perm u < perm y →
        L.foldl (greedy.visit G) (fun _ => false) u = false)) := by
  induction L using List.reverseRecOn with
  | nil =>
    refine ⟨fun y hy => ?_, fun y hy => absurd hy (List.not_mem_nil y)⟩
    simp at hy
  | append_singleton L x ih =>
    rw [List.pairwise_append] at hL
    obtain ⟨hL1, _, hL3⟩ := hL
    obtain ⟨ih1, ih2⟩ := ih hL1
    have hlt : ∀ a, a ∈ L → perm a < perm x := fun a ha => hL3 a ha x (List.mem_singleton_self x)
    have hxL : x ∉ L := fun hx => absurd (hlt x hx) (lt_irrefl _)
    rw [List.foldl_append, List.foldl_cons, List.foldl_nil]
    generalize hsel : L.foldl (greedy.visit G) (fun _ => false) = sel at ih1 ih2
    have hselx : sel x = false := by
      cases h : sel x
      · rfl
      · exact absurd (ih1 x h) hxL
    have hother : ∀ y, y ≠ x → greedy.visit G sel x y = sel y := by
      intro y hy
      unfold greedy.visit
      split
      · rfl
      · exact Function.update_noteq hy _ _
    have hself : greedy.visit G sel x x = true ↔ ∀ u, u ∈ G.V x → sel u = false := by
      unfold greedy.visit
      by_cases hany : (G.V x).any sel = true
      · rw [if_pos hany, hselx]
        simp only [Bool.false_eq_true, false_iff]
        intro hall
        obtain ⟨u, hu, hsu⟩ := List.any_eq_true.1 hany
        rw [hall u hu] at hsu
        exact absurd hsu (by simp)
      · rw [if_neg hany, Function.update_same]
        simp only [true_iff]
        intro u hu
        cases h : sel u
        · rfl
        · exact absurd (List.any_eq_true.2 ⟨u, hu, h⟩) hany
    constructor
    · intro y hy
      by_cases hyx : y = x
      · subst hyx; simp
      · rw [hother y hyx] at hy
        exact List.mem_append_left _ (ih1 y hy)
    · intro y hy
      by_cases hyx : y = x
      · subst hyx
        rw [hself]
        constructor
        · intro hall u hu _ hlt2
          have hux : u ≠ y := fun h => by subst h; exact absurd hlt2 (lt_irrefl _)
          rw [hother u hux]
          exact hall u hu
        · intro hall u hu
          cases h : sel u
          · rfl
          · have huL := ih1 u h
            have hux : u ≠ y := fun hh => hxL (hh ▸ huL)
            have := hall u hu (List.mem_append_left _ huL) (hlt u huL)
            rw [hother u hux, h] at this
            exact absurd this (by simp)
      · have hyL : y ∈ L := by
          rcases List.mem_append.1 hy with h | h
          · exact h
          · exact absurd (List.mem_singleton.1 h) hyx
        rw [hother y hyx, ih2 y hyL]
        constructor
        · intro hall u hu _ hlt2
          have hux : u ≠ x := by
            rintro rfl
            have := hlt y hyL
            omega
          rw [hother u hux]
          by_cases huL : u ∈ L
          · exact hall u hu huL hlt2
          · cases h : sel u
            · rfl
            · exact absurd (ih1 u h) huL
        · intro hall u hu huL hlt2
          have hux : u ≠ x := fun hh => hxL (hh ▸ huL)
          have := hall u hu (List.mem_append_left _ huL) hlt2
          rw [hother u hux] at this
          exact this

theorem greedy.order_prefix (n : Nat) (perm : Nat → Nat) (hperm : isPermutation n perm) :
    ∀ m, ((List.range m).flatMap
        (fun r => (List.range n).filter (fun v => decide (perm v = r)))).Pairwise
        (fun a b => perm a < perm b) ∧
      ∀ v, v ∈ (List.range m).flatMap
        (fun r => (List.range n).filter (fun v => decide (perm v = r))) ↔
        v < n ∧ perm v < m := by
  intro m
  induction m with
  | zero => simp
  | succ m ih =>
    obtain ⟨ih1, ih2⟩ := ih
    rw [List.range_succ, List.flatMap_append]
    simp only [List.flatMap_cons, List.flatMap_nil, List.append_nil]
    have hmemB : ∀ v, v ∈ (List.range n).filter (fun v => decide (perm v = m)) ↔
        v < n ∧ perm v = m := by
      intro v
      simp [List.mem_filter]
    constructor
    · rw [List.pairwise_append]
      refine ⟨ih1, ?_, fun a ha b hb => ?_⟩
      · rw [List.pairwise_filter]
        apply List.Pairwise.imp_of_mem _ (List.pairwise_lt_range n)
        intro a b ha hb hab hpa hpb
        simp only [List.mem_range] at ha hb
        have := hperm.2 a ha b hb (by rw [hpa, hpb])
        omega
      · have h1 := ((ih2 a).1 ha).2
        have h2 := ((hmemB b).1 hb).2
        omega
    · intro v
      rw [List.mem_append, ih2, hmemB]
      constructor
      · rintro (h | h)
        · exact ⟨h.1, by omega⟩
        · exact ⟨h.1, by omega⟩
      · rintro ⟨h1, h2⟩
        by_cases h3 : perm v = m
        · exact Or.inr ⟨h1, h3⟩
        · exact Or.inl ⟨h1, by omega⟩

/-- The greedy selection is the one selection in which a vertex is selected exactly
when none of its lower-ranked neighbours is. -/
theorem greedyMIS_spec (G : graph) (perm : Nat → Nat) (hG : G.wellFormed)
    (hperm : isPermutation G.n perm) :
    (∀ v, greedyMIS G perm v = true → v < G.n) ∧
    ∀ v, v < G.n → (greedyMIS G perm v = true ↔
      ∀ u, u ∈ G.V v → perm u < perm v → greedyMIS G perm u = false) := by
  obtain ⟨h1, h2⟩ := greedy.order_prefix G.n perm hperm G.n
  have hmem : ∀ v, v ∈ greedy.order G.n perm ↔ v < G.n := by
    intro v
    unfold greedy.order
    rw [h2 v]
    exact ⟨fun h => h.1, fun h => ⟨h, hperm.1 v h⟩⟩
  obtain ⟨f1, f2⟩ := greedy.fold_spec G perm (greedy.order G.n perm) h1
  refine ⟨fun v hv => (hmem v).1 (f1 v hv), fun v hv => ?_⟩
  unfold greedyMIS
  rw [f2 v ((hmem v).2 hv)]
  constructor
  · intro hall u hu hlt
    exact hall u hu ((hmem u).2 (hG v hv u hu)) hlt
  · intro hall u hu _ hlt
    exact hall u hu hlt

theorem greedyMIS_unique (G : graph) (perm : Nat → Nat) (hG : G.wellFormed)
    (hperm : isPermutation G.n perm) (f : Nat → Bool)
    (hf : ∀ v, v < G.n → (f v = true ↔ ∀ u, u ∈ G.V v → perm u < perm v → f u = false)) :
    ∀ v, v < G.n → f v = greedyMIS G perm v := by
  obtain ⟨_, hg⟩ := greedyMIS_spec G perm hG hperm
  have key : ∀ k v, perm v = k → v < G.n → f v = greedyMIS G perm v := by
    intro k
    induction k using Nat.strong_induction_on with
    | _ k ih =>
      intro v hk hv
      have hiff : f v = true ↔ greedyMIS G perm v = true := by
        rw [hf v hv, hg v hv]
        constructor
        · intro hall u hu hlt
          rw [← ih (perm u) (hk ▸ hlt) u rfl (hG v hv u hu)]
          exact hall u hu hlt
        · intro hall u hu hlt
          rw [ih (perm u) (hk ▸ hlt) u rfl (hG v hv u hu)]
          exact hall u hu hlt
      cases h1 : f v <;> cases h2 : greedyMIS G perm v <;> simp_all
  exact fun v hv => key (perm v) v rfl hv

/-! ## The speculative algorithm under a batching schedule -/

theorem MIS_spec_for.sched_Inv_round (G : graph) (W B : List Nat)
    (st : MIS_spec_for.MISstep) (h : MIS_spec_for.Inv G W st.Flags)
    (hB : ∀ i, i ∈ B → i ∈ W) :
    MIS_spec_for.Inv G
      (W.filter (fun i => decide (i ∉ B ∨
        i ∈ (eff_for.round (MIS_spec_for.MISstep.step G) B st).2)))
      (eff_for.round (MIS_spec_for.MISstep.step G) B st).1.Flags ∧
    ∀ x, G.n ≤ x → (eff_for.round (MIS_spec_for.MISstep.step G) B st).1.Flags x = st.Flags x := by
  obtain ⟨hF, hW⟩ := MIS_spec_for.engine_round_spec G B st
  rw [hW]
  generalize (eff_for.round (MIS_spec_for.MISstep.step G) B st).1.Flags = Flags1 at hF
  have hkeep : ∀ u, st.Flags u ≠ 0 → Flags1 u = st.Flags u := by
    intro u hu
    have hnB : u ∉ B := fun hb => hu ((h.working u).1 (hB u hb)).2
    rw [hF u, if_neg hnB]
  refine ⟨⟨fun x => ?_, fun x hx h1 u hu hlt => ?_, fun x hx h2 => ?_, fun x => ?_⟩,
    fun x hx => ?_⟩
  · rw [List.mem_filter, hF x]
    simp only [decide_eq_true_eq, List.mem_filter]
    by_cases hxB : x ∈ B
    · have hxW := hB x hxB
      simp only [hxB, if_true, not_true_eq_false, true_and, false_or, hxW]
      exact ⟨fun h0 => ⟨((h.working x).1 hxW).1, h0⟩, fun h0 => h0.2⟩
    · simp only [hxB, if_false, not_false_eq_true, false_and, or_false, and_true]
      exact h.working x
  · rw [hF x] at h1
    have hu2 : st.Flags u = 2 := by
      by_cases hxB : x ∈ B
      · rw [if_pos hxB] at h1
        have := MIS_spec_for.decision_one G st.Flags x h1 u hu hlt
        have := h.range u
        omega
      · rw [if_neg hxB] at h1
        exact h.chosen x hx h1 u hu hlt
    rw [hkeep u (by omega)]
    exact hu2
  · rw [hF x] at h2
    have hex : ∃ u, u ∈ G.V x ∧ u < x ∧ st.Flags u = 1 := by
      by_cases hxB : x ∈ B
      · rw [if_pos hxB] at h2
        exact (MIS_spec_for.decision_two G st.Flags x).1 h2
      · rw [if_neg hxB] at h2
        exact h.excluded x hx h2
    obtain ⟨u, hu, hlt, hfl⟩ := hex
    exact ⟨u, hu, hlt, by rw [hkeep u (by omega)]; exact hfl⟩
  · rw [hF x]
    split
    · exact MIS_spec_for.decision_le G st.Flags x
    · exact h.range x
  · have hnB : x ∉ B := fun hb => by
      have := ((h.working x).1 (hB x hb)).1
      omega
    rw [hF x, if_neg hnB]

theorem MIS_spec_for.scheduled_partial (G : graph) (sched : Nat → List Nat → List Nat) :
    ∀ fuel k W (st st1 : MIS_spec_for.MISstep), MIS_spec_for.Inv G W st.Flags →
      (∀ x, G.n ≤ x → st.Flags x = 0) →
      eff_for.scheduled (MIS_spec_for.MISstep.step G) sched fuel k W st = .ok st1 →
      MIS_spec_for.Inv G [] st1.Flags ∧ ∀ x, G.n ≤ x → st1.Flags x = 0 := by
  intro fuel
  induction fuel with
  | zero =>
    intro k W st st1 _ _ hrun
    simp [eff_for.scheduled] at hrun
  | succ fuel ih =>
    intro k W st st1 h hz hrun
    cases W with
    | nil =>
      simp only [eff_for.scheduled, List.isEmpty_nil, if_true, Except.ok.injEq] at hrun
      subst hrun
      exact ⟨h, hz⟩
    | cons a W =>
      simp only [eff_for.scheduled, List.isEmpty_cons, Bool.false_eq_true, if_false] at hrun
      obtain ⟨h1, h2⟩ := MIS_spec_for.sched_Inv_round G (a :: W)
        ((sched k (a :: W)).filter (fun i => decide (i ∈ a :: W))) st h
        (fun i hi => by simpa using (List.mem_filter.1 hi).2)
      exact ih _ _ _ _ h1 (fun x hx => by rw [h2 x hx]; exact hz x hx) hrun

theorem MIS_spec_for.scheduled_total (G : graph) (hG : G.wellFormed)
    (sched : Nat → List Nat → List Nat)
    (hfair : ∀ k W i, W.Pairwise (fun a b => a < b) → i ∈ W → (∀ x, x ∈ W → i ≤ x) →
      i ∈ sched k W) :
    ∀ fuel k W (st : MIS_spec_for.MISstep), MIS_spec_for.Inv G W st.Flags →
      W.Pairwise (fun a b => a < b) → W.length < fuel →
      ∃ st1, eff_for.scheduled (MIS_spec_for.MISstep.step G) sched fuel k W st = .ok st1 := by
  intro fuel
  induction fuel with
  | zero => intro k W st _ _ hlen; omega
  | succ fuel ih =>
    intro k W st h hsorted hlen
    cases W with
    | nil => exact ⟨st, by simp [eff_for.scheduled]⟩
    | cons a W =>
      simp only [eff_for.scheduled, List.isEmpty_cons, Bool.false_eq_true, if_false]
      have hBW : ∀ i, i ∈ (sched k (a :: W)).filter (fun i => decide (i ∈ a :: W)) →
          i ∈ a :: W := fun i hi => by simpa using (List.mem_filter.1 hi).2
      obtain ⟨h1, _⟩ := MIS_spec_for.sched_Inv_round G (a :: W)
        ((sched k (a :: W)).filter (fun i => decide (i ∈ a :: W))) st h hBW
      apply ih _ _ _ h1 (hsorted.filter _)
      have hex : ∃ i, i ∈ a :: W := ⟨a, List.mem_cons_self _ _⟩
      have hmin : ∀ x, x ∈ a :: W → Nat.find hex ≤ x := fun x hx => Nat.find_min' hex hx
      have hiB : Nat.find hex ∈ (sched k (a :: W)).filter (fun i => decide (i ∈ a :: W)) := by
        rw [List.mem_filter]
        exact ⟨hfair k (a :: W) _ hsorted (Nat.find_spec hex) hmin,
          by simpa using Nat.find_spec hex⟩
      have hne : MIS_spec_for.decision G st.Flags (Nat.find hex) ≠ 0 := by
        intro h0
        obtain ⟨u, hu, hlt, hfl⟩ := MIS_spec_for.decision_zero G st.Flags _ h0
        have hin := ((h.working _).1 (Nat.find_spec hex)).1
        have := hmin u ((h.working u).2 ⟨hG _ hin u hu, hfl⟩)
        omega
      have hlt : (List.filter (fun i => decide (i ∉ (sched k (a :: W)).filter
            (fun i => decide (i ∈ a :: W)) ∨
          i ∈ (eff_for.round (MIS_spec_for.MISstep.step G)
            ((sched k (a :: W)).filter (fun i => decide (i ∈ a :: W))) st).2))
          (a :: W)).length < (a :: W).length := by
        rw [List.length_filter_lt_length_iff_exists]
        refine ⟨Nat.find hex, Nat.find_spec hex, ?_⟩
        rw [(MIS_spec_for.engine_round_spec G _ st).2]
        intro hh
        simp only [decide_eq_true_eq] at hh
        rcases hh with hh | hh
        · exact hh hiB
        · exact hne (by simpa using (List.mem_filter.1 hh).2)
      omega

theorem MIS_spec_for.flags_eq_greedy (G : graph) (hG : G.wellFormed) (Flags : Nat → Nat)
    (h12 : ∀ x, x < G.n → Flags x = 1 ∨ Flags x = 2)
    (hch : ∀ x, x < G.n → Flags x = 1 → ∀ u, u ∈ G.V x → u < x → Flags u = 2)
    (hex : ∀ x, x < G.n → Flags x = 2 → ∃ u, u ∈ G.V x ∧ u < x ∧ Flags u = 1) :
    ∀ v, v < G.n → Flags v = if greedyMIS G (fun i => i) v = true then 1 else 2 := by
  have hperm : isPermutation G.n (fun i => i) := ⟨fun i hi => hi, fun i _ j _ h => h⟩
  have hu := greedyMIS_unique G (fun i => i) hG hperm (fun v => decide (Flags v = 1)) (by
    intro v hv
    simp only [decide_eq_true_eq, decide_eq_false_iff_not]
    constructor
    · intro h1 u hu hlt
      have := hch v hv h1 u hu hlt
      omega
    · intro hall
      rcases h12 v hv with h | h
      · exact h
      · obtain ⟨u, hu, hlt, hfl⟩ := hex v hv h
        exact absurd hfl (hall u hu hlt))
  intro v hv
  have hdec : decide (Flags v = 1) = greedyMIS G (fun i => i) v := hu v hv
  rw [← hdec]
  rcases h12 v hv with h | h
  · simp [h]
  · simp [h]

theorem MIS_spec_for.scheduled_whole (G : graph) :
    ∀ fuel k W (st : MIS_spec_for.MISstep),
      eff_for.scheduled (MIS_spec_for.MISstep.step G) (fun _ W => W) fuel k W st =
        eff_for.loop (MIS_spec_for.MISstep.step G) fuel W st := by
  intro fuel
  induction fuel with
  | zero => intro k W st; rfl
  | succ fuel ih =>
    intro k W st
    have hB : W.filter (fun i => decide (i ∈ W)) = W :=
      List.filter_eq_self.2 (fun i hi => by simpa using hi)
    have hW1 : W.filter (fun i => decide (i ∉ W ∨
        i ∈ (eff_for.round (MIS_spec_for.MISstep.step G) W st).2)) =
        (eff_for.round (MIS_spec_for.MISstep.step G) W st).2 := by
      rw [(MIS_spec_for.engine_round_spec G W st).2]
      apply List.filter_congr
      intro i hi
      simp [hi]
    simp only [eff_for.scheduled, eff_for.loop, hB, hW1]
    split
    · rfl
    · exact ih _ _ _

theorem MIS_spec_for.scheduled_result (G : graph) (hG : G.wellFormed)
    (sched : Nat → List Nat → List Nat) (FlagsNext0 : Nat → Nat) (fuel : Nat)
    (Flags : Nat → Nat)
    (hrun : MIS_spec_for.MIS_scheduled G sched FlagsNext0 fuel = .ok Flags) :
    (∀ v, v < G.n → Flags v = if greedyMIS G (fun i => i) v = true then 1 else 2) ∧
    ∀ v, G.n ≤ v → Flags v = 0 := by
  unfold MIS_spec_for.MIS_scheduled at hrun
  cases hres : eff_for.scheduled (MIS_spec_for.MISstep.step G) sched fuel 0
      (List.range' 0 (G.n - 0)) { FlagsNext := FlagsNext0, Flags := fun _ => 0 } with
  | error e =>
    rw [hres] at hrun
    simp [Except.map] at hrun
  | ok st1 =>
    rw [hres] at hrun
    simp only [Except.map, Except.ok.injEq] at hrun
    subst hrun
    obtain ⟨hinv, hz⟩ := MIS_spec_for.scheduled_partial G sched fuel 0 _ _ st1
      (MIS_spec_for.flags_Inv_init G) (fun _ _ => rfl) hres
    refine ⟨MIS_spec_for.flags_eq_greedy G hG st1.Flags (fun x hx => ?_) hinv.chosen
      hinv.excluded, hz⟩
    have h0 : st1.Flags x ≠ 0 := fun h0 =>
      absurd ((hinv.working x).2 ⟨hx, h0⟩) (List.not_mem_nil x)
    have := hinv.range x
    omega

/-- C18 (SpeculativeMIS is schedule-independent and equals the greedy MIS by vertex
id): on a simple undirected graph, whatever batch the engine takes in each round, a
run that completes returns `Flags[v] = 1` for the vertices selected by the greedy
algorithm in increasing id and 2 for the others; a run completes whenever every batch
contains the least pending index, in particular under the engine of section 4.4, which
takes the whole working set; so two runs under different schedules return the same
array. -/
theorem MIS_spec_for_schedule_independent (G : graph) (hG : G.simple) :
    (∀ sched FlagsNext0 fuel Flags,
      MIS_spec_for.MIS_scheduled G sched FlagsNext0 fuel = .ok Flags →
      (∀ v, v < G.n → Flags v = if greedyMIS G (fun i => i) v = true then 1 else 2) ∧
      ∀ v, G.n ≤ v → Flags v = 0) ∧
    (∀ sched FlagsNext0 fuel,
      (∀ k W i, W.Pairwise (fun a b => a < b) → i ∈ W → (∀ x, x ∈ W → i ≤ x) →
        i ∈ sched k W) →
      G.n < fuel → ∃ Flags, MIS_spec_for.MIS_scheduled G sched FlagsNext0 fuel = .ok Flags) ∧
    (∀ FlagsNext0 fuel,
      MIS_spec_for.MIS_scheduled G (fun _ W => W) FlagsNext0 fuel =
        MIS_spec_for.MIS G FlagsNext0 fuel) ∧
    (∀ FlagsNext0 fuel, G.n < fuel →
      ∃ Flags, MIS_spec_for.MIS G FlagsNext0 fuel = .ok Flags ∧
        ∀ v, v < G.n → Flags v = if greedyMIS G (fun i => i) v = true then 1 else 2) ∧
    (∀ sched1 sched2 FlagsNext1 FlagsNext2 fuel1 fuel2 Flags1 Flags2,
      MIS_spec_for.MIS_scheduled G sched1 FlagsNext1 fuel1 = .ok Flags1 →
      MIS_spec_for.MIS_scheduled G sched2 FlagsNext2 fuel2 = .ok Flags2 →
      Flags1 = Flags2) := by
  refine ⟨fun sched F fuel Flags hrun =>
      MIS_spec_for.scheduled_result G hG.1 sched F fuel Flags hrun,
    fun sched F fuel hfair hfuel => ?_, fun F fuel => ?_, fun F fuel hfuel => ?_,
    fun s1 s2 F1 F2 f1 f2 Flags1 Flags2 h1 h2 => ?_⟩
  · obtain ⟨st1, hst⟩ := MIS_spec_for.scheduled_total G hG.1 sched hfair fuel 0
      (List.range' 0 (G.n - 0)) { FlagsNext := F, Flags := fun _ => 0 }
      (MIS_spec_for.flags_Inv_init G) (List.pairwise_lt_range' 0 (G.n - 0))
      (by simpa using hfuel)
    exact ⟨st1.Flags, by unfold MIS_spec_for.MIS_scheduled; rw [hst]; rfl⟩
  · unfold MIS_spec_for.MIS_scheduled MIS_spec_for.MIS eff_for
    rw [MIS_spec_for.scheduled_whole]
  · obtain ⟨Flags, h1, h2, h3, h4⟩ := MIS_spec_for.flags_result G hG.1 F fuel hfuel
    exact ⟨Flags, h1, MIS_spec_for.flags_eq_greedy G hG.1 Flags h2 h3 h4⟩
  · obtain ⟨a1, b1⟩ := MIS_spec_for.scheduled_result G hG.1 s1 F1 f1 Flags1 h1
    obtain ⟨a2, b2⟩ := MIS_spec_for.scheduled_result G hG.1 s2 F2 f2 Flags2 h2
    funext v
    by_cases hv : v < G.n
    · rw [a1 v hv, a2 v hv]
    · rw [b1 v (by omega), b2 v (by omega)]

/-- The hypothesis of `MIS_spec_for_schedule_independent` holds on the star; the
schedule that takes the first `k + 1` pending indices in round `k` contains the least
pending index, so the run under it completes with the greedy flags. -/
theorem MIS_spec_for_schedule_independent_witness :
    star4.simple ∧
    ∃ Flags, MIS_spec_for.MIS_scheduled star4 (fun k W => W.take (k + 1)) (fun _ => 0) 5 =
        .ok Flags ∧
      ∀ v, v < star4.n → Flags v = if greedyMIS star4 (fun i => i) v = true then 1 else 2 := by
  have hthm := MIS_spec_for_schedule_independent star4 (by decide)
  obtain ⟨Flags, hF⟩ := hthm.2.1 (fun k W => W.take (k + 1)) (fun _ => 0) 5 (by
    intro k W i hs hi hmin
    cases W with
    | nil => exact absurd hi (List.not_mem_nil i)
    | cons a W =>
      have ha : i ≤ a := hmin a (List.mem_cons_self _ _)
      rcases List.mem_cons.1 hi with h | h
      · subst h
        simp [List.take]
      · have := (List.pairwise_cons.1 hs).1 i h
        omega) (by decide)
  exact ⟨by decide, Flags, hF, (hthm.1 _ _ _ Flags hF).1⟩

/-! ## The rootset algorithm computes the greedy set -/

/-- A vertex removed in round `k` is a neighbour of a root of that round of lower
rank. -/
theorem MIS_rootset.removed_has_lower_root (entries : List Nat → List Nat)
    (hent : ∀ l, (entries l).Perm l) (G : graph) (perm : Nat → Nat) (hG : G.simple)
    (hperm : isPermutation G.n perm) (st : MIS_rootset.State) (mlog xlog : List Nat)
    (h : MIS_rootset.Inv G perm st mlog xlog) :
    ∀ v, v ∈ (MIS_rootset.MIS.removed entries G st).toSparse →
      ∃ r, r ∈ st.roots.toSparse ∧ r ∈ G.V v ∧ v ∈ G.V r ∧ perm r < perm v := by
  obtain ⟨_, hRm, K1, _, _, _, _⟩ :=
    MIS_rootset.round_facts entries hent G perm hG st mlog xlog h _ rfl
  obtain ⟨hwf, hsym, hloop, _⟩ := hG
  intro v hv
  obtain ⟨r, hr, hvr, hpv⟩ := (hRm v).1 hv
  have hrn := (h.roots_spec r hr).1
  have hvn := (K1 v hv).1
  refine ⟨r, hr, hsym r hrn v hvr, hvr, ?_⟩
  by_contra hnlt
  have hne : v ≠ r := by
    rintro rfl
    exact hloop v hvn hvr
  have hpne : perm v ≠ perm r := fun hp => hne (hperm.2 v hvn r hrn hp)
  have hlt : perm v < perm r := by omega
  have hc := h.pri_count r hrn (Or.inr hr)
  rw [(h.roots_spec r hr).2.1] at hc
  have hpos : 0 < (G.V r).countP (fun u =>
      decide (perm u < perm r ∧ (0 < st.priorities u ∨ u ∈ st.roots.toSparse))) :=
    List.countP_pos_iff.2 ⟨v, hvr, by simp [hlt, hpv]⟩
  omega

theorem MIS_rootset.rootsBefore_mono (entries : List Nat → List Nat) (G : graph)
    (perm : Nat → Nat) (k : Nat) (v : Nat)
    (hv : v ∈ MIS_rootset.MIS.rootsBefore entries G perm k) :
    v ∈ MIS_rootset.MIS.rootsBefore entries G perm (k + 1) := by
  rw [MIS_rootset.rootsBefore_succ]
  exact List.mem_append_left _ hv

theorem MIS_rootset.removedBefore_lower_member (entries : List Nat → List Nat)
    (hent : ∀ l, (entries l).Perm l) (G : graph) (perm : Nat → Nat) (hG : G.simple)
    (hperm : isPermutation G.n perm) :
    ∀ k v, v ∈ MIS_rootset.MIS.removedBefore entries G perm k →
      ∃ u, u ∈ G.V v ∧ u ∈ MIS_rootset.MIS.rootsBefore entries G perm k ∧
        perm u < perm v := by
  intro k
  induction k with
  | zero =>
    intro v hv
    simp [MIS_rootset.MIS.removedBefore] at hv
  | succ k ih =>
    intro v hv
    rw [MIS_rootset.removedBefore_succ] at hv
    rcases List.mem_append.1 hv with hv | hv
    · obtain ⟨u, hu, hur, hlt⟩ := ih v hv
      exact ⟨u, hu, MIS_rootset.rootsBefore_mono entries G perm k u hur, hlt⟩
    · obtain ⟨r, hr, hrv, _, hlt⟩ := MIS_rootset.removed_has_lower_root entries hent G perm hG
        hperm _ _ _ (MIS_rootset.Inv_stateAt entries hent G perm hG hperm k) v hv
      refine ⟨r, hrv, ?_, hlt⟩
      rw [MIS_rootset.rootsBefore_succ]
      exact List.mem_append_right _ hr

/-- C17 (RootsetMIS computes the greedy MIS of its order): on a simple undirected
graph and for a bijective order `perm`, `MIS_rootset::MIS` returns, and `in_mis[v]` is
true exactly for the vertices `v` selected by the sequential greedy algorithm that
visits the vertices in increasing rank. -/
theorem MIS_rootset_is_greedy (entries : List Nat → List Nat) (G : graph)
    (perm : Nat → Nat) (fuel : Nat) (hent : ∀ l, (entries l).Perm l) (hG : G.simple)
    (hperm : isPermutation G.n perm) (hfuel : G.n < fuel) :
    ∃ in_mis, MIS_rootset.MIS entries G perm fuel = .ok in_mis ∧
      ∀ v, in_mis v = greedyMIS G perm v := by
  obtain ⟨K, _, h2, h3, _⟩ := MIS_rootset.MIS_result entries hent G perm hG hperm fuel hfuel
  have hinv := MIS_rootset.Inv_stateAt entries hent G perm hG hperm K
  obtain ⟨_, _, hcase⟩ := MIS_rootset.final_facts G perm _ _ _ hinv h3
  have hlow := MIS_rootset.removedBefore_lower_member entries hent G perm hG hperm K
  refine ⟨_, h2, fun v => ?_⟩
  by_cases hv : v < G.n
  · apply greedyMIS_unique G perm hG.1 hperm _ _ v hv
    intro w hw
    constructor
    · intro hm u hu _
      exact ((hinv.member_spec w hm).2.2 u hu).2.1
    · intro hall
      rcases hcase w hw with ⟨hm, _, _⟩ | ⟨_, hx, _⟩
      · exact hm
      · obtain ⟨u, hu, hur, hlt⟩ := hlow w hx
        have hum := (hinv.mlog_spec u).1 hur
        rw [hall u hu hlt] at hum
        exact absurd hum (by simp)
  · have h1 : (MIS_rootset.MIS.stateAt entries G perm K).in_mis v = false := by
      cases hm : (MIS_rootset.MIS.stateAt entries G perm K).in_mis v
      · rfl
      · exact absurd (hinv.member_spec v hm).1 hv
    have h2 : greedyMIS G perm v = false := by
      cases hm : greedyMIS G perm v
      · rfl
      · exact absurd ((greedyMIS_spec G perm hG.1 hperm).1 v hm) hv
    rw [h1, h2]

/-- The hypotheses of `MIS_rootset_is_greedy` hold on the 4-cycle with the order
`i -> (i + 2) mod 4`. -/
theorem MIS_rootset_is_greedy_witness :
    ∃ in_mis, MIS_rootset.MIS id cycle4 (fun i => (i + 2) % 4) 5 = .ok in_mis ∧
      ∀ v, in_mis v = greedyMIS cycle4 (fun i => (i + 2) % 4) v :=
  MIS_rootset_is_greedy id cycle4 (fun i => (i + 2) % 4) 5 (fun l => List.Perm.refl l)
    (by decide) (by decide) (by decide)

/-! ## The rootset algorithm: the number of rounds -/

theorem MIS_rootset.rounds_stateAt (entries : List Nat → List Nat) (G : graph)
    (perm : Nat → Nat) (k : Nat) : (MIS_rootset.MIS.stateAt entries G perm k).rounds = k := by
  induction k with
  | zero => rfl
  | succ k ih =>
    show (MIS_rootset.MIS.stateAt entries G perm k).rounds + 1 = k + 1
    rw [ih]

theorem priorityPath_snoc (G : graph) (perm : Nat → Nat) (path : List Nat) (u v : Nat)
    (hp : priorityPath G perm path) (hlast : path.getLast? = some u) (hv : v < G.n)
    (hvu : v ∈ G.V u) (hlt : perm u < perm v) :
    priorityPath G perm (path ++ [v]) ∧ (path ++ [v]).getLast? = some v ∧
      (path ++ [v]).length = path.length + 1 := by
  refine ⟨⟨fun x hx => ?_, ?_⟩, by simp, by simp⟩
  · rcases List.mem_append.1 hx with h | h
    · exact hp.1 x h
    · rw [List.mem_singleton.1 h]; exact hv
  · apply List.Chain'.append hp.2 (List.chain'_singleton v)
    intro x hx y hy
    rw [hlast] at hx
    simp only [Option.mem_def, Option.some.injEq, List.head?_cons] at hx hy
    subst hx; subst hy
    exact ⟨hvu, hlt⟩

/-- A root of round `k` ends a directed path of the priority DAG with more than `k`
vertices. -/
theorem MIS_rootset.root_ends_path (entries : List Nat → List Nat)
    (hent : ∀ l, (entries l).Perm l) (G : graph) (perm : Nat → Nat) (hG : G.simple)
    (hperm : isPermutation G.n perm) :
    ∀ k v, v ∈ (MIS_rootset.MIS.stateAt entries G perm k).roots.toSparse →
      ∃ path, priorityPath G perm path ∧ path.getLast? = some v ∧ k + 1 ≤ path.length := by
  intro k
  induction k with
  | zero =>
    intro v hv
    have hinv := MIS_rootset.Inv_stateAt entries hent G perm hG hperm 0
    refine ⟨[v], ⟨fun x hx => ?_, List.chain'_singleton v⟩, rfl, by simp⟩
    rw [List.mem_singleton.1 hx]
    exact (hinv.roots_spec v hv).1
  | succ k ih =>
    intro v hv
    have hinv := MIS_rootset.Inv_stateAt entries hent G perm hG hperm k
    obtain ⟨_, hRm, K1, PR, P0, Ppos, hrn⟩ :=
      MIS_rootset.round_facts entries hent G perm hG _ _ _ hinv _ rfl
    have hv' : v ∈ (MIS_rootset.MIS.round entries G perm
        (MIS_rootset.MIS.stateAt entries G perm k)).roots.toSparse := hv
    have hvn := hrn v hv'
    have hvR : v ∉ (MIS_rootset.MIS.removed entries G
        (MIS_rootset.MIS.stateAt entries G perm k)).toSparse :=
      fun hR => (PR v hR).2 hv'
    have hpv : 0 < (MIS_rootset.MIS.stateAt entries G perm k).priorities v := by
      by_contra hnp
      exact (P0 v hvR (by omega)).2 hv'
    have hzero := (Ppos v hvn hvR hpv).2.1 hv'
    have hc := hinv.pri_count v hvn (Or.inl hpv)
    have hpos : 0 < (G.V v).countP (fun u => decide (perm u < perm v ∧
        (0 < (MIS_rootset.MIS.stateAt entries G perm k).priorities u ∨
          u ∈ (MIS_rootset.MIS.stateAt entries G perm k).roots.toSparse))) := by omega
    obtain ⟨u, hu, hudec⟩ := List.countP_pos_iff.1 hpos
    simp only [decide_eq_true_eq] at hudec
    obtain ⟨hlt, hact⟩ := hudec
    have hun := hG.1 v hvn u hu
    have hvu : v ∈ G.V u := hG.2.1 v hvn u hu
    by_cases hur : u ∈ (MIS_rootset.MIS.stateAt entries G perm k).roots.toSparse
    · obtain ⟨path, hp1, hp2, hp3⟩ := ih u hur
      obtain ⟨q1, q2, q3⟩ := priorityPath_snoc G perm path u v hp1 hp2 hvn hvu hlt
      exact ⟨path ++ [v], q1, q2, by omega⟩
    · have hpu : 0 < (MIS_rootset.MIS.stateAt entries G perm k).priorities u := by
        rcases hact with h | h
        · exact h
        · exact absurd h hur
      have huR : u ∈ (MIS_rootset.MIS.removed entries G
          (MIS_rootset.MIS.stateAt entries G perm k)).toSparse := by
        by_contra hnR
        have : 0 < (G.V v).countP (fun u => decide (perm u < perm v ∧
            u ∉ (MIS_rootset.MIS.removed entries G
              (MIS_rootset.MIS.stateAt entries G perm k)).toSparse ∧
            0 < (MIS_rootset.MIS.stateAt entries G perm k).priorities u)) :=
          List.countP_pos_iff.2 ⟨u, hu, by simp [hlt, hnR, hpu]⟩
        omega
      obtain ⟨r, hr, _, hur2, hlt2⟩ := MIS_rootset.removed_has_lower_root entries hent G perm
        hG hperm _ _ _ hinv u huR
      obtain ⟨path, hp1, hp2, hp3⟩ := ih r hr
      obtain ⟨q1, q2, q3⟩ := priorityPath_snoc G perm path r u hp1 hp2 hun hur2 hlt2
      obtain ⟨s1, s2, s3⟩ := priorityPath_snoc G perm (path ++ [u]) u v q1 q2 hvn hvu hlt
      exact ⟨path ++ [u] ++ [v], s1, s2, by omega⟩

theorem MIS_rootset.rounds_le_path (entries : List Nat → List Nat)
    (hent : ∀ l, (entries l).Perm l) (G : graph) (perm : Nat → Nat) (hG : G.simple)
    (hperm : isPermutation G.n perm) (K : Nat)
    (hK : ∀ j, j < K → (MIS_rootset.MIS.stateAt entries G perm j).finished ≠ G.n) :
    ∃ path, priorityPath G perm path ∧ K ≤ path.length := by
  cases K with
  | zero => exact ⟨[], ⟨fun x hx => absurd hx (List.not_mem_nil x), List.chain'_nil⟩, by simp⟩
  | succ K =>
    have hinv := MIS_rootset.Inv_stateAt entries hent G perm hG hperm K
    have hroots := MIS_rootset.roots_nonempty G perm hG _ _ _ hinv (hK K (by omega))
    rw [vertexSubset.size_eq_length] at hroots
    obtain ⟨v, hv⟩ := List.exists_mem_of_length_pos hroots
    obtain ⟨path, h1, _, h3⟩ := MIS_rootset.root_ends_path entries hent G perm hG hperm K v hv
    exact ⟨path, h1, h3⟩

/-- C13 (round bound and termination of RootsetMIS): on a simple undirected graph and
for a bijective order `perm` the loop terminates, and the final value of `rounds` is at
most the number of vertices of some directed path of the priority DAG, hence at most
every bound on the length of such paths; with `n == 0` there are 0 rounds and no
member, and with `n >= 1` and no edges there is 1 round and every vertex is a
member. -/
theorem MIS_rootset_round_bound (entries : List Nat → List Nat) (G : graph)
    (perm : Nat → Nat) (fuel : Nat) (hent : ∀ l, (entries l).Perm l) (hG : G.simple)
    (hperm : isPermutation G.n perm) (hfuel : G.n < fuel) :
    ∃ st, MIS_rootset.MIS.loop entries G perm fuel (MIS_rootset.MIS.init G perm) = .ok st ∧
      MIS_rootset.MIS entries G perm fuel = .ok st.in_mis ∧
      (∃ path, priorityPath G perm path ∧ st.rounds ≤ path.length) ∧
      (∀ L, (∀ path, priorityPath G perm path → path.length ≤ L) → st.rounds ≤ L) ∧
      (G.n = 0 → st.rounds = 0 ∧ ∀ v, st.in_mis v = false) ∧
      (1 ≤ G.n → (∀ v, v < G.n → G.V v = []) →
        st.rounds = 1 ∧ ∀ v, v < G.n → st.in_mis v = true) := by
  obtain ⟨K, h1, h2, h3, h4⟩ := MIS_rootset.MIS_result entries hent G perm hG hperm fuel hfuel
  have hinv := MIS_rootset.Inv_stateAt entries hent G perm hG hperm K
  have hrounds := MIS_rootset.rounds_stateAt entries G perm K
  obtain ⟨path, hp1, hp2⟩ := MIS_rootset.rounds_le_path entries hent G perm hG hperm K h4
  have hfin0 : (MIS_rootset.MIS.stateAt entries G perm 0).finished = 0 := rfl
  refine ⟨_, h1, h2, ⟨path, hp1, by omega⟩, fun L hL => ?_, fun hn => ?_, fun hn hV => ?_⟩
  · have := hL path hp1
    omega
  · have hK0 : K = 0 := by
      by_contra hne
      exact h4 0 (by omega) (by rw [hfin0, hn])
    subst hK0
    exact ⟨rfl, fun v => rfl⟩
  · have hK1 : 1 ≤ K := by
      by_contra hlt
      have hK0 : K = 0 := by omega
      subst hK0
      rw [hfin0] at h3
      omega
    have hlen : path.length ≤ 1 := by
      match path, hp1 with
      | [], _ => simp
      | [a], _ => simp
      | a :: b :: rest, hp =>
        have hab := (List.chain'_cons.1 hp.2).1
        have ha := hp.1 a (List.mem_cons_self _ _)
        rw [hV a ha] at hab
        exact absurd hab.1 (List.not_mem_nil b)
    refine ⟨by omega, fun v hv => ?_⟩
    obtain ⟨_, hmax, _⟩ := MIS_rootset.final_facts G perm _ _ _ hinv h3
    cases hm : (MIS_rootset.MIS.stateAt entries G perm K).in_mis v
    · obtain ⟨u, hu, _⟩ := hmax v hv hm
      rw [hV v hv] at hu
      exact absurd hu (List.not_mem_nil u)
    · rfl

/-- The hypotheses of `MIS_rootset_round_bound` hold on the star with the identity
order. -/
theorem MIS_rootset_round_bound_witness :
    ∃ st, MIS_rootset.MIS.loop id star4 (fun i => i) 5 (MIS_rootset.MIS.init star4 (fun i => i)) =
        .ok st ∧
      MIS_rootset.MIS id star4 (fun i => i) 5 = .ok st.in_mis ∧
      (∃ path, priorityPath star4 (fun i => i) path ∧ st.rounds ≤ path.length) ∧
      (∀ L, (∀ path, priorityPath star4 (fun i => i) path → path.length ≤ L) → st.rounds ≤ L) ∧
      (star4.n = 0 → st.rounds = 0 ∧ ∀ v, st.in_mis v = false) ∧
      (1 ≤ star4.n → (∀ v, v < star4.n → star4.V v = []) →
        st.rounds = 1 ∧ ∀ v, v < star4.n → st.in_mis v = true) :=
  MIS_rootset_round_bound id star4 (fun i => i) 5 (fun l => List.Perm.refl l)
    (by decide) (by decide) (by decide)

/-! ## The rootset algorithm: the priorities -/

theorem foldl_take_succ {α β : Type} (f : β → α → β) (init : β) (l : List α) (i : Nat) :
    (l.take (i + 1)).foldl f init = (l.take i).foldl f init ∨
    ∃ a, a ∈ l ∧ (l.take (i + 1)).foldl f init = f ((l.take i).foldl f init) a := by
  rw [List.take_succ, List.foldl_append]
  cases h : l[i]? with
  | none => left; rfl
  | some a =>
    right
    exact ⟨a, List.getElem?_mem h, rfl⟩

theorem MIS_rootset.visit_descends (perm : Nat → Nat) (s d : Nat) (p : Nat → Int)
    (out : List Nat) (v : Nat) :
    (edgeMap.visit (MIS_rootset.mis_f perm) s (p, out) d).1 v ≤ p v ∧
    (0 ≤ p v → 0 ≤ (edgeMap.visit (MIS_rootset.mis_f perm) s (p, out) d).1 v) ∧
    (p v = 0 → (edgeMap.visit (MIS_rootset.mis_f perm) s (p, out) d).1 v = 0) := by
  unfold edgeMap.visit MIS_rootset.mis_f
  by_cases hc : 0 < p d
  · by_cases hlt : perm s < perm d
    · by_cases hvd : v = d
      · subst hvd
        simp only [gt_iff_lt, hc, decide_True, if_true, hlt, Function.update_same]
        omega
      · simp only [gt_iff_lt, hc, decide_True, if_true, hlt, Function.update_noteq hvd]
        omega
    · simp only [gt_iff_lt, hc, decide_True, if_true, hlt, if_false]
      omega
  · simp only [gt_iff_lt, hc, decide_False, Bool.false_eq_true, if_false]
    omega

theorem MIS_rootset.zeroing_step (entries : List Nat → List Nat) (G : graph)
    (st : MIS_rootset.State) (i v : Nat) :
    (0 ≤ MIS_rootset.MIS.zeroingPrefix entries G st i v →
      MIS_rootset.MIS.zeroingPrefix entries G st (i + 1) v ≤
        MIS_rootset.MIS.zeroingPrefix entries G st i v ∧
      0 ≤ MIS_rootset.MIS.zeroingPrefix entries G st (i + 1) v) ∧
    (MIS_rootset.MIS.zeroingPrefix entries G st i v = 0 →
      MIS_rootset.MIS.zeroingPrefix entries G st (i + 1) v = 0) := by
  unfold MIS_rootset.MIS.zeroingPrefix
  rcases foldl_take_succ (fun pr v => Function.update pr v (0 : Int)) st.priorities
    (MIS_rootset.MIS.removed entries G st).toSparse i with h | ⟨a, _, h⟩
  · rw [h]
    exact ⟨fun h0 => ⟨le_refl _, h0⟩, fun h0 => h0⟩
  · rw [h]
    by_cases hva : v = a
    · subst hva
      rw [Function.update_same]
      exact ⟨fun h0 => ⟨h0, le_refl _⟩, fun _ => rfl⟩
    · rw [Function.update_noteq hva]
      exact ⟨fun h0 => ⟨le_refl _, h0⟩, fun h0 => h0⟩

theorem MIS_rootset.traversal_step (entries : List Nat → List Nat) (G : graph)
    (perm : Nat → Nat) (st : MIS_rootset.State) (j v : Nat) :
    MIS_rootset.MIS.traversalPrefix entries G perm st (j + 1) v ≤
      MIS_rootset.MIS.traversalPrefix entries G perm st j v ∧
    (0 ≤ MIS_rootset.MIS.traversalPrefix entries G perm st j v →
      0 ≤ MIS_rootset.MIS.traversalPrefix entries G perm st (j + 1) v) ∧
    (MIS_rootset.MIS.traversalPrefix entries G perm st j v = 0 →
      MIS_rootset.MIS.traversalPrefix entries G perm st (j + 1) v = 0) := by
  unfold MIS_rootset.MIS.traversalPrefix
  rcases foldl_take_succ
    (fun (acc : (Nat → Int) × List Nat) (e : Nat × Nat) =>
      edgeMap.visit (MIS_rootset.mis_f perm) e.1 acc e.2)
    (vertexMap (MIS_rootset.MIS.removed entries G st)
      (fun pr v => Function.update pr v 0) st.priorities, [])
    ((MIS_rootset.MIS.removed entries G st).toSparse.flatMap
      (fun s => (G.V s).map (fun d => (s, d)))) j with h | ⟨e, _, h⟩
  · rw [h]
    exact ⟨le_refl _, fun h0 => h0, fun h0 => h0⟩
  · rw [h]
    exact MIS_rootset.visit_descends perm e.1 e.2 _ _ v

theorem MIS_rootset.prefix_ends (entries : List Nat → List Nat) (G : graph)
    (perm : Nat → Nat) (st : MIS_rootset.State) :
    MIS_rootset.MIS.zeroingPrefix entries G st 0 = st.priorities ∧
    MIS_rootset.MIS.traversalPrefix entries G perm st 0 =
      MIS_rootset.MIS.zeroingPrefix entries G st
        (MIS_rootset.MIS.removed entries G st).toSparse.length ∧
    MIS_rootset.MIS.traversalPrefix entries G perm st
        ((MIS_rootset.MIS.removed entries G st).toSparse.flatMap
          (fun s => (G.V s).map (fun d => (s, d)))).length =
      (MIS_rootset.MIS.round entries G perm st).priorities := by
  refine ⟨rfl, ?_, ?_⟩
  · unfold MIS_rootset.MIS.traversalPrefix MIS_rootset.MIS.zeroingPrefix vertexMap
    simp
  · unfold MIS_rootset.MIS.traversalPrefix
    rw [List.take_length]
    show _ = (edgeMap G (MIS_rootset.MIS.removed entries G st) (MIS_rootset.mis_f perm)
      (vertexMap (MIS_rootset.MIS.removed entries G st)
        (fun pr v => Function.update pr v 0) st.priorities)).1
    unfold edgeMap
    simp only
    rw [foldl_edges_eq G.V (fun s acc d => edgeMap.visit (MIS_rootset.mis_f perm) s acc d)]

theorem MIS_rootset.round_descends (entries : List Nat → List Nat)
    (hent : ∀ l, (entries l).Perm l) (G : graph) (perm : Nat → Nat) (hG : G.simple)
    (st : MIS_rootset.State) (mlog xlog : List Nat)
    (h : MIS_rootset.Inv G perm st mlog xlog) (v : Nat) (hv : v < G.n) :
    0 ≤ st.priorities v ∧
    (MIS_rootset.MIS.round entries G perm st).priorities v ≤ st.priorities v ∧
    (st.priorities v = 0 → (MIS_rootset.MIS.round entries G perm st).priorities v = 0) := by
  obtain ⟨_, _, K1, PR, P0, Ppos, _⟩ :=
    MIS_rootset.round_facts entries hent G perm hG st mlog xlog h _ rfl
  have hnn := h.pri_nonneg v hv
  by_cases hvR : v ∈ (MIS_rootset.MIS.removed entries G st).toSparse
  · have := (PR v hvR).1
    have := (K1 v hvR).2.1
    exact ⟨hnn, by omega, fun _ => by omega⟩
  · by_cases hpv : 0 < st.priorities v
    · have h1 := (Ppos v hv hvR hpv).1
      have h2 := h.pri_count v hv (Or.inl hpv)
      refine ⟨hnn, ?_, fun h0 => by omega⟩
      rw [h1, h2]
      have : (G.V v).countP (fun u => decide (perm u < perm v ∧
            u ∉ (MIS_rootset.MIS.removed entries G st).toSparse ∧ 0 < st.priorities u)) ≤
          (G.V v).countP (fun u => decide (perm u < perm v ∧
            (0 < st.priorities u ∨ u ∈ st.roots.toSparse))) := by
        apply List.countP_mono_left
        intro u _ hu
        simp only [decide_eq_true_eq] at hu ⊢
        exact ⟨hu.1, Or.inl hu.2.2⟩
      omega
    · have := (P0 v hvR (by omega)).1
      exact ⟨hnn, by omega, fun _ => by omega⟩

theorem MIS_rootset.zeroing_nonneg (entries : List Nat → List Nat) (G : graph)
    (st : MIS_rootset.State) (v : Nat) (h0 : 0 ≤ st.priorities v) :
    ∀ i, 0 ≤ MIS_rootset.MIS.zeroingPrefix entries G st i v := by
  intro i
  induction i with
  | zero => exact h0
  | succ i ih => exact ((MIS_rootset.zeroing_step entries G st i v).1 ih).2

theorem MIS_rootset.traversal_nonneg (entries : List Nat → List Nat) (G : graph)
    (perm : Nat → Nat) (st : MIS_rootset.State) (v : Nat) (h0 : 0 ≤ st.priorities v) :
    ∀ j, 0 ≤ MIS_rootset.MIS.traversalPrefix entries G perm st j v := by
  intro j
  induction j with
  | zero =>
    rw [(MIS_rootset.prefix_ends entries G perm st).2.1]
    exact MIS_rootset.zeroing_nonneg entries G st v h0 _
  | succ j ih => exact (MIS_rootset.traversal_step entries G perm st j v).2.1 ih

/-- C12 (PriorityDegree invariant of RootsetMIS): the initial priority of a vertex is
the number of its out-neighbours ranked before it; every single write of a round (the
zeroing of a removed vertex, the visit of an edge) leaves each priority non-negative,
does not increase it and keeps it 0 once it is 0, and so does every round; at the start
of every round a vertex that is not yet resolved has as priority the number of its
lower-ranked neighbours that are not yet resolved, and a resolved vertex has
priority 0. -/
theorem MIS_rootset_priority_invariant (entries : List Nat → List Nat) (G : graph)
    (perm : Nat → Nat) (hent : ∀ l, (entries l).Perm l) (hG : G.simple)
    (hperm : isPermutation G.n perm) :
    (∀ v, (MIS_rootset.MIS.init G perm).priorities v =
      ((G.V v).countP (fun u => decide (perm u < perm v)) : Nat)) ∧
    (∀ k, MIS_rootset.MIS.zeroingPrefix entries G
        (MIS_rootset.MIS.stateAt entries G perm k) 0 =
        (MIS_rootset.MIS.stateAt entries G perm k).priorities ∧
      MIS_rootset.MIS.traversalPrefix entries G perm
        (MIS_rootset.MIS.stateAt entries G perm k) 0 =
        MIS_rootset.MIS.zeroingPrefix entries G (MIS_rootset.MIS.stateAt entries G perm k)
          (MIS_rootset.MIS.removed entries G
            (MIS_rootset.MIS.stateAt entries G perm k)).toSparse.length ∧
      MIS_rootset.MIS.traversalPrefix entries G perm
        (MIS_rootset.MIS.stateAt entries G perm k)
        ((MIS_rootset.MIS.removed entries G
          (MIS_rootset.MIS.stateAt entries G perm k)).toSparse.flatMap
          (fun s => (G.V s).map (fun d => (s, d)))).length =
        (MIS_rootset.MIS.stateAt entries G perm (k + 1)).priorities) ∧
    (∀ k i v, v < G.n →
      0 ≤ MIS_rootset.MIS.zeroingPrefix entries G
        (MIS_rootset.MIS.stateAt entries G perm k) i v ∧
      MIS_rootset.MIS.zeroingPrefix entries G
          (MIS_rootset.MIS.stateAt entries G perm k) (i + 1) v ≤
        MIS_rootset.MIS.zeroingPrefix entries G
          (MIS_rootset.MIS.stateAt entries G perm k) i v ∧
      (MIS_rootset.MIS.zeroingPrefix entries G
          (MIS_rootset.MIS.stateAt entries G perm k) i v = 0 →
        MIS_rootset.MIS.zeroingPrefix entries G
          (MIS_rootset.MIS.stateAt entries G perm k) (i + 1) v = 0)) ∧
    (∀ k j v, v < G.n →
      0 ≤ MIS_rootset.MIS.traversalPrefix entries G perm
        (MIS_rootset.MIS.stateAt entries G perm k) j v ∧
      MIS_rootset.MIS.traversalPrefix entries G perm
          (MIS_rootset.MIS.stateAt entries G perm k) (j + 1) v ≤
        MIS_rootset.MIS.traversalPrefix entries G perm
          (MIS_rootset.MIS.stateAt entries G perm k) j v ∧
      (MIS_rootset.MIS.traversalPrefix entries G perm
          (MIS_rootset.MIS.stateAt entries G perm k) j v = 0 →
        MIS_rootset.MIS.traversalPrefix entries G perm
          (MIS_rootset.MIS.stateAt entries G perm k) (j + 1) v = 0)) ∧
    (∀ k v, v < G.n →
      0 ≤ (MIS_rootset.MIS.stateAt entries G perm k).priorities v ∧
      (MIS_rootset.MIS.stateAt entries G perm (k + 1)).priorities v ≤
        (MIS_rootset.MIS.stateAt entries G perm k).priorities v ∧
      ((MIS_rootset.MIS.stateAt entries G perm k).priorities v = 0 →
        (MIS_rootset.MIS.stateAt entries G perm (k + 1)).priorities v = 0)) ∧
    (∀ k v, v < G.n →
      (v ∉ MIS_rootset.MIS.rootsBefore entries G perm k →
        v ∉ MIS_rootset.MIS.removedBefore entries G perm k →
        (MIS_rootset.MIS.stateAt entries G perm k).priorities v =
          ((G.V v).countP (fun u => decide (perm u < perm v ∧
            u ∉ MIS_rootset.MIS.rootsBefore entries G perm k ∧
            u ∉ MIS_rootset.MIS.removedBefore entries G perm k)) : Nat)) ∧
      ((v ∈ MIS_rootset.MIS.rootsBefore entries G perm k ∨
          v ∈ MIS_rootset.MIS.removedBefore entries G perm k) →
        (MIS_rootset.MIS.stateAt entries G perm k).priorities v = 0)) := by
  have hinv := MIS_rootset.Inv_stateAt entries hent G perm hG hperm
  refine ⟨fun v => rfl, fun k => MIS_rootset.prefix_ends entries G perm _,
    fun k i v hv => ?_, fun k j v hv => ?_, fun k v hv => ?_, fun k v hv => ⟨?_, ?_⟩⟩
  · have hnn := MIS_rootset.zeroing_nonneg entries G _ v ((hinv k).pri_nonneg v hv) i
    obtain ⟨s1, s2⟩ := MIS_rootset.zeroing_step entries G
      (MIS_rootset.MIS.stateAt entries G perm k) i v
    exact ⟨hnn, (s1 hnn).1, s2⟩
  · have hnn := MIS_rootset.traversal_nonneg entries G perm _ v ((hinv k).pri_nonneg v hv) j
    obtain ⟨s1, _, s3⟩ := MIS_rootset.traversal_step entries G perm
      (MIS_rootset.MIS.stateAt entries G perm k) j v
    exact ⟨hnn, s1, s3⟩
  · exact MIS_rootset.round_descends entries hent G perm hG _ _ _ (hinv k) v hv
  · intro hm hx
    have h := hinv k
    have hmis : (MIS_rootset.MIS.stateAt entries G perm k).in_mis v = false := by
      cases hc : (MIS_rootset.MIS.stateAt entries G perm k).in_mis v
      · rfl
      · exact absurd ((h.mlog_spec v).2 hc) hm
    have hact : 0 < (MIS_rootset.MIS.stateAt entries G perm k).priorities v ∨
        v ∈ (MIS_rootset.MIS.stateAt entries G perm k).roots.toSparse := by
      by_cases hr : v ∈ (MIS_rootset.MIS.stateAt entries G perm k).roots.toSparse
      · exact Or.inr hr
      · left
        have hnn := h.pri_nonneg v hv
        by_contra hnp
        exact hx ((h.xlog_spec v).2 ⟨hv, by omega, hmis, hr⟩)
    rw [h.pri_count v hv hact]
    congr 1
    apply List.countP_congr
    intro u hu
    simp only [decide_eq_true_eq]
    have hun := hG.1 v hv u hu
    constructor
    · rintro ⟨hlt, hau⟩
      refine ⟨hlt, fun hum => ?_, fun hux => ?_⟩
      · have hmu := (h.mlog_spec u).1 hum
        obtain ⟨_, hp0, hnb⟩ := h.member_spec u hmu
        rcases hau with h1 | h1
        · omega
        · have := (h.roots_spec u h1).2.2
          rw [hmu] at this
          exact absurd this (by simp)
      · obtain ⟨_, hp0, _, hnr⟩ := (h.xlog_spec u).1 hux
        rcases hau with h1 | h1
        · omega
        · exact hnr h1
    · rintro ⟨hlt, hum, hux⟩
      refine ⟨hlt, ?_⟩
      have hmisu : (MIS_rootset.MIS.stateAt entries G perm k).in_mis u = false := by
        cases hc : (MIS_rootset.MIS.stateAt entries G perm k).in_mis u
        · rfl
        · exact absurd ((h.mlog_spec u).2 hc) hum
      by_cases hr : u ∈ (MIS_rootset.MIS.stateAt entries G perm k).roots.toSparse
      · exact Or.inr hr
      · left
        have hnn := h.pri_nonneg u hun
        by_contra hnp
        exact hux ((h.xlog_spec u).2 ⟨hun, by omega, hmisu, hr⟩)
  · intro hres
    have h := hinv k
    rcases hres with hm | hx
    · exact (h.member_spec v ((h.mlog_spec v).1 hm)).2.1
    · exact ((h.xlog_spec v).1 hx).2.1

/-- The hypotheses of `MIS_rootset_priority_invariant` hold on the 4-cycle with the
identity order: there the priorities of round 0 are 0, 1, 1, 2. -/
theorem MIS_rootset_priority_invariant_witness :
    cycle4.simple ∧ isPermutation cycle4.n (fun i => i) ∧
    (∀ v, (MIS_rootset.MIS.init cycle4 (fun i => i)).priorities v =
      ((cycle4.V v).countP (fun u => decide (u < v)) : Nat)) ∧
    (∀ k v, v < cycle4.n →
      0 ≤ (MIS_rootset.MIS.stateAt id cycle4 (fun i => i) k).priorities v ∧
      (MIS_rootset.MIS.stateAt id cycle4 (fun i => i) (k + 1)).priorities v ≤
        (MIS_rootset.MIS.stateAt id cycle4 (fun i => i) k).priorities v ∧
      ((MIS_rootset.MIS.stateAt id cycle4 (fun i => i) k).priorities v = 0 →
        (MIS_rootset.MIS.stateAt id cycle4 (fun i => i) (k + 1)).priorities v = 0)) :=
  ⟨by decide, by decide,
    (MIS_rootset_priority_invariant id cycle4 (fun i => i) (fun l => List.Perm.refl l)
      (by decide) (by decide)).1,
    (MIS_rootset_priority_invariant id cycle4 (fun i => i) (fun l => List.Perm.refl l)
      (by decide) (by decide)).2.2.2.2.1⟩

/-! ## The checker `verify_mis` and its agreement with `verify_MIS` -/

theorem MIS_rootset.mark_fold (N : List Nat) (d : Nat → Nat) (hd : ∀ x, d x ≤ 1) :
    (∀ x, (N.foldl (fun (d : Nat → Nat) ngh =>
        if d ngh = 0 then Function.update d ngh 1 else d) d) x ≤ 1) ∧
    ∀ x, (N.foldl (fun (d : Nat → Nat) ngh =>
        if d ngh = 0 then Function.update d ngh 1 else d) d) x = 1 ↔ (d x = 1 ∨ x ∈ N) := by
  induction N generalizing d with
  | nil => exact ⟨hd, fun x => by simp⟩
  | cons a N ih =>
    rw [List.foldl_cons]
    have hd1 : ∀ x, (if d a = 0 then Function.update d a 1 else d) x ≤ 1 := by
      intro x
      by_cases h0 : d a = 0
      · rw [if_pos h0]
        by_cases hxa : x = a
        · subst hxa; simp
        · rw [Function.update_noteq hxa]; exact hd x
      · rw [if_neg h0]; exact hd x
    obtain ⟨ih1, ih2⟩ := ih _ hd1
    refine ⟨ih1, fun x => ?_⟩
    rw [ih2 x]
    by_cases h0 : d a = 0
    · rw [if_pos h0]
      by_cases hxa : x = a
      · subst hxa; simp
      · rw [Function.update_noteq hxa]
        simp [hxa]
    · rw [if_neg h0]
      have ha1 : d a = 1 := by have := hd a; omega
      by_cases hxa : x = a
      · subst hxa; simp [ha1]
      · simp [hxa]

theorem MIS_rootset.verify_mis_d_fold (G : graph) (in_mis : Nat → Bool) (L : List Nat)
    (d : Nat → Nat) (hd : ∀ x, d x ≤ 1) :
    (∀ x, (L.foldl (fun d i => if in_mis i = true then
        mapOutNgh G i (fun (d : Nat → Nat) (_src ngh : Nat) =>
          if d ngh = 0 then Function.update d ngh 1 else d) d else d) d) x ≤ 1) ∧
    ∀ x, (L.foldl (fun d i => if in_mis i = true then
        mapOutNgh G i (fun (d : Nat → Nat) (_src ngh : Nat) =>
          if d ngh = 0 then Function.update d ngh 1 else d) d else d) d) x = 1 ↔
      (d x = 1 ∨ ∃ i, i ∈ L ∧ in_mis i = true ∧ x ∈ G.V i) := by
  induction L generalizing d with
  | nil => exact ⟨hd, fun x => by simp⟩
  | cons a L ih =>
    rw [List.foldl_cons]
    by_cases hm : in_mis a = true
    · rw [if_pos hm]
      obtain ⟨m1, m2⟩ := MIS_rootset.mark_fold (G.V a) d hd
      obtain ⟨ih1, ih2⟩ := ih (mapOutNgh G a (fun (d : Nat → Nat) (_src ngh : Nat) =>
          if d ngh = 0 then Function.update d ngh 1 else d) d) m1
      refine ⟨ih1, fun x => ?_⟩
      rw [ih2 x]
      have hm2 : mapOutNgh G a (fun (d : Nat → Nat) (_src ngh : Nat) =>
          if d ngh = 0 then Function.update d ngh 1 else d) d x = 1 ↔
          (d x = 1 ∨ x ∈ G.V a) := m2 x
      rw [hm2]
      constructor
      · rintro ((h | h) | ⟨i, hi, him, hx⟩)
        · exact Or.inl h
        · exact Or.inr ⟨a, List.mem_cons_self _ _, hm, h⟩
        · exact Or.inr ⟨i, List.mem_cons_of_mem _ hi, him, hx⟩
      · rintro (h | ⟨i, hi, him, hx⟩)
        · exact Or.inl (Or.inl h)
        · rcases List.mem_cons.1 hi with h | h
          · subst h; exact Or.inl (Or.inr hx)
          · exact Or.inr ⟨i, h, him, hx⟩
    · rw [if_neg hm]
      obtain ⟨ih1, ih2⟩ := ih d hd
      refine ⟨ih1, fun x => ?_⟩
      rw [ih2 x]
      constructor
      · rintro (h | ⟨i, hi, him, hx⟩)
        · exact Or.inl h
        · exact Or.inr ⟨i, List.mem_cons_of_mem _ hi, him, hx⟩
      · rintro (h | ⟨i, hi, him, hx⟩)
        · exact Or.inl h
        · rcases List.mem_cons.1 hi with h | h
          · subst h; exact absurd him hm
          · exact Or.inr ⟨i, h, him, hx⟩

theorem MIS_rootset.verify_mis_d_spec (G : graph) (in_mis : Nat → Bool) :
    (∀ x, MIS_rootset.verify_mis.d G in_mis x ≤ 1) ∧
    ∀ x, MIS_rootset.verify_mis.d G in_mis x = 1 ↔
      ∃ i, i < G.n ∧ in_mis i = true ∧ x ∈ G.V i := by
  obtain ⟨h1, h2⟩ := MIS_rootset.verify_mis_d_fold G in_mis (List.range G.n) (fun _ => 0)
    (fun _ => Nat.zero_le _)
  refine ⟨h1, fun x => ?_⟩
  have := h2 x
  unfold MIS_rootset.verify_mis.d
  rw [this]
  simp only [Nat.zero_ne_one, false_or, List.mem_range]

theorem sum_map_eq_countP_one (d : Nat → Nat) (l : List Nat) (hd : ∀ x, d x ≤ 1) :
    (l.map d).sum = l.countP (fun x => decide (d x = 1)) := by
  induction l with
  | nil => rfl
  | cons a l ih =>
    rw [List.map_cons, List.sum_cons, ih, List.countP_cons]
    have := hd a
    by_cases h : d a = 1
    · simp [h, Nat.add_comm]
    · have h0 : d a = 0 := by omega
      simp [h0]

theorem countP_eq_of_imp (l : List Nat) (a b : Nat → Bool)
    (himp : ∀ x, x ∈ l → a x = true → b x = true) (hcount : l.countP a = l.countP b) :
    ∀ x, x ∈ l → b x = true → a x = true := by
  induction l with
  | nil => intro x hx; exact absurd hx (List.not_mem_nil x)
  | cons c l ih =>
    have hle : l.countP a ≤ l.countP b :=
      List.countP_mono_left (fun x hx => himp x (List.mem_cons_of_mem _ hx))
    have hc := himp c (List.mem_cons_self _ _)
    rw [List.countP_cons, List.countP_cons] at hcount
    intro x hx hbx
    rcases List.mem_cons.1 hx with h | h
    · subst h
      cases ha : a x
      · simp only [ha, hbx, Bool.false_eq_true, if_false, if_true] at hcount
        omega
      · rfl
    · apply ih (fun y hy => himp y (List.mem_cons_of_mem _ hy)) _ x h hbx
      cases ha : a c <;> cases hb : b c
      · simp only [ha, hb, Bool.false_eq_true, if_false] at hcount; omega
      · simp only [ha, hb, Bool.false_eq_true, if_false, if_true] at hcount; omega
      · rw [hc ha] at hb; exact absurd hb (by simp)
      · simp only [ha, hb, if_true] at hcount; omega

theorem MIS_rootset.verify_mis_ok_iff (G : graph) (in_mis : Nat → Bool) :
    MIS_rootset.verify_mis G in_mis = .ok () ↔
      ((∀ i, i < G.n → in_mis i = true → MIS_rootset.verify_mis.d G in_mis i = 0) ∧
        (List.range G.n).countP (fun x => decide (MIS_rootset.verify_mis.d G in_mis x = 1)) =
          G.n - (List.range G.n).countP in_mis) := by
  obtain ⟨hd, _⟩ := MIS_rootset.verify_mis_d_spec G in_mis
  unfold MIS_rootset.verify_mis
  simp only
  rw [sum_map_eq_countP_one _ _ hd, sum_map_ite_eq_countP]
  have hall : ((List.range G.n).all (fun i => if in_mis i = true then
      decide (MIS_rootset.verify_mis.d G in_mis i = 0) else true) = true) ↔
      ∀ i, i < G.n → in_mis i = true → MIS_rootset.verify_mis.d G in_mis i = 0 := by
    rw [List.all_eq_true]
    constructor
    · intro h i hi hm
      have := h i (List.mem_range.2 hi)
      rw [if_pos hm] at this
      simpa using this
    · intro h i hi
      by_cases hm : in_mis i = true
      · rw [if_pos hm]
        simpa using h i (List.mem_range.1 hi) hm
      · rw [if_neg hm]
  by_cases h1 : (List.range G.n).all (fun i => if in_mis i = true then
      decide (MIS_rootset.verify_mis.d G in_mis i = 0) else true) = true
  · rw [if_pos h1]
    by_cases h2 : (List.range G.n).countP
        (fun x => decide (MIS_rootset.verify_mis.d G in_mis x = 1)) =
        G.n - (List.range G.n).countP in_mis
    · rw [if_pos h2]
      exact ⟨fun _ => ⟨hall.1 h1, h2⟩, fun _ => rfl⟩
    · rw [if_neg h2]
      exact ⟨fun h => by simp at h, fun h => absurd h.2 h2⟩
  · rw [if_neg h1]
    exact ⟨fun h => by simp at h, fun h => absurd (hall.2 h.1) h1⟩

/-- C20 (the two verifiers agree): on a graph with symmetric adjacency, both assertions
of `MIS_rootset::verify_mis` hold (no member is marked as a neighbour of a member, and
the number of marked vertices is `n` minus the number of members) exactly when
`verify_MIS` computes `n_ok == n` on the same membership array. -/
theorem verifiers_agree (G : graph) (in_mis : Nat → Bool) (hwf : G.wellFormed)
    (hsym : G.symmetric) :
    (MIS_rootset.verify_mis G in_mis = .ok () ↔
      ((∀ i, i < G.n → in_mis i = true → MIS_rootset.verify_mis.d G in_mis i = 0) ∧
        ((List.range G.n).map (MIS_rootset.verify_mis.d G in_mis)).sum =
          G.n - ((List.range G.n).map (fun i => if in_mis i then 1 else 0)).sum)) ∧
    (MIS_rootset.verify_mis G in_mis = .ok () ↔ verify_MIS.n_ok G in_mis = G.n) ∧
    (MIS_rootset.verify_mis G in_mis = .ok () ↔ verify_MIS G in_mis = Report.valid) := by
  obtain ⟨hd, hmark⟩ := MIS_rootset.verify_mis_d_spec G in_mis
  have hok := MIS_rootset.verify_mis_ok_iff G in_mis
  have hlen := List.length_eq_countP_add_countP in_mis (l := List.range G.n)
  rw [List.length_range] at hlen
  have hmain : MIS_rootset.verify_mis G in_mis = .ok () ↔ verify_MIS.n_ok G in_mis = G.n := by
    rw [hok, verify_MIS_n_ok_eq_n_iff]
    constructor
    · rintro ⟨hA1, hA2⟩
      have hsub : ∀ x, x ∈ List.range G.n →
          decide (MIS_rootset.verify_mis.d G in_mis x = 1) = true →
          (decide ¬ in_mis x = true) = true := by
        intro x hx hmx
        simp only [decide_eq_true_eq] at hmx ⊢
        intro hm
        have := hA1 x (List.mem_range.1 hx) hm
        omega
      have hback := countP_eq_of_imp (List.range G.n)
        (fun x => decide (MIS_rootset.verify_mis.d G in_mis x = 1))
        (fun x => decide ¬ in_mis x = true) hsub (by omega)
      intro i hi
      constructor
      · intro hm u hu
        cases hmu : in_mis u
        · rfl
        · have hun := hwf i hi u hu
          have h1 : MIS_rootset.verify_mis.d G in_mis u = 1 := (hmark u).2 ⟨i, hi, hm, hu⟩
          have := hA1 u hun hmu
          omega
      · intro hm
        have := hback i (List.mem_range.2 hi) (by simp [hm])
        simp only [decide_eq_true_eq] at this
        obtain ⟨j, hj, hmj, hij⟩ := (hmark i).1 this
        exact ⟨j, hsym j hj i hij, hmj⟩
    · intro hgood
      have hA1 : ∀ i, i < G.n → in_mis i = true → MIS_rootset.verify_mis.d G in_mis i = 0 := by
        intro i hi hm
        by_contra hne
        have h1 : MIS_rootset.verify_mis.d G in_mis i = 1 := by
          have := hd i
          omega
        obtain ⟨j, hj, hmj, hij⟩ := (hmark i).1 h1
        have := (hgood j hj).1 hmj i hij
        rw [hm] at this
        exact absurd this (by simp)
      refine ⟨hA1, ?_⟩
      have hcongr : (List.range G.n).countP
          (fun x => decide (MIS_rootset.verify_mis.d G in_mis x = 1)) =
          (List.range G.n).countP (fun x => decide ¬ in_mis x = true) := by
        apply List.countP_congr
        intro x hx
        simp only [decide_eq_true_eq]
        have hxn := List.mem_range.1 hx
        constructor
        · intro hmx hm
          have := hA1 x hxn hm
          omega
        · intro hm
          have hmf : in_mis x = false := by simpa using hm
          obtain ⟨u, hu, hmu⟩ := (hgood x hxn).2 hmf
          exact (hmark x).2 ⟨u, hwf x hxn u hu, hmu, hsym x hxn u hu⟩
      omega
  refine ⟨?_, hmain, ?_⟩
  · rw [hok, sum_map_eq_countP_one _ _ hd, sum_map_ite_eq_countP]
  · rw [hmain]
    unfold verify_MIS
    by_cases h : verify_MIS.n_ok G in_mis = G.n <;> simp [h]

/-- The hypotheses of `verifiers_agree` hold on the 4-cycle; for the set {0, 2} both
checkers accept. -/
theorem verifiers_agree_witness :
    cycle4.wellFormed ∧ cycle4.symmetric ∧
    (MIS_rootset.verify_mis cycle4 (fun i => i == 0 || i == 2) = .ok () ↔
      verify_MIS.n_ok cycle4 (fun i => i == 0 || i == 2) = cycle4.n) ∧
    MIS_rootset.verify_mis cycle4 (fun i => i == 0 || i == 2) = .ok () :=
  ⟨by decide, by decide,
    (verifiers_agree cycle4 (fun i => i == 0 || i == 2) (by decide) (by decide)).2.1,
    rfl⟩

/-! ## The selection function `kth_smallest` -/

theorem pbbs.kth_smallest.step_spec {T : Type} (less : T → T → Bool) (s : List T) (k : Nat)
    (r0 : Nat) (hs : s ≠ []) (hk : k < s.length) (hlen : s.length < 18446744073709551616) :
    r0 % s.length < s.length ∧
    ∃ pivot, pivot ∈ s ∧ s[r0 % s.length]? = some pivot ∧
      ((k < (s.filter (fun a => less a pivot)).length ∧
          pbbs.kth_smallest.step less s k r0 =
            .ok (.recurse (s.filter (fun a => less a pivot)) k)) ∨
        (¬ k < (s.filter (fun a => less a pivot)).length ∧
          s.length - (s.filter (fun a => less pivot a)).length ≤ k ∧
          pbbs.kth_smallest.step less s k r0 =
            .ok (.recurse (s.filter (fun a => less pivot a))
              (k - (s.length - (s.filter (fun a => less pivot a)).length)))) ∨
        (¬ k < (s.filter (fun a => less a pivot)).length ∧
          k < s.length - (s.filter (fun a => less pivot a)).length ∧
          pbbs.kth_smallest.step less s k r0 = .ok (.result pivot))) := by
  have hn : s.length ≠ 0 := fun h => hs (List.length_eq_zero.1 h)
  have hidx : r0 % s.length < s.length := Nat.mod_lt _ (by omega)
  refine ⟨hidx, s[r0 % s.length], List.getElem_mem _, List.getElem?_eq_getElem hidx, ?_⟩
  have hL : (s.filter (fun a => less s[r0 % s.length] a)).length ≤ s.length :=
    List.length_filter_le _ _
  unfold pbbs.kth_smallest.step
  simp only [hn, if_false, List.getElem?_eq_getElem hidx]
  by_cases h1 : k < (s.filter (fun a => less a s[r0 % s.length])).length
  · left
    exact ⟨h1, by rw [if_pos h1]⟩
  · right
    by_cases h2 : s.length - (s.filter (fun a => less s[r0 % s.length] a)).length ≤ k
    · left
      refine ⟨h1, h2, ?_⟩
      rw [if_neg h1, if_pos h2]
      congr 2
      omega
    · right
      refine ⟨h1, by omega, ?_⟩
      rw [if_neg h1, if_neg h2]

theorem filter_length_lt_of_not {T : Type} (p : T → Bool) (s : List T) (x : T) (hx : x ∈ s)
    (hp : p x = false) : (s.filter p).length < s.length := by
  rw [List.length_filter_lt_length_iff_exists]
  exact ⟨x, hx, by simp [hp]⟩

/-- Under the precondition, the activation makes no faulty access, and a recursive call
it makes is on a shorter, non-empty sequence with an index in range. -/
theorem pbbs.kth_smallest.step_safe {T : Type} (less : T → T → Bool)
    (hirr : ∀ a, less a a = false) (s : List T) (k : Nat) (r0 : Nat) (hs : s ≠ [])
    (hk : k < s.length) (hlen : s.length < 18446744073709551616) :
    ∃ res, pbbs.kth_smallest.step less s k r0 = .ok res ∧
      ∀ s1 k1, res = .recurse s1 k1 →
        s1 ≠ [] ∧ s1.length < s.length ∧ k1 < s1.length := by
  obtain ⟨_, pivot, hp, _, hcase⟩ := pbbs.kth_smallest.step_spec less s k r0 hs hk hlen
  have hsm := filter_length_lt_of_not (fun a => less a pivot) s pivot hp (hirr pivot)
  have hlg := filter_length_lt_of_not (fun a => less pivot a) s pivot hp (hirr pivot)
  rcases hcase with ⟨h1, he⟩ | ⟨h1, h2, he⟩ | ⟨h1, h2, he⟩
  · refine ⟨_, he, fun s1 k1 heq => ?_⟩
    injection heq with e1 e2
    subst e1; subst e2
    exact ⟨fun h => by rw [h] at h1; simp at h1, hsm, h1⟩
  · refine ⟨_, he, fun s1 k1 heq => ?_⟩
    injection heq with e1 e2
    subst e1; subst e2
    have hk1 : k - (s.length - (s.filter (fun a => less pivot a)).length) <
        (s.filter (fun a => less pivot a)).length := by omega
    exact ⟨fun h => by rw [h] at hk1; simp at hk1, hlg, hk1⟩
  · refine ⟨_, he, fun s1 k1 heq => ?_⟩
    injection heq

theorem pbbs.kth_smallest.run_safe {T : Type} (less : T → T → Bool)
    (hirr : ∀ a, less a a = false) :
    ∀ fuel (s : List T) (k : Nat) (r : Nat → Nat), s ≠ [] → k < s.length →
      s.length < 18446744073709551616 → s.length ≤ fuel →
      (∃ x, pbbs.kth_smallest less fuel s k r = .ok x) ∧
      (∀ c, c ∈ pbbs.kth_smallest.calls less fuel s k r →
        c.1 ≠ [] ∧ c.2 < c.1.length ∧ c.1.length < s.length) ∧
      List.Chain (fun a b => b.1.length < a.1.length) (s, k)
        (pbbs.kth_smallest.calls less fuel s k r) := by
  intro fuel
  induction fuel with
  | zero =>
    intro s k r hs _ _ hfuel
    exact absurd (List.length_eq_zero.1 (by omega)) hs
  | succ fuel ih =>
    intro s k r hs hk hlen hfuel
    obtain ⟨res, he, hres⟩ := pbbs.kth_smallest.step_safe less hirr s k (r 0) hs hk hlen
    cases res with
    | result x =>
      refine ⟨⟨x, by simp only [pbbs.kth_smallest, he]⟩, ?_, ?_⟩
      · intro c hc
        simp only [pbbs.kth_smallest.calls, he] at hc
        exact absurd hc (List.not_mem_nil c)
      · simp only [pbbs.kth_smallest.calls, he]
        exact List.Chain.nil
    | recurse s1 k1 =>
      obtain ⟨h1, h2, h3⟩ := hres s1 k1 rfl
      obtain ⟨⟨x, hx⟩, hc, hch⟩ := ih s1 k1 (fun i => r (i + 1)) h1 h3 (by omega) (by omega)
      refine ⟨⟨x, by simp only [pbbs.kth_smallest, he]; exact hx⟩, ?_, ?_⟩
      · intro c hcm
        simp only [pbbs.kth_smallest.calls, he] at hcm
        rcases List.mem_cons.1 hcm with h | h
        · subst h
          exact ⟨h1, h3, h2⟩
        · obtain ⟨a, b, c3⟩ := hc c h
          exact ⟨a, b, by omega⟩
      · simp only [pbbs.kth_smallest.calls, he]
        exact List.Chain.cons h2 hch

/-- C19, amended (`kth_smallest` is well-founded and safe under its precondition): for a
non-empty sequence, an index `k < s.size()` and an irreflexive `less`, the pivot index
`r[0] % n` is in range (the divisor is not zero), every recursive call is made on a
non-empty sequence that is strictly shorter than the sequence of its caller, with an
index below its length, and the call returns a value. -/
theorem kth_smallest_safe {T : Type} (less : T → T → Bool) (s : List T) (k : Nat)
    (r : Nat → Nat) (fuel : Nat) (hirr : ∀ a, less a a = false) (hs : s ≠ [])
    (hk : k < s.length) (hlen : s.length < 18446744073709551616) (hfuel : s.length ≤ fuel) :
    s.length ≠ 0 ∧ r 0 % s.length < s.length ∧
    (∃ res, pbbs.kth_smallest.step less s k (r 0) = .ok res ∧
      ∀ s1 k1, res = .recurse s1 k1 →
        s1 ≠ [] ∧ s1.length < s.length ∧ k1 < s1.length) ∧
    (∀ c, c ∈ pbbs.kth_smallest.calls less fuel s k r →
      c.1 ≠ [] ∧ c.2 < c.1.length ∧ c.1.length < s.length) ∧
    List.Chain (fun a b => b.1.length < a.1.length) (s, k)
      (pbbs.kth_smallest.calls less fuel s k r) ∧
    (∃ x, pbbs.kth_smallest less fuel s k r = .ok x) := by
  obtain ⟨h1, h2, h3⟩ := pbbs.kth_smallest.run_safe less hirr fuel s k r hs hk hlen hfuel
  exact ⟨fun h => hs (List.length_eq_zero.1 h),
    (pbbs.kth_smallest.step_spec less s k (r 0) hs hk hlen).1,
    pbbs.kth_smallest.step_safe less hirr s k (r 0) hs hk hlen, h2, h3, h1⟩

/-- The hypotheses of `kth_smallest_safe` hold for the sequence 5, 3, 9, 1, 7, 3 with
the usual order on numbers. -/
theorem kth_smallest_safe_witness :
    [5, 3, 9, 1, 7, 3].length ≠ 0 ∧ (4 : Nat) % [5, 3, 9, 1, 7, 3].length < [5, 3, 9, 1, 7, 3].length ∧
    (∃ res, pbbs.kth_smallest.step (fun a b : Nat => decide (a < b)) [5, 3, 9, 1, 7, 3] 2 4 =
        .ok res ∧
      ∀ s1 k1, res = .recurse s1 k1 →
        s1 ≠ [] ∧ s1.length < [5, 3, 9, 1, 7, 3].length ∧ k1 < s1.length) ∧
    (∀ c, c ∈ pbbs.kth_smallest.calls (fun a b : Nat => decide (a < b)) 6 [5, 3, 9, 1, 7, 3] 2
        (fun i => 3 * i + 4) →
      c.1 ≠ [] ∧ c.2 < c.1.length ∧ c.1.length < [5, 3, 9, 1, 7, 3].length) ∧
    List.Chain (fun a b => b.1.length < a.1.length) ([5, 3, 9, 1, 7, 3], 2)
      (pbbs.kth_smallest.calls (fun a b : Nat => decide (a < b)) 6 [5, 3, 9, 1, 7, 3] 2
        (fun i => 3 * i + 4)) ∧
    (∃ x, pbbs.kth_smallest (fun a b : Nat => decide (a < b)) 6 [5, 3, 9, 1, 7, 3] 2
      (fun i => 3 * i + 4) = .ok x) :=
  kth_smallest_safe (fun a b : Nat => decide (a < b)) [5, 3, 9, 1, 7, 3] 2
    (fun i => 3 * i + 4) 6 (by simp) (by simp) (by decide) (by decide) (by decide)

theorem countP_and_split {T : Type} (p q : T → Bool) (l : List T) :
    l.countP p = l.countP (fun a => p a && q a) + l.countP (fun a => p a && !q a) := by
  induction l with
  | nil => rfl
  | cons a l ih =>
    rw [List.countP_cons, List.countP_cons, List.countP_cons, ih]
    cases p a <;> cases q a <;> simp <;> omega

theorem countP_not_eq_sub {T : Type} (p : T → Bool) (l : List T) :
    l.countP (fun a => !p a) = l.length - (l.filter p).length := by
  have h := List.length_eq_countP_add_countP p (l := l)
  rw [← List.countP_eq_length_filter]
  have h2 : l.countP (fun a => decide ¬ p a = true) = l.countP (fun a => !p a) := by
    apply List.countP_congr
    intro a _
    cases p a <;> simp
  omega

/-- The value returned for `(s, k)` has at most `k` elements of `s` below it and at
least `k + 1` elements of `s` not above it. -/
theorem pbbs.kth_smallest.run_rank {T : Type} (less : T → T → Bool)
    (hirr : ∀ a, less a a = false)
    (htrans : ∀ a b c, less a b = true → less b c = true → less a c = true) :
    ∀ fuel (s : List T) (k : Nat) (r : Nat → Nat), s ≠ [] → k < s.length →
      s.length < 18446744073709551616 → s.length ≤ fuel →
      ∃ x, pbbs.kth_smallest less fuel s k r = .ok x ∧ x ∈ s ∧
        s.countP (fun a => less a x) ≤ k ∧ k + 1 ≤ s.countP (fun a => !less x a) := by
  intro fuel
  induction fuel with
  | zero =>
    intro s k r hs _ _ hfuel
    exact absurd (List.length_eq_zero.1 (by omega)) hs
  | succ fuel ih =>
    intro s k r hs hk hlen hfuel
    obtain ⟨_, pivot, hp, _, hcase⟩ := pbbs.kth_smallest.step_spec less s k (r 0) hs hk hlen
    have hsm := filter_length_lt_of_not (fun a => less a pivot) s pivot hp (hirr pivot)
    have hlg := filter_length_lt_of_not (fun a => less pivot a) s pivot hp (hirr pivot)
    rcases hcase with ⟨h1, he⟩ | ⟨h1, h2, he⟩ | ⟨h1, h2, he⟩
    · -- the call on `smaller`
      obtain ⟨x, hx, hxm, hlo, hhi⟩ := ih (s.filter (fun a => less a pivot)) k
        (fun i => r (i + 1)) (fun h => by rw [h] at h1; simp at h1) h1 (by omega) (by omega)
      have hxs := (List.mem_filter.1 hxm).1
      have hxp : less x pivot = true := (List.mem_filter.1 hxm).2
      refine ⟨x, by simp only [pbbs.kth_smallest, he]; exact hx, hxs, ?_, ?_⟩
      · rw [List.countP_filter] at hlo
        have : s.countP (fun a => less a x) = s.countP (fun a => less a x && less a pivot) := by
          apply List.countP_congr
          intro a _
          constructor
          · intro h
            simp only [Bool.and_eq_true]
            exact ⟨h, htrans a x pivot h hxp⟩
          · intro h
            simp only [Bool.and_eq_true] at h
            exact h.1
        omega
      · have := List.Sublist.countP_le (fun a => !less x a)
          (List.filter_sublist s : (s.filter (fun a => less a pivot)).Sublist s)
        omega
    · -- the call on `larger`
      have hk1 : k - (s.length - (s.filter (fun a => less pivot a)).length) <
          (s.filter (fun a => less pivot a)).length := by omega
      obtain ⟨x, hx, hxm, hlo, hhi⟩ := ih (s.filter (fun a => less pivot a))
        (k - (s.length - (s.filter (fun a => less pivot a)).length))
        (fun i => r (i + 1)) (fun h => by rw [h] at hk1; simp at hk1) hk1 (by omega) (by omega)
      have hxs := (List.mem_filter.1 hxm).1
      have hxp : less pivot x = true := (List.mem_filter.1 hxm).2
      have hnot : s.countP (fun a => !less pivot a) =
          s.length - (s.filter (fun a => less pivot a)).length :=
        countP_not_eq_sub (fun a => less pivot a) s
      refine ⟨x, by simp only [pbbs.kth_smallest, he]; exact hx, hxs, ?_, ?_⟩
      · rw [List.countP_filter] at hlo
        have hsplit := countP_and_split (fun a => less a x) (fun a => less pivot a) s
        have hle : s.countP (fun a => less a x && !less pivot a) ≤
            s.countP (fun a => !less pivot a) := by
          apply List.countP_mono_left
          intro a _ h
          simp only [Bool.and_eq_true] at h
          exact h.2
        omega
      · rw [List.countP_filter] at hhi
        have hsplit := countP_and_split (fun a => !less x a) (fun a => less pivot a) s
        have heq : s.countP (fun a => !less x a && !less pivot a) =
            s.countP (fun a => !less pivot a) := by
          apply List.countP_congr
          intro a _
          simp only [Bool.and_eq_true, Bool.not_eq_true']
          constructor
          · intro h
            exact h.2
          · intro h
            refine ⟨?_, h⟩
            cases hxa : less x a
            · rfl
            · rw [htrans pivot x a hxp hxa] at h
              exact absurd h (by simp)
        omega
    · -- the pivot is returned
      refine ⟨pivot, by simp only [pbbs.kth_smallest, he], hp, ?_, ?_⟩
      · rw [List.countP_eq_length_filter]
        omega
      · have hnot : s.countP (fun a => !less pivot a) =
            s.length - (s.filter (fun a => less pivot a)).length :=
          countP_not_eq_sub (fun a => less pivot a) s
        omega

/-- Two elements with the rank property of `k` are equivalent. -/
theorem rank_unique {T : Type} (less : T → T → Bool)
    (hneg : ∀ a b c, less a b = false → less b c = false → less a c = false)
    (s : List T) (k : Nat) (x y : T)
    (hx : k + 1 ≤ s.countP (fun a => !less x a)) (hy : s.countP (fun a => less a y) ≤ k) :
    less x y = false := by
  cases hxy : less x y
  · rfl
  · have hle : s.countP (fun a => !less x a) ≤ s.countP (fun a => less a y) := by
      apply List.countP_mono_left
      intro a _ h
      simp only [Bool.not_eq_true'] at h
      cases hay : less a y
      · rw [hneg x a y h hay] at hxy
        exact absurd hxy (by simp)
      · rfl
    omega

/-- The element at index `k` of a sorted list has the rank property of `k`. -/
theorem sorted_rank {T : Type} (less : T → T → Bool) (hirr : ∀ a, less a a = false)
    (t : List T) (ht : t.Pairwise (fun a b => less b a = false)) (k : Nat) (y : T)
    (hy : t[k]? = some y) :
    t.countP (fun a => less a y) ≤ k ∧ k + 1 ≤ t.countP (fun a => !less y a) := by
  have hk : k < t.length := by
    by_contra hge
    rw [List.getElem?_eq_none (by omega)] at hy
    exact absurd hy (by simp)
  have hyk : t[k] = y := by
    rw [List.getElem?_eq_getElem hk] at hy
    exact Option.some.inj hy
  have hsplit : t = t.take k ++ y :: t.drop (k + 1) := by
    rw [← hyk, ← List.drop_eq_getElem_cons hk, List.take_append_drop]
  have hlenA : (t.take k).length = k := by
    rw [List.length_take]
    omega
  rw [hsplit] at ht
  rw [List.pairwise_append] at ht
  obtain ⟨_, hB, hAB⟩ := ht
  rw [List.pairwise_cons] at hB
  have hA : ∀ a, a ∈ t.take k → less y a = false :=
    fun a ha => hAB a ha y (List.mem_cons_self _ _)
  have hD : ∀ b, b ∈ t.drop (k + 1) → less b y = false := fun b hb => hB.1 b hb
  constructor
  · rw [hsplit, List.countP_append, List.countP_cons]
    have h1 : (t.take k).countP (fun a => less a y) ≤ (t.take k).length :=
      List.countP_le_length _
    have h2 : (t.drop (k + 1)).countP (fun a => less a y) = 0 := by
      rw [List.countP_eq_zero]
      intro b hb
      rw [hD b hb]
      simp
    rw [h2, hirr y]
    simp only [Bool.false_eq_true, if_false]
    omega
  · rw [hsplit, List.countP_append, List.countP_cons]
    have h1 : (t.take k).countP (fun a => !less y a) = (t.take k).length := by
      rw [List.countP_eq_length]
      intro a ha
      rw [hA a ha]
      rfl
    rw [h1, hirr y]
    simp only [Bool.not_false, if_true]
    omega

/-- C11 (`kth_smallest` returns the element of rank `k`): for a non-empty sequence `s`,
an index `k < s.size()`, a strict weak order `less` and every random source, the call
returns an element `x` of `s` with at most `k` elements of `s` less than `x` and at
least `k + 1` elements not greater than `x`; `x` is equivalent to the element at index
`k` of every sorted arrangement of `s`, and to the result for every other random
source. -/
theorem kth_smallest_rank {T : Type} (less : T → T → Bool) (s : List T) (k : Nat)
    (r : Nat → Nat) (fuel : Nat) (hirr : ∀ a, less a a = false)
    (htrans : ∀ a b c, less a b = true → less b c = true → less a c = true)
    (hneg : ∀ a b c, less a b = false → less b c = false → less a c = false)
    (hs : s ≠ []) (hk : k < s.length) (hlen : s.length < 18446744073709551616)
    (hfuel : s.length ≤ fuel) :
    ∃ x, pbbs.kth_smallest less fuel s k r = .ok x ∧ x ∈ s ∧
      s.countP (fun a => less a x) ≤ k ∧ k + 1 ≤ s.countP (fun a => !less x a) ∧
      (∀ (t : List T) (y : T), t.Perm s → t.Pairwise (fun a b => less b a = false) → t[k]? = some y →
        less x y = false ∧ less y x = false) ∧
      (∀ r2 fuel2, s.length ≤ fuel2 →
        ∃ y, pbbs.kth_smallest less fuel2 s k r2 = .ok y ∧
          less x y = false ∧ less y x = false) := by
  obtain ⟨x, hx, hxs, hlo, hhi⟩ :=
    pbbs.kth_smallest.run_rank less hirr htrans fuel s k r hs hk hlen hfuel
  refine ⟨x, hx, hxs, hlo, hhi, fun t y hperm hsorted hy => ?_, fun r2 fuel2 hf2 => ?_⟩
  · obtain ⟨ylo, yhi⟩ := sorted_rank less hirr t hsorted k y hy
    rw [hperm.countP_eq] at ylo yhi
    exact ⟨rank_unique less hneg s k x y hhi ylo, rank_unique less hneg s k y x yhi hlo⟩
  · obtain ⟨y, hy, _, ylo, yhi⟩ :=
      pbbs.kth_smallest.run_rank less hirr htrans fuel2 s k r2 hs hk hlen hf2
    exact ⟨y, hy, rank_unique less hneg s k x y hhi ylo, rank_unique less hneg s k y x yhi hlo⟩

/-- The hypotheses of `kth_smallest_rank` hold for the sequence 5, 3, 9, 1, 7, 3 with
the usual order on numbers and `k = 2`. -/
theorem kth_smallest_rank_witness :
    ∃ x, pbbs.kth_smallest (fun a b : Nat => decide (a < b)) 6 [5, 3, 9, 1, 7, 3] 2
        (fun i => 3 * i + 4) = .ok x ∧ x ∈ [5, 3, 9, 1, 7, 3] ∧
      [5, 3, 9, 1, 7, 3].countP (fun a => decide (a < x)) ≤ 2 ∧
      2 + 1 ≤ [5, 3, 9, 1, 7, 3].countP (fun a => !decide (x < a)) ∧
      (∀ (t : List Nat) (y : Nat), t.Perm [5, 3, 9, 1, 7, 3] → t.Pairwise (fun a b => decide (b < a) = false) →
        t[2]? = some y → decide (x < y) = false ∧ decide (y < x) = false) ∧
      (∀ r2 fuel2, [5, 3, 9, 1, 7, 3].length ≤ fuel2 →
        ∃ y, pbbs.kth_smallest (fun a b : Nat => decide (a < b)) fuel2 [5, 3, 9, 1, 7, 3] 2 r2 =
            .ok y ∧ decide (x < y) = false ∧ decide (y < x) = false) :=
  kth_smallest_rank (fun a b : Nat => decide (a < b)) [5, 3, 9, 1, 7, 3] 2
    (fun i => 3 * i + 4) 6 (by simp)
    (by intro a b c h1 h2; simp only [decide_eq_true_eq] at h1 h2 ⊢; omega)
    (by intro a b c h1 h2; simp only [decide_eq_false_iff_not] at h1 h2 ⊢; omega)
    (by simp) (by decide) (by decide) (by decide)

/-- With the reflexive comparison `a <= b` as `less`, the call on the one-element
sequence 1 with `k = 0` recurses on the same sequence, so no amount of fuel yields a
result. -/
theorem pbbs.kth_smallest.reflexive_less_loops (fuel : Nat) (r : Nat → Nat) :
    pbbs.kth_smallest (fun a b : Nat => decide (a ≤ b)) fuel [1] 0 r =
      .error pbbs.Fault.outOfFuel := by
  induction fuel generalizing r with
  | zero => rfl
  | succ fuel ih =>
    have hstep : pbbs.kth_smallest.step (fun a b : Nat => decide (a ≤ b)) [1] 0 (r 0) =
        .ok (.recurse [1] 0) := by
      simp [pbbs.kth_smallest.step, Nat.mod_one]
    rw [pbbs.kth_smallest, hstep]
    exact ih (fun i => r (i + 1))

/-- C19, as stated, fails: the sequence 1 is not empty and `k = 0` is below its size,
yet with the reflexive comparison `a <= b` passed as `less` the filter keeps the pivot
in `smaller`, whatever the random source: the recursive call is made on the same
sequence 1 with the same `k`, which is not strictly shorter, and the recursion never
returns. -/
theorem kth_smallest_safe_fails_reflexive_less :
    ([1] : List Nat) ≠ [] ∧ 0 < ([1] : List Nat).length ∧
    (∀ r0, pbbs.kth_smallest.step (fun a b : Nat => decide (a ≤ b)) [1] 0 r0 =
      .ok (.recurse [1] 0)) ∧
    pbbs.kth_smallest.calls (fun a b : Nat => decide (a ≤ b)) 3 [1] 0 (fun _ => 0) =
      [([1], 0), ([1], 0), ([1], 0)] ∧
    (∃ c, c ∈ pbbs.kth_smallest.calls (fun a b : Nat => decide (a ≤ b)) 3 [1] 0 (fun _ => 0) ∧
      ¬ c.1.length < ([1] : List Nat).length) ∧
    (∀ fuel r, pbbs.kth_smallest (fun a b : Nat => decide (a ≤ b)) fuel [1] 0 r =
      .error pbbs.Fault.outOfFuel) :=
  ⟨by decide, by decide,
    fun r0 => by simp [pbbs.kth_smallest.step, Nat.mod_one],
    rfl, ⟨([1], 0), by decide, by decide⟩,
    fun fuel r => pbbs.kth_smallest.reflexive_less_loops fuel r⟩
